import Mathlib

/-! Shard batch-ack pipeline (`lib/input/aws_kinesis_record_batcher.go`) and
messages of the service API (`public/service/message.go`).

A shallow embedding of `awsKinesisRecordBatcher`: the record batcher of one
Kinesis shard, its write path (`AddRecord`, `FlushMessage`), the ack callback
that `FlushMessage` hands out, `GetSequence` and `Close`; and of
`airGapMessage` and `CopyMessage`, over a heap of part objects.

Conventions of the embedding.

* The receiver `a *awsKinesisRecordBatcher` is passed in and returned
  explicitly; a method returns the new receiver state with its results.
* Go `int` is a 64-bit two's-complement integer: `a.batchedIndex++` is
  `wrapInt (a.batchedIndex + 1)`.
* `map[int]string` is an association list with distinct keys; the order of the
  list plays the part of Go's (unspecified) iteration order.
* `sync.Mutex` sections are atomic steps; `sync.WaitGroup` is its counter.
* The closure `ackFn` captures the receiver and `index`; it is represented by
  the captured `index`, and its body is the function `ackFn` below, split at
  the point where `ackedMut` is taken (`ackResolve`, then `ackLedger`).
* `batch.Policy`, `message.Part` and `checkpoint.Capped` live outside the
  source file; the batcher is generic in the checkpointer, and the models of
  the three collaborators are marked as such.
-/

namespace Benthos

/-! ## Machine integers and errors -/

/-- Go `int` (64 bit): the representative of `x` in `[-2^63, 2^63)`. -/
def wrapInt (x : Int) : Int := (x + 2 ^ 63) % 2 ^ 64 - 2 ^ 63

/-- Go `error` values. `ErrTimeout` is the sentinel `types.ErrTimeout`, which
`FlushMessage` compares with `==`; every other error is `other`. A nil error
is `none : Option GoError`. -/
inductive GoError where
  | ErrTimeout
  | other (msg : String)
  deriving DecidableEq, Repr

/-- The `context.Context` argument of `FlushMessage`, passed on to `Track`. -/
structure Context where
  cancelled : Bool
  deriving DecidableEq, Repr

/-- The `types.Response` argument of the ack callback: `Error()` of the
response. -/
structure Response where
  err : Option GoError
  deriving DecidableEq, Repr

/-! ## Messages -/

/-- Metadata of a part: `map[string]string`, as an association list. -/
abbrev Metadata := List (String × String)

/-- The call `met.Set(k, v)`: overwrite the value of `k`, or add the key. -/
def metaSet : Metadata → String → String → Metadata
  | [], k, v => [(k, v)]
  | (k', v') :: rest, k, v =>
      if k' = k then (k, v) :: rest else (k', v') :: metaSet rest k v

/-- The call `met.Get(k)`: the value of `k`, the empty string when absent. -/
def metaGet : Metadata → String → String
  | [], _ => ""
  | (k', v') :: rest, k => if k' = k then v' else metaGet rest k

/-- A `types.Part`: payload bytes and metadata. -/
structure Part where
  data : List UInt8
  metadata : Metadata
  deriving DecidableEq, Repr

/-- The constructor `message.NewPart(data)`: a part with empty metadata. -/
def NewPart (data : List UInt8) : Part := { data := data, metadata := [] }

/-- A `*kinesis.Record`. `PartitionKey` is a `*string` that `AddRecord` tests
for nil; `SequenceNumber` is dereferenced unconditionally and is therefore a
plain string here. -/
structure Record where
  Data : List UInt8
  PartitionKey : Option String
  SequenceNumber : String
  deriving DecidableEq, Repr

/-- The sequence number a part carries in its metadata. -/
def Part.sequenceNumber (p : Part) : String :=
  metaGet p.metadata "kinesis_sequence_number"

/-! ## The batching policy -/

/-- Modelled from the spec: the batching policy (`batch.Policy`, whose source is
not among the files at hand), as the Batch Accumulator of the specification: a
FIFO buffer of the parts added since the last flush. `complete` is the
policy's decision rule (count, size or check thresholds), which the
specification leaves abstract. -/
structure Policy where
  complete : List Part → Bool
  parts : List Part

/-- Modelled from the spec: the constructor `batch.NewPolicy`, when it succeeds:
a policy with nothing accumulated. -/
def NewPolicy (complete : List Part → Bool) : Policy := { complete := complete, parts := [] }

/-- Modelled from the spec: `Add(record) -> bool` appends a record to the
pending batch and returns whether the policy judges the batch complete. -/
def Policy.Add (p : Policy) (part : Part) : Policy × Bool :=
  ({ p with parts := p.parts ++ [part] }, p.complete (p.parts ++ [part]))

/-- Modelled from the spec: `Flush() -> PendingBatch | none` extracts whatever
is accumulated; it returns none if nothing is pending. -/
def Policy.Flush (p : Policy) : Policy × Option (List Part) :=
  match p.parts with
  | [] => (p, none)
  | x :: xs => ({ p with parts := [] }, some (x :: xs))

/-! ## The checkpointer interface -/

/-- The two methods of `a.checkpointer` that the batcher calls, over a
checkpointer state `τ`: `Track(ctx, index) error` and
`Resolve(index) (int, error)`. Each returns the new checkpointer state. -/
structure Checkpointer (τ : Type) where
  Track : τ → Context → Int → τ × Option GoError
  Resolve : τ → Int → τ × Int × Option GoError

/-! ## The index to sequence map -/

/-- The type `map[int]string`. -/
abbrev IndexMap := List (Int × String)

/-- The lookup `seq, exists := m[k]`. -/
def IndexMap.lookup : IndexMap → Int → Option String
  | [], _ => none
  | (k', v') :: rest, k => if k' = k then some v' else IndexMap.lookup rest k

/-- The assignment `m[k] = v`. -/
def IndexMap.insert : IndexMap → Int → String → IndexMap
  | [], k, v => [(k, v)]
  | (k', v') :: rest, k, v =>
      if k' = k then (k, v) :: rest else (k', v') :: IndexMap.insert rest k v

/-- The call `delete(m, k)`. -/
def IndexMap.delete (m : IndexMap) (k : Int) : IndexMap :=
  m.filter (fun e => e.1 ≠ k)

/-- The keys of the map, in iteration order. -/
def IndexMap.keys (m : IndexMap) : List Int := m.map Prod.fst

/-! ## The batcher -/

/-- The struct `awsKinesisRecordBatcher`. `flushedMessage` is nil (`none`) or a
message, given by its parts; `ackedWG` is the counter of the wait group. -/
structure awsKinesisRecordBatcher (τ : Type) where
  streamID : String
  shardID : String
  batchPolicy : Policy
  checkpointer : τ
  flushedMessage : Option (List Part)
  batchedSequence : String
  batchedIndex : Int
  ackedSequence : String
  indexToSequence : IndexMap
  ackedWG : Int

/-- The struct `asyncMessage`: the message and the ack callback, the latter
given by the `index` its closure captured. `asyncMessage{}` is `empty`. -/
structure asyncMessage where
  msg : Option (List Part)
  ackFn : Option Int
  deriving DecidableEq, Repr

/-- The zero value `asyncMessage{}`. -/
def asyncMessage.empty : asyncMessage := { msg := none, ackFn := none }

/-- The constructor `newAWSKinesisRecordBatcher`, after `batch.NewPolicy` has
succeeded with `batchPolicy` and `checkpoint.NewCapped` has built
`checkpointer`. -/
def awsKinesisRecordBatcher.init {τ : Type} (batchPolicy : Policy) (checkpointer : τ)
    (streamID shardID sequence : String) : awsKinesisRecordBatcher τ :=
  { streamID := streamID
    shardID := shardID
    batchPolicy := batchPolicy
    checkpointer := checkpointer
    flushedMessage := none
    batchedSequence := ""
    batchedIndex := 0
    ackedSequence := sequence
    indexToSequence := []
    ackedWG := 0 }

/-- The constructor `newAWSKinesisRecordBatcher`: `newPolicy` is the result of
`batch.NewPolicy`, whose failure is wrapped and returned. -/
def newAWSKinesisRecordBatcher {τ : Type} (newPolicy : Except String Policy) (checkpointer : τ)
    (streamID shardID sequence : String) : Except GoError (awsKinesisRecordBatcher τ) :=
  match newPolicy with
  | .error err =>
      .error (.other ("failed to initialize batch policy for shard consumer: " ++ err))
  | .ok batchPolicy => .ok (awsKinesisRecordBatcher.init batchPolicy checkpointer streamID shardID sequence)

/-- The part that `AddRecord` builds from a record (lines 51 to 58). -/
def recordPart (streamID shardID : String) (r : Record) : Part :=
  let p := NewPart r.Data
  let met := p.metadata
  let met := metaSet met "kinesis_stream" streamID
  let met := metaSet met "kinesis_shard" shardID
  let met := match r.PartitionKey with
    | some pk => metaSet met "kinesis_partition_key" pk
    | none => met
  let met := metaSet met "kinesis_sequence_number" r.SequenceNumber
  { p with metadata := met }

/-- The method `AddRecord`. -/
def awsKinesisRecordBatcher.AddRecord {τ : Type} (a : awsKinesisRecordBatcher τ) (r : Record) :
    awsKinesisRecordBatcher τ × Bool :=
  let p := recordPart a.streamID a.shardID r
  let a := { a with batchedSequence := r.SequenceNumber, batchedIndex := wrapInt (a.batchedIndex + 1) }
  match a.flushedMessage with
  | some msg => ({ a with flushedMessage := some (msg ++ [p]) }, true)
  | none =>
      let res := a.batchPolicy.Add p
      ({ a with batchPolicy := res.1 }, res.2)

/-- The method `HasPendingMessage`. -/
def awsKinesisRecordBatcher.HasPendingMessage {τ : Type} (a : awsKinesisRecordBatcher τ) : Bool :=
  a.flushedMessage.isSome

/-- Lines 78 to 82 of `FlushMessage`: when no message is pending, ask the policy
to flush and keep what it yields as the pending message. -/
def awsKinesisRecordBatcher.flushPolicy {τ : Type} (a : awsKinesisRecordBatcher τ) :
    awsKinesisRecordBatcher τ :=
  match a.flushedMessage with
  | some _ => a
  | none =>
      let res := a.batchPolicy.Flush
      { a with batchPolicy := res.1, flushedMessage := res.2 }

/-- Lines 84 to 121 of `FlushMessage`, for the pending message `msg`: track the
batched index, and on success record the sequence, count the emission and hand
out the message with its ack callback. -/
def awsKinesisRecordBatcher.trackAndEmit {τ : Type} (C : Checkpointer τ)
    (a : awsKinesisRecordBatcher τ) (msg : List Part) (ctx : Context) :
    awsKinesisRecordBatcher τ × asyncMessage × Option GoError :=
  let tr := C.Track a.checkpointer ctx a.batchedIndex
  let a := { a with checkpointer := tr.1 }
  match tr.2 with
  | some err => (a, asyncMessage.empty, if err = GoError.ErrTimeout then none else some err)
  | none =>
      let index := a.batchedIndex
      let a := { a with indexToSequence := IndexMap.insert a.indexToSequence a.batchedIndex a.batchedSequence }
      let a := { a with ackedWG := a.ackedWG + 1 }
      let aMsg : asyncMessage := { msg := some msg, ackFn := some index }
      ({ a with flushedMessage := none }, aMsg, none)

/-- The method `FlushMessage`. -/
def awsKinesisRecordBatcher.FlushMessage {τ : Type} (C : Checkpointer τ)
    (a : awsKinesisRecordBatcher τ) (ctx : Context) :
    awsKinesisRecordBatcher τ × asyncMessage × Option GoError :=
  let a := a.flushPolicy
  match a.flushedMessage with
  | none => (a, asyncMessage.empty, none)
  | some msg => a.trackAndEmit C msg ctx

/-- The loop `for k := range a.indexToSequence` of the ack callback (lines
107 to 111), over the keys `ks` still to be visited: a key deleted before it is
reached is not produced; the body deletes `topIndex` when `k <= topIndex`. -/
def pruneLoop (topIndex : Int) : List Int → IndexMap → IndexMap
  | [], m => m
  | k :: ks, m =>
      if (IndexMap.lookup m k).isSome then
        pruneLoop topIndex ks (if k ≤ topIndex then IndexMap.delete m topIndex else m)
      else pruneLoop topIndex ks m

/-- The ack callback up to line 101: `topIndex, err := a.checkpointer.Resolve(index)`. -/
def awsKinesisRecordBatcher.ackResolve {τ : Type} (C : Checkpointer τ)
    (a : awsKinesisRecordBatcher τ) (index : Int) :
    awsKinesisRecordBatcher τ × Int × Option GoError :=
  let rs := C.Resolve a.checkpointer index
  ({ a with checkpointer := rs.1 }, rs.2.1, rs.2.2)

/-- The section of the ack callback under `ackedMut` (lines 103 to 114). -/
def awsKinesisRecordBatcher.ledgerResolve {τ : Type} (a : awsKinesisRecordBatcher τ)
    (topIndex : Int) (err : Option GoError) : awsKinesisRecordBatcher τ :=
  match err with
  | some _ => a
  | none =>
      match IndexMap.lookup a.indexToSequence topIndex with
      | none => a
      | some seq =>
          let a := { a with ackedSequence := seq }
          { a with indexToSequence :=
              pruneLoop topIndex (IndexMap.keys a.indexToSequence) a.indexToSequence }

/-- The ack callback from line 103 on: the section under `ackedMut`, then
`a.ackedWG.Done()` and `return err`. -/
def awsKinesisRecordBatcher.ackLedger {τ : Type} (a : awsKinesisRecordBatcher τ)
    (topIndex : Int) (err : Option GoError) : awsKinesisRecordBatcher τ × Option GoError :=
  let a := a.ledgerResolve topIndex err
  ({ a with ackedWG := a.ackedWG - 1 }, err)

/-- The ack callback `ackFn` of the emission that captured `index`, run without
interruption. Its arguments `ctx` and `res` are not used by the body. -/
def awsKinesisRecordBatcher.ackFn {τ : Type} (C : Checkpointer τ)
    (a : awsKinesisRecordBatcher τ) (index : Int) (_ctx : Context) (_res : Response) :
    awsKinesisRecordBatcher τ × Option GoError :=
  let r := a.ackResolve C index
  r.1.ackLedger r.2.1 r.2.2

/-- The method `GetSequence`. -/
def awsKinesisRecordBatcher.GetSequence {τ : Type} (a : awsKinesisRecordBatcher τ) : String :=
  a.ackedSequence

/-! ## The checkpoint tracker -/

/-- Modelled from the spec: the In-Flight Checkpoint Tracker
(`checkpoint.Capped`, whose source is not among the files at hand). It holds
the configured capacity and the indices registered by `Track`, in the order of
registration, each with its Pending (`false`) or Resolved (`true`) state. -/
structure Capped where
  capacity : Nat
  slots : List (Int × Bool)
  deriving DecidableEq, Repr

/-- Modelled from the spec: the constructor `checkpoint.NewCapped(capacity)`, a
tracker with no index registered. -/
def NewCapped (capacity : Nat) : Capped := { capacity := capacity, slots := [] }

/-- Modelled from the spec: the number of currently unresolved indices. -/
def Capped.unresolved (c : Capped) : Nat := (c.slots.filter (fun s => !s.2)).length

/-- Modelled from the spec: `Track(trackingIndex) -> error` registers a new
in-flight index; it blocks while the number of unresolved indices has reached
the capacity (`count(unresolved) >= capacity`), and when the deadline elapses
while blocked it returns a timeout-kind error and does not register the index.
A call that returns is therefore a timeout at capacity and a registration
below it. -/
def Capped.Track (c : Capped) (_ctx : Context) (trackingIndex : Int) : Capped × Option GoError :=
  if c.unresolved ≥ c.capacity then (c, some GoError.ErrTimeout)
  else ({ c with slots := c.slots ++ [(trackingIndex, false)] }, none)

/-- Modelled from the spec: the resolved watermark, the highest tracking index
such that all indices less than or equal to it are Resolved; `0` (below the
first index, `1`) when there is none. -/
def Capped.top (c : Capped) : Int :=
  ((c.slots.map Prod.fst).filter
    (fun k => c.slots.all (fun s => decide (s.1 ≤ k → s.2 = true)))).foldl max 0

/-- Modelled from the spec: `Resolve(trackingIndex) -> (topContiguousIndex,
error)` marks the given index resolved and returns the highest index `k` such
that the indices up to `k` issued so far are all resolved. -/
def Capped.Resolve (c : Capped) (trackingIndex : Int) : Capped × Int × Option GoError :=
  let c := { c with slots := c.slots.map (fun s => if s.1 = trackingIndex then (s.1, true) else s) }
  (c, c.top, none)

/-- The checkpointer of the batcher, `*checkpoint.Capped`. -/
def cappedCheckpointer : Checkpointer Capped :=
  { Track := Capped.Track, Resolve := Capped.Resolve }

/-! ## Executions -/

/-- An emission returned by `FlushMessage`, as the execution records it: the
message, the index captured by its ack callback, the sequence that
`FlushMessage` stored in `indexToSequence` for that index, and whether the
callback has been invoked. -/
structure Emitted where
  msg : List Part
  index : Int
  sequence : String
  invoked : Bool
  deriving DecidableEq, Repr

/-- A batcher with the history of its execution: the records added, the
emissions in emission order, and the ack callbacks that have returned from
`Resolve` with `(topIndex, err)` and not yet taken `ackedMut`. -/
structure World (τ : Type) where
  a : awsKinesisRecordBatcher τ
  added : List Record
  emitted : List Emitted
  resolving : List (Int × Option GoError)

/-- The steps of an execution. The write path calls `AddRecord` and
`FlushMessage`; the callback of the `n`-th emission is either run whole
(`ack`), or run up to `ackedMut.Lock()` (`ackResolve`) and resumed later
(`ackLedger k` resumes the `k`-th suspended callback). -/
inductive Event where
  | AddRecord (r : Record)
  | FlushMessage (ctx : Context)
  | ack (n : Nat) (ctx : Context) (res : Response)
  | ackResolve (n : Nat) (ctx : Context) (res : Response)
  | ackLedger (k : Nat)
  deriving DecidableEq, Repr

/-- Record that the callback of the `n`-th emission has been invoked. -/
def markInvoked : List Emitted → Nat → List Emitted
  | [], _ => []
  | e :: es, 0 => { e with invoked := true } :: es
  | e :: es, n + 1 => e :: markInvoked es n

/-- One step of an execution. An ack event for an emission that does not exist
is not a step. -/
def step {τ : Type} (C : Checkpointer τ) (w : World τ) : Event → World τ
  | .AddRecord r => { w with a := (w.a.AddRecord r).1, added := w.added ++ [r] }
  | .FlushMessage ctx =>
      let res := w.a.FlushMessage C ctx
      match res.2.1.msg, res.2.1.ackFn with
      | some msg, some index =>
          { w with
            a := res.1
            emitted := w.emitted ++
              [{ msg := msg, index := index, sequence := w.a.batchedSequence, invoked := false }] }
      | _, _ => { w with a := res.1 }
  | .ack n ctx res =>
      match w.emitted[n]? with
      | none => w
      | some e =>
          { w with a := (w.a.ackFn C e.index ctx res).1, emitted := markInvoked w.emitted n }
  | .ackResolve n _ _ =>
      match w.emitted[n]? with
      | none => w
      | some e =>
          let r := w.a.ackResolve C e.index
          { w with a := r.1, emitted := markInvoked w.emitted n, resolving := w.resolving ++ [r.2] }
  | .ackLedger k =>
      match w.resolving[k]? with
      | none => w
      | some r => { w with a := (w.a.ackLedger r.1 r.2).1, resolving := w.resolving.eraseIdx k }

/-- The state after the events `evs`, from `w`. -/
def run {τ : Type} (C : Checkpointer τ) (w : World τ) (evs : List Event) : World τ :=
  evs.foldl (step C) w

/-- The state of a newly constructed batcher. -/
def World.init {τ : Type} (batchPolicy : Policy) (checkpointer : τ)
    (streamID shardID sequence : String) : World τ :=
  { a := awsKinesisRecordBatcher.init batchPolicy checkpointer streamID shardID sequence
    added := []
    emitted := []
    resolving := [] }

/-- The number of `AddRecord` calls of an execution. -/
def countAdds : List Event → Nat
  | [] => 0
  | .AddRecord _ :: evs => countAdds evs + 1
  | _ :: evs => countAdds evs

/-- Whether every ack callback of the execution runs without interruption. -/
def atomicAcks : List Event → Bool
  | [] => true
  | .ackResolve _ _ _ :: _ => false
  | .ackLedger _ :: _ => false
  | _ :: evs => atomicAcks evs

/-! ## Invariants of an execution -/

/-- The parts of the records added so far, in the order they were added. -/
def World.addedParts {τ : Type} (w : World τ) : List Part :=
  w.added.map (recordPart w.a.streamID w.a.shardID)

/-- The items of the emitted batches, concatenated in emission order. -/
def World.emittedItems {τ : Type} (w : World τ) : List Part :=
  (w.emitted.map Emitted.msg).flatten

/-- The parts held back by the write path: the pending flushed message, then
the buffer of the policy. -/
def World.held {τ : Type} (w : World τ) : List Part :=
  w.a.flushedMessage.getD [] ++ w.a.batchPolicy.parts

/-- The invariant of the write path. The parts added are the emitted items
followed by the parts held back; a pending message is not empty and excludes a
buffered part in the policy; the batched sequence is the sequence number of
the last part held back; and the sequence recorded with an emission is the
sequence number of its last item. -/
structure WriteInv {τ : Type} (w : World τ) : Prop where
  order : w.addedParts = w.emittedItems ++ w.held
  pending : ∀ msg, w.a.flushedMessage = some msg → msg ≠ [] ∧ w.a.batchPolicy.parts = []
  lastSeq : ∀ p, w.held.getLast? = some p → p.sequenceNumber = w.a.batchedSequence
  emittedSeq : ∀ x ∈ w.emitted.map (fun e => (e.msg, e.sequence)),
    ∃ p, x.1.getLast? = some p ∧ p.sequenceNumber = x.2

/-- The invariant of the batched index, as long as it has not wrapped around:
it counts the records added; the indices of the emissions lie between 1 and
the batched index, are below it while parts are held back, and increase
strictly in emission order. -/
structure IndexInv {τ : Type} (w : World τ) : Prop where
  batched : w.a.batchedIndex = (w.added.length : Int)
  bounds : ∀ i ∈ w.emitted.map Emitted.index, 1 ≤ i ∧ i ≤ w.a.batchedIndex
  fresh : w.held ≠ [] → ∀ i ∈ w.emitted.map Emitted.index, i < w.a.batchedIndex
  increasing : (w.emitted.map Emitted.index).Pairwise (fun i j => i < j)

/-- The states a new batcher reaches: those after some execution from the
state that `newAWSKinesisRecordBatcher` builds around a new policy. -/
def Reachable {τ : Type} (C : Checkpointer τ) (w : World τ) : Prop :=
  ∃ (complete : List Part → Bool) (checkpointer : τ) (streamID shardID sequence : String)
    (evs : List Event),
    w = run C (World.init (NewPolicy complete) checkpointer streamID shardID sequence) evs

/-- Every emitted batch with a tracking index up to `t` has had its ack
callback invoked. -/
def Settled (l : List Emitted) (t : Int) : Prop :=
  ∀ e ∈ l, e.index ≤ t → e.invoked = true

/-- A top index that `Resolve` may have returned: `0`, or the index of an
emitted batch; and every batch with an index up to it has been acked. -/
def SafeTop (l : List Emitted) (t : Int) : Prop :=
  (t = 0 ∨ t ∈ l.map Emitted.index) ∧ Settled l t

/-- The invariant of the tracker and the ledger, for the checkpointer `Capped`
and the seed `sequence`. The slots of the tracker are the emissions with
their acked state; every entry of `indexToSequence` is the index and the
sequence of an emission; every suspended callback holds a safe top index and
no error; and the acked sequence is the seed or the sequence of an emission
whose index is settled. -/
structure LedgerInv (sequence : String) (w : World Capped) : Prop where
  slots : w.a.checkpointer.slots = w.emitted.map (fun e => (e.index, e.invoked))
  entries : ∀ i s, IndexMap.lookup w.a.indexToSequence i = some s →
    (i, s) ∈ w.emitted.map (fun e => (e.index, e.sequence))
  suspended : ∀ r ∈ w.resolving, r.2 = none ∧ SafeTop w.emitted r.1
  acked : w.a.ackedSequence = sequence ∨
    ∃ e ∈ w.emitted, e.sequence = w.a.ackedSequence ∧ Settled w.emitted e.index

/-- The emission up to which every batch has been acked: the last of the
leading acked emissions, none when the first batch has not been acked. -/
def watermark (l : List Emitted) : Option Emitted :=
  (l.takeWhile (fun e => e.invoked)).getLast?

/-- The invariant of the acked sequence when ack callbacks run one at a time,
for the checkpointer `Capped` and the seed `sequence`. No callback is
suspended; the acked sequence is the seed while no index is settled, and
otherwise the sequence of the emission with the highest settled index; and
`indexToSequence` holds the entry of every emission whose index is not
settled. -/
structure ExactInv (sequence : String) (w : World Capped) : Prop where
  idle : w.resolving = []
  acked : (w.a.ackedSequence = sequence ∧ ∀ e ∈ w.emitted, ¬ Settled w.emitted e.index) ∨
    ∃ e ∈ w.emitted, e.sequence = w.a.ackedSequence ∧ Settled w.emitted e.index ∧
      ∀ e' ∈ w.emitted, Settled w.emitted e'.index → e'.index ≤ e.index
  present : ∀ e ∈ w.emitted, ¬ Settled w.emitted e.index →
    IndexMap.lookup w.a.indexToSequence e.index = some e.sequence

/-! ## Example inputs -/

/-- A record with the sequence number `seq`. -/
def exampleRecord (seq : String) : Record :=
  { Data := [0], PartitionKey := none, SequenceNumber := seq }

/-- A count-based rule: a batch is complete at two parts. -/
def exampleComplete : List Part → Bool := fun ps => decide (2 ≤ ps.length)

/-- A new policy with that rule. -/
def examplePolicy : Policy := NewPolicy exampleComplete

/-- A new batcher of stream `stream`, shard `shard`, seeded with the sequence
`seed`, whose checkpointer has the given capacity. -/
def exampleWorld (capacity : Nat) : World Capped :=
  World.init examplePolicy (NewCapped capacity) "stream" "shard" "seed"

/-- The background context. -/
def exampleCtx : Context := { cancelled := false }

/-- A response without error. -/
def exampleRes : Response := { err := none }

/-- Three records `A`, `B`, `C`, each flushed on its own: three emissions with
the tracking indices 1, 2, 3. -/
def threeBatches : List Event :=
  [.AddRecord (exampleRecord "A"), .FlushMessage exampleCtx,
   .AddRecord (exampleRecord "B"), .FlushMessage exampleCtx,
   .AddRecord (exampleRecord "C"), .FlushMessage exampleCtx]

/-! ## Shutdown, counting and responses -/

/-- Modelled from the spec: `Close()` of the batching policy releases the
resources the policy holds (`batch.Policy.CloseAsync`, whose source is not
among the files at hand); the buffer is not touched. -/
def Policy.CloseAsync (p : Policy) : Policy := p

/-- The method `Close`. With `blocked`, `a.ackedWG.Wait()` returns only when
the counter of the wait group is zero; in a state where it is not, the call
does not return (`none`). Then the policy is closed. -/
def awsKinesisRecordBatcher.Close {τ : Type} (a : awsKinesisRecordBatcher τ) (blocked : Bool) :
    Option (awsKinesisRecordBatcher τ) :=
  if blocked = true ∧ a.ackedWG ≠ 0 then none
  else some { a with batchPolicy := a.batchPolicy.CloseAsync }

/-- Whether the event invokes an ack callback in the state `w`: an `ack` or an
`ackResolve` of an emission that exists. -/
def invokesAck {τ : Type} (w : World τ) : Event → Bool
  | .ack n _ _ => w.emitted[n]?.isSome
  | .ackResolve n _ _ => w.emitted[n]?.isSome
  | _ => false

/-- The number of ack-callback invocations in the execution `evs` from `w`. -/
def ackInvocations {τ : Type} (C : Checkpointer τ) : World τ → List Event → Nat
  | _, [] => 0
  | w, e :: evs => (if invokesAck w e then 1 else 0) + ackInvocations C (step C w e) evs

/-- The event with the response of its ack callback, if it has one, replaced
by `res`. -/
def Event.setResponse (res : Response) : Event → Event
  | .ack n ctx _ => .ack n ctx res
  | .ackResolve n ctx _ => .ackResolve n ctx res
  | e => e

/-- A response that carries a failure. -/
def failureRes : Response := { err := some (GoError.other "processing failed") }

/-- The invariant of the capacity of the tracker `Capped`: the capacity is the
one it was built with, and the unresolved indices do not exceed it. -/
def CapInv (capacity : Nat) (w : World Capped) : Prop :=
  w.a.checkpointer.capacity = capacity ∧ w.a.checkpointer.unresolved ≤ capacity

/-! ## Messages of the service API (`public/service/message.go`) -/

/-- A structured payload, the `interface{}` value that `Structured` returns and
`SetStructured` takes, given by its JSON text. -/
structure Structured where
  json : String
  deriving DecidableEq, Repr

/-- Modelled from the spec: the state of a message part object (`message.Part`,
whose source is not among the files at hand), the payload and the metadata of
a record: the payload bytes, the structured payload when one has been set in
their place, and the key to value mapping. -/
structure PartData where
  data : List UInt8
  structured : Option Structured
  metadata : Metadata
  deriving DecidableEq, Repr

/-- The state of `message.NewPart(nil)`. -/
def PartData.empty : PartData := { data := [], structured := none, metadata := [] }

/-- The part objects that exist, by address; a new object gets the next
address. -/
abbrev PartHeap := List PartData

/-- A `types.Part` value: the address of a part object, under the context that
`message.WithContext` wrapped around it. Two values with the same address
share the payload and the metadata. -/
structure PartRef where
  addr : Nat
  ctx : Context
  deriving DecidableEq, Repr

/-- The state of the part object that `p` points to. -/
def readPart (h : PartHeap) (p : PartRef) : PartData := h.getD p.addr PartData.empty

/-- The heap with the state of the part object of `p` replaced by `d`. -/
def writePart (h : PartHeap) (p : PartRef) (d : PartData) : PartHeap := h.set p.addr d

/-- The serialisation of structured payloads that a part uses: `marshal` gives
the bytes of a structured value, `unmarshal` parses bytes and fails on bytes
that are not a structured value. -/
structure Codec where
  marshal : Structured → List UInt8
  unmarshal : List UInt8 → Option Structured

/-- Modelled from the spec: `Copy()` of a part, the deep copy of the lazy copy
on first mutation: a new part object with the same payload and metadata,
under the same context. -/
def partCopy (h : PartHeap) (p : PartRef) : PartHeap × PartRef :=
  (h ++ [readPart h p], { addr := h.length, ctx := p.ctx })

/-- Modelled from the spec: `message.NewPart(nil)`, a new part object with an
empty payload and no metadata, under the background context. -/
def allocPart (h : PartHeap) : PartHeap × PartRef :=
  (h ++ [PartData.empty], { addr := h.length, ctx := { cancelled := false } })

/-- Modelled from the spec: `Set(b)` of a part replaces its payload by the
bytes `b`. -/
def partSet (h : PartHeap) (p : PartRef) (b : List UInt8) : PartHeap :=
  writePart h p { readPart h p with data := b, structured := none }

/-- Modelled from the spec: `SetJSON(i)` of a part replaces its payload by the
structured value `i`. -/
def partSetJSON (h : PartHeap) (p : PartRef) (i : Structured) : PartHeap :=
  writePart h p { readPart h p with data := [], structured := some i }

/-- Modelled from the spec: `Get()` of a part, its payload as bytes. -/
def partGet (codec : Codec) (h : PartHeap) (p : PartRef) : List UInt8 :=
  match (readPart h p).structured with
  | some i => codec.marshal i
  | none => (readPart h p).data

/-- Modelled from the spec: `JSON()` of a part, its payload as a structured
value; `none` is the error of a payload that is not one. -/
def partJSON (codec : Codec) (h : PartHeap) (p : PartRef) : Option Structured :=
  match (readPart h p).structured with
  | some i => some i
  | none => codec.unmarshal (readPart h p).data

/-- The call `met.Delete(k)`: remove the key. -/
def metaDelete (m : Metadata) (k : String) : Metadata := m.filter (fun e => e.1 ≠ k)

/-- Modelled from the spec: `Metadata().Set(k, v)` of a part. -/
def partMetaSet (h : PartHeap) (p : PartRef) (k v : String) : PartHeap :=
  writePart h p { readPart h p with metadata := metaSet (readPart h p).metadata k v }

/-- Modelled from the spec: `Metadata().Delete(k)` of a part. -/
def partMetaDelete (h : PartHeap) (p : PartRef) (k : String) : PartHeap :=
  writePart h p { readPart h p with metadata := metaDelete (readPart h p).metadata k }

/-- Modelled from the spec: `Metadata().Get(k)` of a part, the empty string for
a key that is not set. -/
def partMetaGet (h : PartHeap) (p : PartRef) (k : String) : String :=
  metaGet (readPart h p).metadata k

/-- Modelled from the spec: `message.WithContext(ctx, p)`, the same part under
the context `ctx`; nothing is copied. -/
def WithContext (ctx : Context) (p : PartRef) : PartRef := { p with ctx := ctx }

/-- Modelled from the spec: `message.GetContext(p)`. -/
def GetContext (p : PartRef) : Context := p.ctx

/-- The struct `airGapMessage`. -/
structure airGapMessage where
  m : PartRef
  partCopied : Bool
  deriving DecidableEq, Repr

/-- The constructor `newAirGapMessage`. -/
def newAirGapMessage (m : PartRef) : airGapMessage := { m := m, partCopied := false }

/-- The method `ensureCopied`. -/
def airGapMessage.ensureCopied (h : PartHeap) (a : airGapMessage) : PartHeap × airGapMessage :=
  if !a.partCopied then
    let r := partCopy h a.m
    (r.1, { a with m := r.2, partCopied := true })
  else (h, a)

/-- The method `Context`. -/
def airGapMessage.Context (a : airGapMessage) : Benthos.Context := GetContext a.m

/-- The method `Bytes`: `b, len(b) > 0`. -/
def airGapMessage.Bytes (codec : Codec) (h : PartHeap) (a : airGapMessage) : List UInt8 × Bool :=
  let b := partGet codec h a.m
  (b, decide (b ≠ []))

/-- The method `Structured`: `i, true`, or `nil, false` on an error of `JSON`. -/
def airGapMessage.Structured (codec : Codec) (h : PartHeap) (a : airGapMessage) :
    Option Benthos.Structured × Bool :=
  match partJSON codec h a.m with
  | none => (none, false)
  | some i => (some i, true)

/-- The method `SetBytes`. -/
def airGapMessage.SetBytes (h : PartHeap) (a : airGapMessage) (b : List UInt8) :
    PartHeap × airGapMessage :=
  let r := a.ensureCopied h
  (partSet r.1 r.2.m b, r.2)

/-- The method `SetStructured`. -/
def airGapMessage.SetStructured (h : PartHeap) (a : airGapMessage) (i : Benthos.Structured) :
    PartHeap × airGapMessage :=
  let r := a.ensureCopied h
  (partSetJSON r.1 r.2.m i, r.2)

/-- The method `SetContext`. -/
def airGapMessage.SetContext (h : PartHeap) (a : airGapMessage) (ctx : Benthos.Context) :
    PartHeap × airGapMessage :=
  (h, { a with m := WithContext ctx a.m })

/-- The method `MetaGet`: `v, len(v) > 0`. -/
def airGapMessage.MetaGet (h : PartHeap) (a : airGapMessage) (key : String) : String × Bool :=
  let v := partMetaGet h a.m key
  (v, decide (v ≠ ""))

/-- The method `MetaSet`. -/
def airGapMessage.MetaSet (h : PartHeap) (a : airGapMessage) (key value : String) :
    PartHeap × airGapMessage :=
  let r := a.ensureCopied h
  (partMetaSet r.1 r.2.m key value, r.2)

/-- The method `MetaDelete`. -/
def airGapMessage.MetaDelete (h : PartHeap) (a : airGapMessage) (key : String) :
    PartHeap × airGapMessage :=
  let r := a.ensureCopied h
  (partMetaDelete r.1 r.2.m key, r.2)

/-- The method `MetaWalk`, by the pairs it hands to a closure that never stops
the iteration. -/
def airGapMessage.MetaWalk (h : PartHeap) (a : airGapMessage) : List (String × String) :=
  (readPart h a.m).metadata

/-- A `Message` of an implementation other than `airGapMessage`, given by what
its methods return: `Context()`, the value of `Structured()` when it reports
true, the bytes of `Bytes()`, and the pairs `MetaWalk` visits, in order. -/
structure ForeignMessage where
  context : Context
  structured : Option Structured
  bytes : List UInt8
  metadata : List (String × String)
  deriving DecidableEq, Repr

/-- A value of the interface `Message`: an `*airGapMessage`, or a message of
another implementation. -/
inductive Message where
  | airGap (agMsg : airGapMessage)
  | foreign (msg : ForeignMessage)
  deriving DecidableEq, Repr

/-- The function `CopyMessage`. -/
def CopyMessage (h : PartHeap) : Message → PartHeap × airGapMessage
  | .airGap agMsg =>
      let r := partCopy h agMsg.m
      (r.1, { m := r.2, partCopied := true })
  | .foreign msg =>
      let r := allocPart h
      let part := r.2
      let h1 := match msg.structured with
        | some s => partSetJSON r.1 part s
        | none => partSet r.1 part msg.bytes
      let h2 := msg.metadata.foldl (fun hp kv => partMetaSet hp part kv.1 kv.2) h1
      (h2, { m := WithContext msg.context part, partCopied := true })

/-- The operations of a `Message`. -/
inductive MessageOp where
  | SetBytes (b : List UInt8)
  | SetStructured (i : Structured)
  | SetContext (ctx : Context)
  | MetaSet (key value : String)
  | MetaDelete (key : String)
  | Context
  | Bytes
  | Structured
  | MetaGet (key : String)
  | MetaWalk
  deriving DecidableEq, Repr

/-- Whether the operation is one of the read operations. -/
def MessageOp.isRead : MessageOp → Bool
  | .Context => true
  | .Bytes => true
  | .Structured => true
  | .MetaGet _ => true
  | .MetaWalk => true
  | _ => false

/-- Whether the operation changes the payload or the metadata. -/
def MessageOp.mutatesPart : MessageOp → Bool
  | .SetBytes _ => true
  | .SetStructured _ => true
  | .MetaSet _ _ => true
  | .MetaDelete _ => true
  | _ => false

/-- The heap and the message after the operation; a read operation returns its
value and leaves both as they are. -/
def MessageOp.apply (h : PartHeap) (a : airGapMessage) : MessageOp → PartHeap × airGapMessage
  | .SetBytes b => a.SetBytes h b
  | .SetStructured i => a.SetStructured h i
  | .SetContext ctx => a.SetContext h ctx
  | .MetaSet key value => a.MetaSet h key value
  | .MetaDelete key => a.MetaDelete h key
  | .Context => (h, a)
  | .Bytes => (h, a)
  | .Structured => (h, a)
  | .MetaGet _ => (h, a)
  | .MetaWalk => (h, a)

/-- The heap and the message after the operations `ops`, in order. -/
def applyOps (h : PartHeap) (a : airGapMessage) (ops : List MessageOp) :
    PartHeap × airGapMessage :=
  ops.foldl (fun s op => op.apply s.1 s.2) (h, a)

/-- What operations on a message with a valid part do, from the heap `h` and the
message `a` to the state `s`: the part of the message stays valid; a part
object other than the message's own copy is not changed; the part has been
copied after the operations exactly when it had been before or one of them
changes the payload or the metadata (`mutates`); the heap grows by the one
copy; and the copy is the message's own part from then on. -/
structure OpSpec (h : PartHeap) (a : airGapMessage) (s : PartHeap × airGapMessage)
    (mutates : Bool) : Prop where
  valid : s.2.m.addr < s.1.length
  frame : ∀ j, j < h.length → (a.partCopied = true → j ≠ a.m.addr) → s.1[j]? = h[j]?
  copied : s.2.partCopied = (a.partCopied || mutates)
  length : s.1.length = h.length + (if (!a.partCopied && mutates) = true then 1 else 0)
  target : s.2.partCopied = true →
    (a.partCopied = true ∧ s.2.m.addr = a.m.addr) ∨ (a.partCopied = false ∧ s.2.m.addr = h.length)

/-- A heap with one part object: the payload `hi` and the metadata `k = v`. -/
def exampleHeap : PartHeap :=
  [{ data := [104, 105], structured := none, metadata := [("k", "v")] }]

/-- The part of `exampleHeap`. -/
def examplePart : PartRef := { addr := 0, ctx := { cancelled := false } }

/-- A codec that knows the number one: it is written `1`, and read from `1`
with or without a blank before it. -/
def exampleCodec : Codec :=
  { marshal := fun i => if i.json = "1" then [49] else []
    unmarshal := fun b => if b = [49] ∨ b = [32, 49] then some { json := "1" } else none }

/-- A message of another implementation whose bytes are a blank and `1`, and
whose structured payload is the number one that these bytes spell. -/
def foreignOne : ForeignMessage :=
  { context := { cancelled := false }
    structured := some { json := "1" }
    bytes := [32, 49]
    metadata := [] }

/-! ## Basic facts about the map and the prune loop -/

theorem IndexMap.lookup_cons_eq (k : Int) (v : String) (rest : IndexMap) :
    IndexMap.lookup ((k, v) :: rest) k = some v := by
  simp [IndexMap.lookup]

theorem IndexMap.lookup_cons_ne (k' k : Int) (v' : String) (rest : IndexMap) (h : k' ≠ k) :
    IndexMap.lookup ((k', v') :: rest) k = IndexMap.lookup rest k := by
  simp [IndexMap.lookup, h]

theorem IndexMap.insert_cons_eq (k : Int) (v' v : String) (rest : IndexMap) :
    IndexMap.insert ((k, v') :: rest) k v = (k, v) :: rest := by
  simp [IndexMap.insert]

theorem IndexMap.insert_cons_ne (k' k : Int) (v' v : String) (rest : IndexMap) (h : k' ≠ k) :
    IndexMap.insert ((k', v') :: rest) k v = (k', v') :: IndexMap.insert rest k v := by
  simp [IndexMap.insert, h]

theorem IndexMap.delete_cons_eq (k : Int) (v : String) (rest : IndexMap) :
    IndexMap.delete ((k, v) :: rest) k = IndexMap.delete rest k := by
  simp [IndexMap.delete]

theorem IndexMap.delete_cons_ne (k' k : Int) (v' : String) (rest : IndexMap) (h : k' ≠ k) :
    IndexMap.delete ((k', v') :: rest) k = (k', v') :: IndexMap.delete rest k := by
  simp [IndexMap.delete, h]

theorem IndexMap.lookup_insert_self (m : IndexMap) (k : Int) (v : String) :
    IndexMap.lookup (IndexMap.insert m k v) k = some v := by
  induction m with
  | nil => simp [IndexMap.insert, IndexMap.lookup]
  | cons e rest ih =>
      obtain ⟨k', v'⟩ := e
      by_cases h : k' = k
      · subst h
        rw [IndexMap.insert_cons_eq, IndexMap.lookup_cons_eq]
      · rw [IndexMap.insert_cons_ne _ _ _ _ _ h, IndexMap.lookup_cons_ne _ _ _ _ h, ih]

theorem IndexMap.lookup_insert_other (m : IndexMap) (k j : Int) (v : String) (hj : j ≠ k) :
    IndexMap.lookup (IndexMap.insert m k v) j = IndexMap.lookup m j := by
  induction m with
  | nil =>
      have : ¬ k = j := fun h => hj h.symm
      simp [IndexMap.insert, IndexMap.lookup, this]
  | cons e rest ih =>
      obtain ⟨k', v'⟩ := e
      by_cases h : k' = k
      · subst h
        rw [IndexMap.insert_cons_eq, IndexMap.lookup_cons_ne _ _ _ _ (Ne.symm hj),
          IndexMap.lookup_cons_ne _ _ _ _ (Ne.symm hj)]
      · rw [IndexMap.insert_cons_ne _ _ _ _ _ h]
        by_cases h2 : k' = j
        · subst h2
          rw [IndexMap.lookup_cons_eq, IndexMap.lookup_cons_eq]
        · rw [IndexMap.lookup_cons_ne _ _ _ _ h2, IndexMap.lookup_cons_ne _ _ _ _ h2, ih]

theorem IndexMap.lookup_delete_self (m : IndexMap) (k : Int) :
    IndexMap.lookup (IndexMap.delete m k) k = none := by
  induction m with
  | nil => simp [IndexMap.delete, IndexMap.lookup]
  | cons e rest ih =>
      obtain ⟨k', v'⟩ := e
      by_cases h : k' = k
      · subst h
        rw [IndexMap.delete_cons_eq, ih]
      · rw [IndexMap.delete_cons_ne _ _ _ _ h, IndexMap.lookup_cons_ne _ _ _ _ h, ih]

theorem IndexMap.lookup_delete_other (m : IndexMap) (k j : Int) (hj : j ≠ k) :
    IndexMap.lookup (IndexMap.delete m k) j = IndexMap.lookup m j := by
  induction m with
  | nil => simp [IndexMap.delete, IndexMap.lookup]
  | cons e rest ih =>
      obtain ⟨k', v'⟩ := e
      by_cases h : k' = k
      · subst h
        rw [IndexMap.delete_cons_eq, IndexMap.lookup_cons_ne _ _ _ _ (Ne.symm hj), ih]
      · rw [IndexMap.delete_cons_ne _ _ _ _ h]
        by_cases h2 : k' = j
        · subst h2
          rw [IndexMap.lookup_cons_eq, IndexMap.lookup_cons_eq]
        · rw [IndexMap.lookup_cons_ne _ _ _ _ h2, IndexMap.lookup_cons_ne _ _ _ _ h2, ih]

theorem IndexMap.delete_delete (m : IndexMap) (k : Int) :
    IndexMap.delete (IndexMap.delete m k) k = IndexMap.delete m k := by
  simp [IndexMap.delete, List.filter_filter]

theorem IndexMap.delete_of_lookup_none (m : IndexMap) (k : Int)
    (h : IndexMap.lookup m k = none) : IndexMap.delete m k = m := by
  induction m with
  | nil => rfl
  | cons e rest ih =>
      obtain ⟨k', v'⟩ := e
      by_cases h1 : k' = k
      · subst h1
        rw [IndexMap.lookup_cons_eq] at h
        cases h
      · rw [IndexMap.lookup_cons_ne _ _ _ _ h1] at h
        rw [IndexMap.delete_cons_ne _ _ _ _ h1, ih h]

theorem IndexMap.mem_keys_of_lookup (m : IndexMap) (k : Int) (v : String)
    (h : IndexMap.lookup m k = some v) : k ∈ IndexMap.keys m := by
  induction m with
  | nil => simp [IndexMap.lookup] at h
  | cons e rest ih =>
      obtain ⟨k', v'⟩ := e
      by_cases h1 : k' = k
      · simp [IndexMap.keys, h1]
      · simp only [IndexMap.lookup, h1, if_false] at h
        have := ih h
        simp only [IndexMap.keys] at this ⊢
        simp [this]

/-- Whatever the order in which the keys are visited, the loop leaves the map
as it is or deletes `topIndex`, and nothing else. -/
theorem pruneLoop_cases (topIndex : Int) (ks : List Int) (m : IndexMap) :
    pruneLoop topIndex ks m = m ∨ pruneLoop topIndex ks m = IndexMap.delete m topIndex := by
  induction ks generalizing m with
  | nil => exact Or.inl rfl
  | cons k ks ih =>
      simp only [pruneLoop]
      split
      · split
        · rcases ih (IndexMap.delete m topIndex) with h | h
          · exact Or.inr h
          · rw [IndexMap.delete_delete] at h
            exact Or.inr h
        · exact ih m
      · exact ih m

/-- When `topIndex` is a key of the map and is among the keys visited, the loop
deletes exactly the entry of `topIndex`, in whatever order the keys come. -/
theorem pruneLoop_eq_delete (topIndex : Int) (ks : List Int) (m : IndexMap) (v : String)
    (hm : IndexMap.lookup m topIndex = some v) (hk : topIndex ∈ ks) :
    pruneLoop topIndex ks m = IndexMap.delete m topIndex := by
  induction ks generalizing m with
  | nil => simp at hk
  | cons k ks ih =>
      have hdel : pruneLoop topIndex ks (IndexMap.delete m topIndex) = IndexMap.delete m topIndex := by
        rcases pruneLoop_cases topIndex ks (IndexMap.delete m topIndex) with h | h
        · exact h
        · rw [IndexMap.delete_delete] at h
          exact h
      by_cases hkt : k = topIndex
      · subst hkt
        simp [pruneLoop, hm, hdel]
      · have hk2 : topIndex ∈ ks := by
          rcases List.mem_cons.mp hk with h | h
          · exact absurd h.symm hkt
          · exact h
        simp only [pruneLoop]
        split
        · split
          · exact hdel
          · exact ih m hm hk2
        · exact ih m hm hk2

/-- The effect of the locked section of the ack callback on the ledger. -/
theorem ledgerResolve_found {τ : Type} (a : awsKinesisRecordBatcher τ) (topIndex : Int)
    (seq : String) (h : IndexMap.lookup a.indexToSequence topIndex = some seq) :
    (a.ledgerResolve topIndex none).ackedSequence = seq ∧
    (a.ledgerResolve topIndex none).indexToSequence = IndexMap.delete a.indexToSequence topIndex := by
  simp only [awsKinesisRecordBatcher.ledgerResolve, h, true_and]
  exact pruneLoop_eq_delete topIndex _ _ seq h (IndexMap.mem_keys_of_lookup _ _ _ h)

theorem ledgerResolve_absent {τ : Type} (a : awsKinesisRecordBatcher τ) (topIndex : Int)
    (h : IndexMap.lookup a.indexToSequence topIndex = none) :
    a.ledgerResolve topIndex none = a := by
  simp only [awsKinesisRecordBatcher.ledgerResolve, h]

/-! ## The write path, one call at a time -/

theorem FlushMessage_of_pending {τ : Type} (C : Checkpointer τ) (a : awsKinesisRecordBatcher τ)
    (ctx : Context) (msg : List Part) (h : a.flushPolicy.flushedMessage = some msg) :
    a.FlushMessage C ctx = a.flushPolicy.trackAndEmit C msg ctx := by
  simp [awsKinesisRecordBatcher.FlushMessage, h]

theorem FlushMessage_of_nothing {τ : Type} (C : Checkpointer τ) (a : awsKinesisRecordBatcher τ)
    (ctx : Context) (h : a.flushPolicy.flushedMessage = none) :
    a.FlushMessage C ctx = (a.flushPolicy, asyncMessage.empty, none) := by
  simp [awsKinesisRecordBatcher.FlushMessage, h]

theorem flushPolicy_of_pending {τ : Type} (a : awsKinesisRecordBatcher τ) (msg : List Part)
    (h : a.flushedMessage = some msg) : a.flushPolicy = a := by
  simp [awsKinesisRecordBatcher.flushPolicy, h]

theorem trackAndEmit_error {τ : Type} (C : Checkpointer τ) (a : awsKinesisRecordBatcher τ)
    (msg : List Part) (ctx : Context) (err : GoError)
    (ht : (C.Track a.checkpointer ctx a.batchedIndex).2 = some err) :
    a.trackAndEmit C msg ctx =
      ({ a with checkpointer := (C.Track a.checkpointer ctx a.batchedIndex).1 },
        asyncMessage.empty, if err = GoError.ErrTimeout then none else some err) := by
  simp [awsKinesisRecordBatcher.trackAndEmit, ht]

theorem trackAndEmit_success {τ : Type} (C : Checkpointer τ) (a : awsKinesisRecordBatcher τ)
    (msg : List Part) (ctx : Context)
    (ht : (C.Track a.checkpointer ctx a.batchedIndex).2 = none) :
    a.trackAndEmit C msg ctx =
      ({ a with
          checkpointer := (C.Track a.checkpointer ctx a.batchedIndex).1
          indexToSequence := IndexMap.insert a.indexToSequence a.batchedIndex a.batchedSequence
          ackedWG := a.ackedWG + 1
          flushedMessage := none },
        { msg := some msg, ackFn := some a.batchedIndex }, none) := by
  simp [awsKinesisRecordBatcher.trackAndEmit, ht]

theorem trackAndEmit_batchPolicy {τ : Type} (C : Checkpointer τ) (a : awsKinesisRecordBatcher τ)
    (msg : List Part) (ctx : Context) :
    (a.trackAndEmit C msg ctx).1.batchPolicy = a.batchPolicy := by
  cases ht : (C.Track a.checkpointer ctx a.batchedIndex).2 with
  | none => rw [trackAndEmit_success C a msg ctx ht]
  | some err => rw [trackAndEmit_error C a msg ctx err ht]

theorem flushPolicy_fields {τ : Type} (a : awsKinesisRecordBatcher τ) :
    a.flushPolicy.indexToSequence = a.indexToSequence ∧
    a.flushPolicy.ackedSequence = a.ackedSequence ∧
    a.flushPolicy.ackedWG = a.ackedWG ∧
    a.flushPolicy.batchedIndex = a.batchedIndex ∧
    a.flushPolicy.batchedSequence = a.batchedSequence ∧
    a.flushPolicy.checkpointer = a.checkpointer ∧
    a.flushPolicy.streamID = a.streamID ∧
    a.flushPolicy.shardID = a.shardID := by
  unfold awsKinesisRecordBatcher.flushPolicy
  cases a.flushedMessage <;> simp

/-! ## Steps of an execution -/

theorem run_nil {τ : Type} (C : Checkpointer τ) (w : World τ) : run C w [] = w := rfl

theorem run_concat {τ : Type} (C : Checkpointer τ) (w : World τ) (evs : List Event) (e : Event) :
    run C w (evs ++ [e]) = step C (run C w evs) e := by
  simp [run, List.foldl_append]

theorem countAdds_append (xs ys : List Event) :
    countAdds (xs ++ ys) = countAdds xs + countAdds ys := by
  induction xs with
  | nil => simp [countAdds]
  | cons e xs ih =>
      cases e <;> simp [countAdds, ih]
      omega

theorem countAdds_concat_le (evs : List Event) (e : Event) :
    countAdds evs ≤ countAdds (evs ++ [e]) := by
  rw [countAdds_append]; omega

theorem atomicAcks_append (xs ys : List Event) :
    atomicAcks (xs ++ ys) = (atomicAcks xs && atomicAcks ys) := by
  induction xs with
  | nil => simp [atomicAcks]
  | cons e xs ih =>
      cases e <;> simp [atomicAcks, ih]

theorem markInvoked_map {β : Type} (f : Emitted → β)
    (hf : ∀ e : Emitted, f { e with invoked := true } = f e) (l : List Emitted) (n : Nat) :
    (markInvoked l n).map f = l.map f := by
  induction l generalizing n with
  | nil => rfl
  | cons e es ih =>
      cases n with
      | zero => simp [markInvoked, hf]
      | succ n => simp [markInvoked, ih]

theorem markInvoked_map_msg (l : List Emitted) (n : Nat) :
    (markInvoked l n).map Emitted.msg = l.map Emitted.msg :=
  markInvoked_map Emitted.msg (fun _ => rfl) l n

theorem markInvoked_map_index (l : List Emitted) (n : Nat) :
    (markInvoked l n).map Emitted.index = l.map Emitted.index :=
  markInvoked_map Emitted.index (fun _ => rfl) l n

theorem markInvoked_map_msg_sequence (l : List Emitted) (n : Nat) :
    (markInvoked l n).map (fun e => (e.msg, e.sequence)) = l.map (fun e => (e.msg, e.sequence)) :=
  markInvoked_map (fun e => (e.msg, e.sequence)) (fun _ => rfl) l n

theorem markInvoked_map_index_sequence (l : List Emitted) (n : Nat) :
    (markInvoked l n).map (fun e => (e.index, e.sequence)) = l.map (fun e => (e.index, e.sequence)) :=
  markInvoked_map (fun e => (e.index, e.sequence)) (fun _ => rfl) l n

theorem markInvoked_length (l : List Emitted) (n : Nat) :
    (markInvoked l n).length = l.length := by
  induction l generalizing n with
  | nil => rfl
  | cons e es ih =>
      cases n with
      | zero => simp [markInvoked]
      | succ n => simp [markInvoked, ih]

theorem metaGet_metaSet (m : Metadata) (k v : String) : metaGet (metaSet m k v) k = v := by
  induction m with
  | nil => simp [metaSet, metaGet]
  | cons e rest ih =>
      obtain ⟨k', v'⟩ := e
      by_cases h : k' = k
      · simp [metaSet, metaGet, h]
      · simp [metaSet, metaGet, h, ih]

theorem recordPart_sequenceNumber (streamID shardID : String) (r : Record) :
    (recordPart streamID shardID r).sequenceNumber = r.SequenceNumber := by
  simp [recordPart, Part.sequenceNumber, metaGet_metaSet]

/-- The three outcomes of asking the policy at the start of `FlushMessage`. -/
theorem flushPolicy_cases {τ : Type} (a : awsKinesisRecordBatcher τ) :
    (∃ msg, a.flushedMessage = some msg ∧ a.flushPolicy = a) ∨
    (a.flushedMessage = none ∧ a.batchPolicy.parts = [] ∧ a.flushPolicy = a) ∨
    (∃ x xs, a.flushedMessage = none ∧ a.batchPolicy.parts = x :: xs ∧
      a.flushPolicy = { a with
        batchPolicy := { a.batchPolicy with parts := [] }
        flushedMessage := some (x :: xs) }) := by
  cases h : a.flushedMessage with
  | some msg => exact Or.inl ⟨msg, rfl, flushPolicy_of_pending a msg h⟩
  | none =>
      cases hp : a.batchPolicy.parts with
      | nil =>
          refine Or.inr (Or.inl ⟨rfl, rfl, ?_⟩)
          cases a
          simp_all [awsKinesisRecordBatcher.flushPolicy, Policy.Flush]
      | cons x xs =>
          refine Or.inr (Or.inr ⟨x, xs, rfl, rfl, ?_⟩)
          simp [awsKinesisRecordBatcher.flushPolicy, Policy.Flush, h, hp]

/-- The step `FlushMessage` when nothing is pending after the policy was asked. -/
theorem step_FlushMessage_nothing {τ : Type} (C : Checkpointer τ) (w : World τ) (ctx : Context)
    (h : w.a.flushPolicy.flushedMessage = none) :
    step C w (.FlushMessage ctx) = { w with a := w.a.flushPolicy } := by
  simp [step, FlushMessage_of_nothing C w.a ctx h, asyncMessage.empty]

/-- The step `FlushMessage` when `Track` returns an error. -/
theorem step_FlushMessage_error {τ : Type} (C : Checkpointer τ) (w : World τ) (ctx : Context)
    (msg : List Part) (err : GoError) (h : w.a.flushPolicy.flushedMessage = some msg)
    (ht : (C.Track w.a.flushPolicy.checkpointer ctx w.a.flushPolicy.batchedIndex).2 = some err) :
    step C w (.FlushMessage ctx) = { w with a := { w.a.flushPolicy with
      checkpointer := (C.Track w.a.flushPolicy.checkpointer ctx w.a.flushPolicy.batchedIndex).1 } } := by
  simp [step, FlushMessage_of_pending C w.a ctx msg h, trackAndEmit_error C _ msg ctx err ht,
    asyncMessage.empty]

/-- The step `FlushMessage` when `Track` succeeds. -/
theorem step_FlushMessage_success {τ : Type} (C : Checkpointer τ) (w : World τ) (ctx : Context)
    (msg : List Part) (h : w.a.flushPolicy.flushedMessage = some msg)
    (ht : (C.Track w.a.flushPolicy.checkpointer ctx w.a.flushPolicy.batchedIndex).2 = none) :
    step C w (.FlushMessage ctx) = { w with
      a := { w.a.flushPolicy with
        checkpointer := (C.Track w.a.flushPolicy.checkpointer ctx w.a.flushPolicy.batchedIndex).1
        indexToSequence := IndexMap.insert w.a.flushPolicy.indexToSequence
          w.a.flushPolicy.batchedIndex w.a.flushPolicy.batchedSequence
        ackedWG := w.a.flushPolicy.ackedWG + 1
        flushedMessage := none }
      emitted := w.emitted ++
        [{ msg := msg, index := w.a.flushPolicy.batchedIndex,
           sequence := w.a.flushPolicy.batchedSequence, invoked := false }] } := by
  simp [step, FlushMessage_of_pending C w.a ctx msg h, trackAndEmit_success C _ msg ctx ht,
    (flushPolicy_fields w.a).2.2.2.2.1]


/-! ## The invariant of the write path is kept by every step -/

theorem wrapInt_of_small (x : Int) (h0 : 0 ≤ x) (h1 : x < 2 ^ 63) : wrapInt x = x := by
  unfold wrapInt
  have h2 : (x + 2 ^ 63) % 2 ^ 64 = x + 2 ^ 63 := by
    apply Int.emod_eq_of_lt <;> omega
  omega

/-- A state that agrees with `w` on what the write path reads satisfies the
invariant of the write path with it. -/
theorem WriteInv_congr {τ : Type} {w w' : World τ} (h : WriteInv w)
    (h1 : w'.a.streamID = w.a.streamID) (h2 : w'.a.shardID = w.a.shardID)
    (h3 : w'.a.batchPolicy.parts = w.a.batchPolicy.parts)
    (h4 : w'.a.flushedMessage = w.a.flushedMessage)
    (h5 : w'.a.batchedSequence = w.a.batchedSequence)
    (h6 : w'.added = w.added)
    (h7 : w'.emitted.map Emitted.msg = w.emitted.map Emitted.msg)
    (h8 : w'.emitted.map (fun e => (e.msg, e.sequence)) = w.emitted.map (fun e => (e.msg, e.sequence))) :
    WriteInv w' := by
  have hheld : w'.held = w.held := by simp [World.held, h3, h4]
  refine ⟨?_, ?_, ?_, ?_⟩
  · have := h.order
    simp only [World.addedParts, World.emittedItems] at this ⊢
    rw [h1, h2, h6, h7, hheld]
    exact this
  · intro msg hm
    rw [h4] at hm
    rw [h3]
    exact h.pending msg hm
  · intro p hp
    rw [hheld] at hp
    rw [h5]
    exact h.lastSeq p hp
  · rw [h8]
    exact h.emittedSeq

theorem IndexInv_congr {τ : Type} {w w' : World τ} (h : IndexInv w)
    (h3 : w'.a.batchPolicy.parts = w.a.batchPolicy.parts)
    (h4 : w'.a.flushedMessage = w.a.flushedMessage)
    (h5 : w'.a.batchedIndex = w.a.batchedIndex)
    (h6 : w'.added = w.added)
    (h7 : w'.emitted.map Emitted.index = w.emitted.map Emitted.index) :
    IndexInv w' := by
  have hheld : w'.held = w.held := by simp [World.held, h3, h4]
  refine ⟨?_, ?_, ?_, ?_⟩
  · rw [h5, h6]; exact h.batched
  · rw [h5, h7]; exact h.bounds
  · rw [hheld, h5, h7]; exact h.fresh
  · rw [h7]; exact h.increasing

theorem WriteInv_init {τ : Type} (batchPolicy : Policy) (checkpointer : τ)
    (streamID shardID sequence : String) (hp : batchPolicy.parts = []) :
    WriteInv (World.init batchPolicy checkpointer streamID shardID sequence) := by
  refine ⟨?_, ?_, ?_, ?_⟩
  · simp [World.addedParts, World.emittedItems, World.held, World.init,
      awsKinesisRecordBatcher.init, hp]
  · intro msg hm
    simp [World.init, awsKinesisRecordBatcher.init] at hm
  · intro p h
    simp [World.held, World.init, awsKinesisRecordBatcher.init, hp] at h
  · intro x hx
    simp [World.init] at hx

theorem IndexInv_init {τ : Type} (batchPolicy : Policy) (checkpointer : τ)
    (streamID shardID sequence : String) :
    IndexInv (World.init batchPolicy checkpointer streamID shardID sequence) := by
  refine ⟨?_, ?_, ?_, ?_⟩
  · simp [World.init, awsKinesisRecordBatcher.init]
  · intro i hi
    simp [World.init] at hi
  · intro _ i hi
    simp [World.init] at hi
  · simp [World.init]

theorem held_flushPolicy {τ : Type} (w : World τ) :
    World.held { w with a := w.a.flushPolicy } = w.held := by
  rcases flushPolicy_cases w.a with ⟨msg, _, he⟩ | ⟨_, _, he⟩ | ⟨x, xs, hn, hp, he⟩
  · simp [World.held, he]
  · simp [World.held, he]
  · simp [World.held, he, hn, hp]

theorem WriteInv_flushPolicy {τ : Type} (w : World τ) (h : WriteInv w) :
    WriteInv { w with a := w.a.flushPolicy } := by
  obtain ⟨-, -, -, -, f5, -, f7, f8⟩ := flushPolicy_fields w.a
  have hheld := held_flushPolicy w
  refine ⟨?_, ?_, ?_, ?_⟩
  · have := h.order
    simp only [World.addedParts, World.emittedItems] at this ⊢
    rw [hheld]
    simp only [f7, f8]
    exact this
  · intro msg hm
    rcases flushPolicy_cases w.a with ⟨msg', hs, he⟩ | ⟨hn, hp, he⟩ | ⟨x, xs, hn, hp, he⟩
    · simp only [he] at hm ⊢
      exact h.pending msg hm
    · simp only [he] at hm ⊢
      exact h.pending msg hm
    · simp only [he] at hm ⊢
      simp only [Option.some.injEq] at hm
      subst hm
      simp
  · intro p hp
    rw [hheld] at hp
    simp only [f5]
    exact h.lastSeq p hp
  · exact h.emittedSeq

theorem IndexInv_flushPolicy {τ : Type} (w : World τ) (h : IndexInv w) :
    IndexInv { w with a := w.a.flushPolicy } := by
  obtain ⟨-, -, -, f4, -⟩ := flushPolicy_fields w.a
  have hheld := held_flushPolicy w
  refine ⟨?_, ?_, ?_, ?_⟩
  · simp only [f4]; exact h.batched
  · simp only [f4]; exact h.bounds
  · rw [hheld]; simp only [f4]; exact h.fresh
  · exact h.increasing

/-- Handing out the pending message keeps the invariant of the write path. -/
theorem WriteInv_emit {τ : Type} (w : World τ) (h : WriteInv w) (msg : List Part)
    (hm : w.a.flushedMessage = some msg) (a' : awsKinesisRecordBatcher τ) (index : Int)
    (h1 : a'.streamID = w.a.streamID) (h2 : a'.shardID = w.a.shardID)
    (h3 : a'.batchPolicy = w.a.batchPolicy) (h4 : a'.flushedMessage = none) :
    WriteInv { w with
      a := a'
      emitted := w.emitted ++
        [{ msg := msg, index := index, sequence := w.a.batchedSequence, invoked := false }] } := by
  obtain ⟨hne, hparts⟩ := h.pending msg hm
  have hheld : w.held = msg := by simp [World.held, hm, hparts]
  refine ⟨?_, ?_, ?_, ?_⟩
  · have := h.order
    simp only [World.addedParts, World.emittedItems, hheld] at this ⊢
    simp only [h1, h2, World.held, h3, h4, hparts]
    simp [this]
  · intro m hm'
    simp only [h4] at hm'
    cases hm'
  · intro p hp
    simp [World.held, h3, h4, hparts] at hp
  · intro x hx
    simp only [List.map_append, List.mem_append, List.map_cons, List.map_nil,
      List.mem_singleton] at hx
    rcases hx with hx | hx
    · exact h.emittedSeq x hx
    · subst hx
      obtain ⟨ys, hys⟩ : ∃ ys p, msg = ys ++ [p] := by
        rcases List.eq_nil_or_concat msg with h0 | ⟨ys, p, h0⟩
        · exact absurd h0 hne
        · exact ⟨ys, p, by simpa using h0⟩
      obtain ⟨p, hp⟩ := hys
      refine ⟨p, ?_, ?_⟩
      · simp [hp]
      · apply h.lastSeq
        rw [hheld, hp]
        simp

theorem IndexInv_emit {τ : Type} (w : World τ) (hw : WriteInv w) (h : IndexInv w)
    (hsmall : w.added.length < 2 ^ 63) (msg : List Part)
    (hm : w.a.flushedMessage = some msg) (a' : awsKinesisRecordBatcher τ) (seq : String)
    (h3 : a'.batchPolicy = w.a.batchPolicy) (h4 : a'.flushedMessage = none)
    (h5 : a'.batchedIndex = w.a.batchedIndex) :
    IndexInv { w with
      a := a'
      emitted := w.emitted ++
        [{ msg := msg, index := w.a.batchedIndex, sequence := seq, invoked := false }] } := by
  obtain ⟨hne, hparts⟩ := hw.pending msg hm
  have hheld : w.held ≠ [] := by simp [World.held, hm, hparts, hne]
  have hfresh := h.fresh hheld
  have hadd : w.added ≠ [] := by
    intro h0
    have := hw.order
    simp [World.addedParts, h0] at this
    exact hheld this.2
  have hpos : 1 ≤ w.a.batchedIndex := by
    rw [h.batched]
    have : 0 < w.added.length := List.length_pos.mpr hadd
    omega
  refine ⟨?_, ?_, ?_, ?_⟩
  · simp only [h5]; exact h.batched
  · intro i hi
    simp only [List.map_append, List.mem_append, List.map_cons, List.map_nil,
      List.mem_singleton] at hi
    simp only [h5]
    rcases hi with hi | hi
    · exact h.bounds i hi
    · subst hi
      exact ⟨hpos, le_refl _⟩
  · intro hh
    simp [World.held, h3, h4, hparts] at hh
  · simp only [List.map_append, List.map_cons, List.map_nil]
    rw [List.pairwise_append]
    refine ⟨h.increasing, by simp, ?_⟩
    intro i hi j hj
    simp only [List.mem_singleton] at hj
    subst hj
    exact hfresh i hi


/-- The locked section of the ack callback leaves what the write path reads
as it is. -/
theorem ledgerResolve_frame {τ : Type} (a : awsKinesisRecordBatcher τ) (topIndex : Int)
    (err : Option GoError) :
    (a.ledgerResolve topIndex err).streamID = a.streamID ∧
    (a.ledgerResolve topIndex err).shardID = a.shardID ∧
    (a.ledgerResolve topIndex err).batchPolicy = a.batchPolicy ∧
    (a.ledgerResolve topIndex err).flushedMessage = a.flushedMessage ∧
    (a.ledgerResolve topIndex err).batchedSequence = a.batchedSequence ∧
    (a.ledgerResolve topIndex err).batchedIndex = a.batchedIndex ∧
    (a.ledgerResolve topIndex err).checkpointer = a.checkpointer ∧
    (a.ledgerResolve topIndex err).ackedWG = a.ackedWG := by
  unfold awsKinesisRecordBatcher.ledgerResolve
  cases err with
  | some e => simp
  | none =>
      cases IndexMap.lookup a.indexToSequence topIndex <;> simp

theorem ackLedger_frame {τ : Type} (a : awsKinesisRecordBatcher τ) (topIndex : Int)
    (err : Option GoError) :
    (a.ackLedger topIndex err).1.streamID = a.streamID ∧
    (a.ackLedger topIndex err).1.shardID = a.shardID ∧
    (a.ackLedger topIndex err).1.batchPolicy = a.batchPolicy ∧
    (a.ackLedger topIndex err).1.flushedMessage = a.flushedMessage ∧
    (a.ackLedger topIndex err).1.batchedSequence = a.batchedSequence ∧
    (a.ackLedger topIndex err).1.batchedIndex = a.batchedIndex ∧
    (a.ackLedger topIndex err).1.checkpointer = a.checkpointer := by
  obtain ⟨h1, h2, h3, h4, h5, h6, h7, -⟩ := ledgerResolve_frame a topIndex err
  exact ⟨h1, h2, h3, h4, h5, h6, h7⟩

theorem ackFn_frame {τ : Type} (C : Checkpointer τ) (a : awsKinesisRecordBatcher τ) (index : Int)
    (ctx : Context) (res : Response) :
    (a.ackFn C index ctx res).1.streamID = a.streamID ∧
    (a.ackFn C index ctx res).1.shardID = a.shardID ∧
    (a.ackFn C index ctx res).1.batchPolicy = a.batchPolicy ∧
    (a.ackFn C index ctx res).1.flushedMessage = a.flushedMessage ∧
    (a.ackFn C index ctx res).1.batchedSequence = a.batchedSequence ∧
    (a.ackFn C index ctx res).1.batchedIndex = a.batchedIndex := by
  obtain ⟨h1, h2, h3, h4, h5, h6, -⟩ :=
    ackLedger_frame (a.ackResolve C index).1 (a.ackResolve C index).2.1 (a.ackResolve C index).2.2
  exact ⟨h1, h2, h3, h4, h5, h6⟩

/-- Every step keeps the invariant of the write path. -/
theorem WriteInv_step {τ : Type} (C : Checkpointer τ) (w : World τ) (e : Event)
    (h : WriteInv w) : WriteInv (step C w e) := by
  cases e with
  | AddRecord r =>
      cases hm : w.a.flushedMessage with
      | some msg =>
          obtain ⟨hne, hparts⟩ := h.pending msg hm
          have hheld : World.held (step C w (.AddRecord r))
              = w.held ++ [recordPart w.a.streamID w.a.shardID r] := by
            simp [step, awsKinesisRecordBatcher.AddRecord, World.held, hm, hparts]
          refine ⟨?_, ?_, ?_, ?_⟩
          · rw [hheld]
            have := h.order
            simp only [World.addedParts, World.emittedItems] at this ⊢
            simp [step, awsKinesisRecordBatcher.AddRecord, hm, this]
          · intro m hm'
            simp [step, awsKinesisRecordBatcher.AddRecord, hm] at hm' ⊢
            subst hm'
            exact ⟨by simp, hparts⟩
          · intro p hp
            rw [hheld, List.getLast?_concat] at hp
            simp only [Option.some.injEq] at hp
            subst hp
            simp [step, awsKinesisRecordBatcher.AddRecord, hm, recordPart_sequenceNumber]
          · simpa [step] using h.emittedSeq
      | none =>
          have hheld : World.held (step C w (.AddRecord r))
              = w.held ++ [recordPart w.a.streamID w.a.shardID r] := by
            simp [step, awsKinesisRecordBatcher.AddRecord, World.held, hm, Policy.Add]
          refine ⟨?_, ?_, ?_, ?_⟩
          · rw [hheld]
            have := h.order
            simp only [World.addedParts, World.emittedItems] at this ⊢
            simp [step, awsKinesisRecordBatcher.AddRecord, hm, this]
          · intro m hm'
            simp [step, awsKinesisRecordBatcher.AddRecord, hm] at hm'
          · intro p hp
            rw [hheld, List.getLast?_concat] at hp
            simp only [Option.some.injEq] at hp
            subst hp
            simp [step, awsKinesisRecordBatcher.AddRecord, hm, recordPart_sequenceNumber]
          · simpa [step] using h.emittedSeq
  | FlushMessage ctx =>
      have hf := WriteInv_flushPolicy w h
      cases hp : w.a.flushPolicy.flushedMessage with
      | none =>
          rw [step_FlushMessage_nothing C w ctx hp]
          exact hf
      | some msg =>
          cases ht : (C.Track w.a.flushPolicy.checkpointer ctx w.a.flushPolicy.batchedIndex).2 with
          | some err =>
              rw [step_FlushMessage_error C w ctx msg err hp ht]
              exact WriteInv_congr hf rfl rfl rfl rfl rfl rfl rfl rfl
          | none =>
              rw [step_FlushMessage_success C w ctx msg hp ht]
              exact WriteInv_emit { w with a := w.a.flushPolicy } hf msg hp
                { w.a.flushPolicy with
                  checkpointer := (C.Track w.a.flushPolicy.checkpointer ctx w.a.flushPolicy.batchedIndex).1
                  indexToSequence := IndexMap.insert w.a.flushPolicy.indexToSequence
                    w.a.flushPolicy.batchedIndex w.a.flushPolicy.batchedSequence
                  ackedWG := w.a.flushPolicy.ackedWG + 1
                  flushedMessage := none }
                w.a.flushPolicy.batchedIndex rfl rfl rfl rfl
  | ack n ctx res =>
      simp only [step]
      cases hn : w.emitted[n]? with
      | none => exact h
      | some e =>
          obtain ⟨h1, h2, h3, h4, h5, -⟩ := ackFn_frame C w.a e.index ctx res
          exact WriteInv_congr h h1 h2 (by rw [h3]) h4 h5 rfl
            (markInvoked_map_msg _ _) (markInvoked_map_msg_sequence _ _)
  | ackResolve n ctx res =>
      simp only [step]
      cases hn : w.emitted[n]? with
      | none => exact h
      | some e =>
          exact WriteInv_congr h rfl rfl rfl rfl rfl rfl
            (markInvoked_map_msg _ _) (markInvoked_map_msg_sequence _ _)
  | ackLedger k =>
      simp only [step]
      cases hk : w.resolving[k]? with
      | none => exact h
      | some r =>
          obtain ⟨h1, h2, h3, h4, h5, -⟩ := ackLedger_frame w.a r.1 r.2
          exact WriteInv_congr h h1 h2 (by rw [h3]) h4 h5 rfl rfl rfl

/-- The number of records added. -/
theorem step_added_length {τ : Type} (C : Checkpointer τ) (w : World τ) (e : Event) :
    (step C w e).added.length = w.added.length + countAdds [e] := by
  cases e with
  | AddRecord r => simp [step, countAdds]
  | FlushMessage ctx =>
      simp only [step, countAdds]
      split <;> rfl
  | ack n ctx res =>
      simp only [step, countAdds]
      split <;> rfl
  | ackResolve n ctx res =>
      simp only [step, countAdds]
      split <;> rfl
  | ackLedger k =>
      simp only [step, countAdds]
      split <;> rfl

/-- Every step keeps the invariant of the batched index, as long as fewer than
`2^63` records have been added. -/
theorem IndexInv_step {τ : Type} (C : Checkpointer τ) (w : World τ) (e : Event)
    (hw : WriteInv w) (h : IndexInv w) (hsmall : (step C w e).added.length < 2 ^ 63) :
    IndexInv (step C w e) := by
  cases e with
  | AddRecord r =>
      have hlen : (w.added.length : Int) + 1 < 2 ^ 63 := by
        have : (step C w (.AddRecord r)).added.length = w.added.length + 1 := by simp [step]
        rw [this] at hsmall
        exact_mod_cast hsmall
      have hidx : (step C w (.AddRecord r)).a.batchedIndex = w.a.batchedIndex + 1 := by
        have : (step C w (.AddRecord r)).a.batchedIndex = wrapInt (w.a.batchedIndex + 1) := by
          simp only [step, awsKinesisRecordBatcher.AddRecord]
          split <;> rfl
        rw [this, h.batched]
        exact wrapInt_of_small _ (by omega) hlen
      have hem : (step C w (.AddRecord r)).emitted = w.emitted := rfl
      refine ⟨?_, ?_, ?_, ?_⟩
      · rw [hidx, h.batched]
        simp [step]
      · intro i hi
        rw [hem] at hi
        rw [hidx]
        have := h.bounds i hi
        omega
      · intro _ i hi
        rw [hem] at hi
        rw [hidx]
        have := h.bounds i hi
        omega
      · rw [hem]
        exact h.increasing
  | FlushMessage ctx =>
      have hwf := WriteInv_flushPolicy w hw
      have hf := IndexInv_flushPolicy w h
      have hlen : w.added.length < 2 ^ 63 := by
        have := step_added_length C w (.FlushMessage ctx)
        simp only [countAdds] at this
        omega
      cases hp : w.a.flushPolicy.flushedMessage with
      | none =>
          rw [step_FlushMessage_nothing C w ctx hp]
          exact hf
      | some msg =>
          cases ht : (C.Track w.a.flushPolicy.checkpointer ctx w.a.flushPolicy.batchedIndex).2 with
          | some err =>
              rw [step_FlushMessage_error C w ctx msg err hp ht]
              exact IndexInv_congr hf rfl rfl rfl rfl rfl
          | none =>
              rw [step_FlushMessage_success C w ctx msg hp ht]
              exact IndexInv_emit { w with a := w.a.flushPolicy } hwf hf hlen msg hp
                { w.a.flushPolicy with
                  checkpointer := (C.Track w.a.flushPolicy.checkpointer ctx w.a.flushPolicy.batchedIndex).1
                  indexToSequence := IndexMap.insert w.a.flushPolicy.indexToSequence
                    w.a.flushPolicy.batchedIndex w.a.flushPolicy.batchedSequence
                  ackedWG := w.a.flushPolicy.ackedWG + 1
                  flushedMessage := none }
                w.a.flushPolicy.batchedSequence rfl rfl rfl
  | ack n ctx res =>
      simp only [step]
      cases hn : w.emitted[n]? with
      | none => exact h
      | some e =>
          obtain ⟨-, -, h3, h4, -, h6⟩ := ackFn_frame C w.a e.index ctx res
          exact IndexInv_congr h (by rw [h3]) h4 h6 rfl (markInvoked_map_index _ _)
  | ackResolve n ctx res =>
      simp only [step]
      cases hn : w.emitted[n]? with
      | none => exact h
      | some e =>
          exact IndexInv_congr h rfl rfl rfl rfl (markInvoked_map_index _ _)
  | ackLedger k =>
      simp only [step]
      cases hk : w.resolving[k]? with
      | none => exact h
      | some r =>
          obtain ⟨-, -, h3, h4, -, h6, -⟩ := ackLedger_frame w.a r.1 r.2
          exact IndexInv_congr h (by rw [h3]) h4 h6 rfl rfl

/-- The invariant of the write path holds after every execution of a new
batcher whose policy starts with an empty buffer. -/
theorem WriteInv_run {τ : Type} (C : Checkpointer τ) (batchPolicy : Policy) (checkpointer : τ)
    (streamID shardID sequence : String) (hp : batchPolicy.parts = []) (evs : List Event) :
    WriteInv (run C (World.init batchPolicy checkpointer streamID shardID sequence) evs) := by
  induction evs using List.reverseRecOn with
  | nil => exact WriteInv_init batchPolicy checkpointer streamID shardID sequence hp
  | append_singleton evs e ih =>
      rw [run_concat]
      exact WriteInv_step C _ e ih

theorem run_added_length {τ : Type} (C : Checkpointer τ) (w : World τ) (evs : List Event) :
    (run C w evs).added.length = w.added.length + countAdds evs := by
  induction evs using List.reverseRecOn with
  | nil => simp [run, countAdds]
  | append_singleton evs e ih =>
      rw [run_concat, step_added_length, ih, countAdds_append]
      omega

/-- The invariant of the batched index holds after every execution of a new
batcher in which fewer than `2^63` records are added. -/
theorem IndexInv_run {τ : Type} (C : Checkpointer τ) (batchPolicy : Policy) (checkpointer : τ)
    (streamID shardID sequence : String) (hp : batchPolicy.parts = []) (evs : List Event)
    (hsmall : countAdds evs < 2 ^ 63) :
    IndexInv (run C (World.init batchPolicy checkpointer streamID shardID sequence) evs) := by
  induction evs using List.reverseRecOn with
  | nil => exact IndexInv_init batchPolicy checkpointer streamID shardID sequence
  | append_singleton evs e ih =>
      have hle := countAdds_concat_le evs e
      have hlen := run_added_length C
        (World.init batchPolicy checkpointer streamID shardID sequence) (evs ++ [e])
      rw [run_concat] at hlen ⊢
      refine IndexInv_step C _ e (WriteInv_run C _ _ _ _ _ hp evs) (ih (by omega)) ?_
      rw [hlen]
      simp [World.init]
      exact hsmall


theorem step_ids {τ : Type} (C : Checkpointer τ) (w : World τ) (e : Event) :
    (step C w e).a.streamID = w.a.streamID ∧ (step C w e).a.shardID = w.a.shardID := by
  obtain ⟨-, -, -, -, -, -, f7, f8⟩ := flushPolicy_fields w.a
  cases e with
  | AddRecord r =>
      simp only [step, awsKinesisRecordBatcher.AddRecord]
      split <;> exact ⟨rfl, rfl⟩
  | FlushMessage ctx =>
      cases hp : w.a.flushPolicy.flushedMessage with
      | none =>
          rw [step_FlushMessage_nothing C w ctx hp]
          exact ⟨f7, f8⟩
      | some msg =>
          cases ht : (C.Track w.a.flushPolicy.checkpointer ctx w.a.flushPolicy.batchedIndex).2 with
          | some err =>
              rw [step_FlushMessage_error C w ctx msg err hp ht]
              exact ⟨f7, f8⟩
          | none =>
              rw [step_FlushMessage_success C w ctx msg hp ht]
              exact ⟨f7, f8⟩
  | ack n ctx res =>
      simp only [step]
      cases hn : w.emitted[n]? with
      | none => exact ⟨rfl, rfl⟩
      | some e =>
          obtain ⟨h1, h2, -⟩ := ackFn_frame C w.a e.index ctx res
          exact ⟨h1, h2⟩
  | ackResolve n ctx res =>
      simp only [step]
      cases hn : w.emitted[n]? with
      | none => exact ⟨rfl, rfl⟩
      | some e => exact ⟨rfl, rfl⟩
  | ackLedger k =>
      simp only [step]
      cases hk : w.resolving[k]? with
      | none => exact ⟨rfl, rfl⟩
      | some r =>
          obtain ⟨h1, h2, -⟩ := ackLedger_frame w.a r.1 r.2
          exact ⟨h1, h2⟩

theorem run_ids {τ : Type} (C : Checkpointer τ) (w : World τ) (evs : List Event) :
    (run C w evs).a.streamID = w.a.streamID ∧ (run C w evs).a.shardID = w.a.shardID := by
  induction evs using List.reverseRecOn with
  | nil => exact ⟨rfl, rfl⟩
  | append_singleton evs e ih =>
      rw [run_concat]
      obtain ⟨h1, h2⟩ := step_ids C (run C w evs) e
      exact ⟨h1.trans ih.1, h2.trans ih.2⟩

theorem WriteInv_of_Reachable {τ : Type} (C : Checkpointer τ) (w : World τ)
    (h : Reachable C w) : WriteInv w := by
  obtain ⟨complete, checkpointer, streamID, shardID, sequence, evs, rfl⟩ := h
  exact WriteInv_run C _ _ _ _ _ rfl evs

/-! ## The tracker and the ledger -/

theorem foldl_max_spec (l : List Int) (a : Int) :
    (l.foldl max a = a ∨ l.foldl max a ∈ l) ∧ a ≤ l.foldl max a ∧ ∀ x ∈ l, x ≤ l.foldl max a := by
  induction l generalizing a with
  | nil => simp
  | cons y ys ih =>
      simp only [List.foldl_cons]
      obtain ⟨h1, h2, h3⟩ := ih (max a y)
      refine ⟨?_, ?_, ?_⟩
      · rcases h1 with h1 | h1
        · rcases le_total a y with hay | hay
          · right
            rw [h1, max_eq_right hay]
            exact List.mem_cons_self _ _
          · left
            rw [h1, max_eq_left hay]
        · right
          exact List.mem_cons_of_mem _ h1
      · exact le_trans (le_max_left a y) h2
      · intro x hx
        rcases List.mem_cons.mp hx with hx | hx
        · subst hx
          exact le_trans (le_max_right a x) h2
        · exact h3 x hx

theorem Capped.Track_error (c : Capped) (ctx : Context) (i : Int) (err : GoError)
    (h : (c.Track ctx i).2 = some err) : (c.Track ctx i).1 = c := by
  unfold Capped.Track at h ⊢
  split
  · rfl
  · rename_i hc
    simp [hc] at h

theorem Capped.Track_success (c : Capped) (ctx : Context) (i : Int)
    (h : (c.Track ctx i).2 = none) :
    (c.Track ctx i).1 = { c with slots := c.slots ++ [(i, false)] } := by
  unfold Capped.Track at h ⊢
  split
  · rename_i hc
    simp [hc] at h
  · rfl

/-- The index kept by the filter of `Capped.top`, read on the emissions. -/
theorem settled_filter_iff (l : List Emitted) (k : Int) :
    (l.map (fun e => (e.index, e.invoked))).all (fun s => decide (s.1 ≤ k → s.2 = true)) = true
      ↔ Settled l k := by
  simp only [Settled, List.all_eq_true, List.mem_map, decide_eq_true_eq]
  constructor
  · intro h e he hle
    exact h (e.index, e.invoked) ⟨e, he, rfl⟩ hle
  · rintro h s ⟨e, he, rfl⟩ hle
    exact h e he hle

/-- The top index of a tracker whose slots are the emissions `l`: it is `0` or
the index of an emission, it is settled, and no settled index of an emission
is above it. -/
theorem Capped.top_spec (c : Capped) (l : List Emitted)
    (hs : c.slots = l.map (fun e => (e.index, e.invoked))) :
    (c.top = 0 ∨ (c.top ∈ l.map Emitted.index ∧ Settled l c.top)) ∧ 0 ≤ c.top ∧
    ∀ e ∈ l, Settled l e.index → e.index ≤ c.top := by
  have hkeys : c.slots.map Prod.fst = l.map Emitted.index := by
    rw [hs]; simp [List.map_map, Function.comp_def]
  have hspec := foldl_max_spec
    ((c.slots.map Prod.fst).filter
      (fun k => c.slots.all (fun s => decide (s.1 ≤ k → s.2 = true)))) 0
  change (c.top = 0 ∨ c.top ∈ _) ∧ 0 ≤ c.top ∧ ∀ x ∈ _, x ≤ c.top at hspec
  obtain ⟨h1, h2, h3⟩ := hspec
  refine ⟨?_, h2, ?_⟩
  · rcases h1 with h1 | h1
    · exact Or.inl h1
    · right
      rw [List.mem_filter] at h1
      obtain ⟨hm, hf⟩ := h1
      rw [hkeys] at hm
      rw [hs, settled_filter_iff] at hf
      exact ⟨hm, hf⟩
  · intro e he hset
    apply h3
    rw [List.mem_filter]
    constructor
    · rw [hkeys]
      exact List.mem_map_of_mem _ he
    · rw [hs, settled_filter_iff]
      exact hset

theorem mem_markInvoked (l : List Emitted) (n : Nat) (e : Emitted) (he : e ∈ markInvoked l n) :
    ∃ e0 ∈ l, e.msg = e0.msg ∧ e.index = e0.index ∧ e.sequence = e0.sequence ∧
      (e0.invoked = true → e.invoked = true) := by
  induction l generalizing n with
  | nil => simp [markInvoked] at he
  | cons x xs ih =>
      cases n with
      | zero =>
          simp only [markInvoked, List.mem_cons] at he
          rcases he with he | he
          · subst he
            exact ⟨x, List.mem_cons_self _ _, rfl, rfl, rfl, fun _ => rfl⟩
          · exact ⟨e, List.mem_cons_of_mem _ he, rfl, rfl, rfl, fun h => h⟩
      | succ n =>
          simp only [markInvoked, List.mem_cons] at he
          rcases he with he | he
          · subst he
            exact ⟨e, List.mem_cons_self _ _, rfl, rfl, rfl, fun h => h⟩
          · obtain ⟨e0, h0, h⟩ := ih n he
            exact ⟨e0, List.mem_cons_of_mem _ h0, h⟩

theorem mem_of_markInvoked (l : List Emitted) (n : Nat) (e0 : Emitted) (he : e0 ∈ l) :
    ∃ e ∈ markInvoked l n, e.msg = e0.msg ∧ e.index = e0.index ∧ e.sequence = e0.sequence ∧
      (e0.invoked = true → e.invoked = true) := by
  induction l generalizing n with
  | nil => simp at he
  | cons x xs ih =>
      cases n with
      | zero =>
          simp only [markInvoked]
          rcases List.mem_cons.mp he with he | he
          · subst he
            exact ⟨_, List.mem_cons_self _ _, rfl, rfl, rfl, fun _ => rfl⟩
          · exact ⟨e0, List.mem_cons_of_mem _ he, rfl, rfl, rfl, fun h => h⟩
      | succ n =>
          simp only [markInvoked]
          rcases List.mem_cons.mp he with he | he
          · subst he
            exact ⟨e0, List.mem_cons_self _ _, rfl, rfl, rfl, fun h => h⟩
          · obtain ⟨e, h0, h⟩ := ih n he
            exact ⟨e, List.mem_cons_of_mem _ h0, h⟩

/-- Acking a batch keeps every settled index settled. -/
theorem Settled_markInvoked (l : List Emitted) (n : Nat) (t : Int) (h : Settled l t) :
    Settled (markInvoked l n) t := by
  intro e he hle
  obtain ⟨e0, h0, -, hi, -, hinv⟩ := mem_markInvoked l n e he
  exact hinv (h e0 h0 (by rw [← hi]; exact hle))

theorem SafeTop_markInvoked (l : List Emitted) (n : Nat) (t : Int) (h : SafeTop l t) :
    SafeTop (markInvoked l n) t := by
  refine ⟨?_, Settled_markInvoked l n t h.2⟩
  rw [markInvoked_map_index]
  exact h.1

/-- A new emission above every index in use keeps a safe top index safe. -/
theorem SafeTop_append (l : List Emitted) (new : Emitted) (t : Int) (h : SafeTop l t)
    (habove : ∀ i ∈ l.map Emitted.index, i < new.index) (hpos : 1 ≤ new.index) :
    SafeTop (l ++ [new]) t := by
  have hlt : t < new.index := by
    rcases h.1 with h0 | h0
    · omega
    · exact habove t h0
  refine ⟨?_, ?_⟩
  · rcases h.1 with h0 | h0
    · exact Or.inl h0
    · right
      simp only [List.map_append, List.mem_append]
      exact Or.inl h0
  · intro e he hle
    rcases List.mem_append.mp he with he | he
    · exact h.2 e he hle
    · simp only [List.mem_singleton] at he
      subst he
      omega

/-- Resolving the index of the `n`-th emission in the slots is acking the
`n`-th emission, when no two emissions share an index. -/
theorem resolve_slots (l : List Emitted) (n : Nat) (e : Emitted) (hn : l[n]? = some e)
    (hinc : (l.map Emitted.index).Pairwise (fun i j => i < j)) :
    (l.map (fun e => (e.index, e.invoked))).map
        (fun s => if s.1 = e.index then (s.1, true) else s)
      = (markInvoked l n).map (fun e => (e.index, e.invoked)) := by
  induction l generalizing n with
  | nil => simp at hn
  | cons x xs ih =>
      simp only [List.map_cons, List.pairwise_cons] at hinc
      obtain ⟨hx, hxs⟩ := hinc
      cases n with
      | zero =>
          simp only [List.getElem?_cons_zero, Option.some.injEq] at hn
          subst hn
          simp only [markInvoked, List.map_cons, List.map_map, if_true]
          congr 1
          apply List.map_congr_left
          intro y hy
          have : x.index < y.index := hx _ (List.mem_map_of_mem _ hy)
          have hne : ¬ y.index = x.index := by omega
          simp [hne]
      | succ n =>
          simp only [List.getElem?_cons_succ] at hn
          have hmem : e ∈ xs := List.getElem?_mem hn
          have : x.index < e.index := hx _ (List.mem_map_of_mem _ hmem)
          have hne : ¬ x.index = e.index := by omega
          simp only [markInvoked, List.map_cons, hne, if_false]
          congr 1
          exact ih n hn hxs

theorem LedgerInv_congr {sequence : String} {w w' : World Capped} (h : LedgerInv sequence w)
    (h1 : w'.a.checkpointer = w.a.checkpointer)
    (h2 : w'.a.indexToSequence = w.a.indexToSequence)
    (h3 : w'.a.ackedSequence = w.a.ackedSequence)
    (h4 : w'.emitted = w.emitted) (h5 : w'.resolving = w.resolving) :
    LedgerInv sequence w' := by
  refine ⟨?_, ?_, ?_, ?_⟩
  · rw [h1, h4]; exact h.slots
  · rw [h2, h4]; exact h.entries
  · rw [h4, h5]; exact h.suspended
  · rw [h3, h4]; exact h.acked

theorem LedgerInv_init (batchPolicy : Policy) (capacity : Nat)
    (streamID shardID sequence : String) :
    LedgerInv sequence (World.init batchPolicy (NewCapped capacity) streamID shardID sequence) := by
  refine ⟨?_, ?_, ?_, ?_⟩
  · simp [World.init, awsKinesisRecordBatcher.init, NewCapped]
  · intro i s h
    simp [World.init, awsKinesisRecordBatcher.init, IndexMap.lookup] at h
  · intro r hr
    simp [World.init] at hr
  · left
    simp [World.init, awsKinesisRecordBatcher.init]

theorem AddRecord_frame {τ : Type} (a : awsKinesisRecordBatcher τ) (r : Record) :
    (a.AddRecord r).1.checkpointer = a.checkpointer ∧
    (a.AddRecord r).1.indexToSequence = a.indexToSequence ∧
    (a.AddRecord r).1.ackedSequence = a.ackedSequence ∧
    (a.AddRecord r).1.ackedWG = a.ackedWG := by
  simp only [awsKinesisRecordBatcher.AddRecord]
  split <;> exact ⟨rfl, rfl, rfl, rfl⟩

/-- When a message is pending, every index in use is below the batched index,
which is at least 1. -/
theorem pending_index_fresh {τ : Type} (w : World τ) (hw : WriteInv w) (h : IndexInv w)
    (msg : List Part) (hm : w.a.flushedMessage = some msg) :
    (∀ i ∈ w.emitted.map Emitted.index, i < w.a.batchedIndex) ∧ 1 ≤ w.a.batchedIndex := by
  obtain ⟨hne, hparts⟩ := hw.pending msg hm
  have hheld : w.held ≠ [] := by simp [World.held, hm, hparts, hne]
  have hadd : w.added ≠ [] := by
    intro h0
    have := hw.order
    simp [World.addedParts, h0] at this
    exact hheld this.2
  refine ⟨h.fresh hheld, ?_⟩
  rw [h.batched]
  have : 0 < w.added.length := List.length_pos.mpr hadd
  omega

/-- The whole ack callback is its first half followed at once by its second
half. -/
theorem step_ack_eq {τ : Type} (C : Checkpointer τ) (w : World τ) (n : Nat) (ctx : Context)
    (res : Response) :
    step C w (.ack n ctx res)
      = step C (step C w (.ackResolve n ctx res)) (.ackLedger w.resolving.length) := by
  cases hn : w.emitted[n]? with
  | none => simp [step, hn]
  | some e =>
      have herase : (w.resolving ++ [(w.a.ackResolve C e.index).2]).eraseIdx w.resolving.length
          = w.resolving := by
        rw [List.eraseIdx_append_of_length_le (le_refl _)]
        simp
      simp [step, hn, awsKinesisRecordBatcher.ackFn, herase]

/-- The index of every emission is at least 1, so `0` is settled. -/
theorem Settled_zero (l : List Emitted) (h : ∀ i ∈ l.map Emitted.index, 1 ≤ i) : Settled l 0 := by
  intro e he hle
  have := h e.index (List.mem_map_of_mem _ he)
  omega

/-- The first half of the ack callback keeps the invariant of the ledger. -/
theorem LedgerInv_ackResolve (sequence : String) (w : World Capped) (n : Nat) (ctx : Context)
    (res : Response) (hi : IndexInv w) (h : LedgerInv sequence w) :
    LedgerInv sequence (step cappedCheckpointer w (.ackResolve n ctx res)) := by
  simp only [step]
  cases hn : w.emitted[n]? with
  | none => exact h
  | some e =>
      have hslots : (Capped.Resolve w.a.checkpointer e.index).1.slots
          = (markInvoked w.emitted n).map (fun e => (e.index, e.invoked)) := by
        simp only [Capped.Resolve]
        rw [h.slots]
        exact resolve_slots w.emitted n e hn hi.increasing
      have htop : (Capped.Resolve w.a.checkpointer e.index).2
          = ((Capped.Resolve w.a.checkpointer e.index).1.top, none) := rfl
      have hone : ∀ i ∈ (markInvoked w.emitted n).map Emitted.index, 1 ≤ i := by
        rw [markInvoked_map_index]
        intro i hi'
        exact (hi.bounds i hi').1
      refine ⟨hslots, ?_, ?_, ?_⟩
      · intro i s hl
        simp only [markInvoked_map_index_sequence]
        exact h.entries i s hl
      · intro r hr
        simp only [awsKinesisRecordBatcher.ackResolve, cappedCheckpointer] at hr
        rcases List.mem_append.mp hr with hr | hr
        · obtain ⟨h1, h2⟩ := h.suspended r hr
          exact ⟨h1, SafeTop_markInvoked _ _ _ h2⟩
        · simp only [List.mem_singleton] at hr
          rw [htop] at hr
          subst hr
          refine ⟨rfl, ?_⟩
          obtain ⟨h1, -, -⟩ := Capped.top_spec _ (markInvoked w.emitted n) hslots
          rcases h1 with h0 | ⟨hm, hs⟩
          · refine ⟨Or.inl h0, ?_⟩
            simp only at h0 ⊢
            rw [h0]
            exact Settled_zero _ hone
          · exact ⟨Or.inr hm, hs⟩
      · rcases h.acked with ha | ⟨e0, he0, hseq, hset⟩
        · exact Or.inl ha
        · right
          obtain ⟨e1, he1, -, hidx, hs1, -⟩ := mem_of_markInvoked w.emitted n e0 he0
          refine ⟨e1, he1, ?_, ?_⟩
          · rw [hs1]; exact hseq
          · rw [hidx]; exact Settled_markInvoked _ _ _ hset

/-- The second half of the ack callback keeps the invariant of the ledger. -/
theorem LedgerInv_ackLedger (sequence : String) (w : World Capped) (k : Nat)
    (h : LedgerInv sequence w) :
    LedgerInv sequence (step cappedCheckpointer w (.ackLedger k)) := by
  simp only [step]
  cases hk : w.resolving[k]? with
  | none => exact h
  | some r =>
      obtain ⟨hnone, hsafe⟩ := h.suspended r (List.getElem?_mem hk)
      have hsub : ∀ r' ∈ w.resolving.eraseIdx k, r'.2 = none ∧ SafeTop w.emitted r'.1 :=
        fun r' hr' => h.suspended r' (List.mem_of_mem_eraseIdx hr')
      simp only [awsKinesisRecordBatcher.ackLedger, hnone]
      cases hl : IndexMap.lookup w.a.indexToSequence r.1 with
      | none =>
          rw [ledgerResolve_absent w.a r.1 hl]
          exact ⟨h.slots, h.entries, hsub, h.acked⟩
      | some s =>
          obtain ⟨hacked, hmap⟩ := ledgerResolve_found w.a r.1 s hl
          obtain ⟨-, -, -, -, -, -, hcp, -⟩ := ledgerResolve_frame w.a r.1 none
          refine ⟨?_, ?_, hsub, ?_⟩
          · simp only [hcp]
            exact h.slots
          · intro i s' hl'
            simp only [hmap] at hl'
            by_cases hit : i = r.1
            · subst hit
              rw [IndexMap.lookup_delete_self] at hl'
              cases hl'
            · rw [IndexMap.lookup_delete_other _ _ _ hit] at hl'
              exact h.entries i s' hl'
          · right
            have hmem := h.entries r.1 s hl
            simp only [List.mem_map, Prod.mk.injEq] at hmem
            obtain ⟨e, he, hidx, hseq⟩ := hmem
            refine ⟨e, he, ?_, ?_⟩
            · simp only [hacked]
              exact hseq
            · rw [hidx]
              exact hsafe.2

/-- Every step keeps the invariant of the ledger. -/
theorem LedgerInv_step (sequence : String) (w : World Capped) (e : Event)
    (hw : WriteInv w) (hi : IndexInv w) (h : LedgerInv sequence w) :
    LedgerInv sequence (step cappedCheckpointer w e) := by
  cases e with
  | AddRecord r =>
      obtain ⟨h1, h2, h3, -⟩ := AddRecord_frame w.a r
      exact LedgerInv_congr h h1 h2 h3 rfl rfl
  | FlushMessage ctx =>
      obtain ⟨f1, f2, -, f4, -, f6, -⟩ := flushPolicy_fields w.a
      have hf : LedgerInv sequence { w with a := w.a.flushPolicy } := LedgerInv_congr h f6 f1 f2 rfl rfl
      cases hp : w.a.flushPolicy.flushedMessage with
      | none =>
          rw [step_FlushMessage_nothing cappedCheckpointer w ctx hp]
          exact hf
      | some msg =>
          cases ht : (cappedCheckpointer.Track w.a.flushPolicy.checkpointer ctx
              w.a.flushPolicy.batchedIndex).2 with
          | some err =>
              rw [step_FlushMessage_error cappedCheckpointer w ctx msg err hp ht]
              exact LedgerInv_congr hf (Capped.Track_error w.a.flushPolicy.checkpointer ctx _ err ht) rfl rfl rfl rfl
          | none =>
              rw [step_FlushMessage_success cappedCheckpointer w ctx msg hp ht]
              obtain ⟨habove, hpos⟩ := pending_index_fresh { w with a := w.a.flushPolicy }
                (WriteInv_flushPolicy w hw) (IndexInv_flushPolicy w hi) msg hp
              have hcp := Capped.Track_success w.a.flushPolicy.checkpointer ctx w.a.flushPolicy.batchedIndex ht
              refine ⟨?_, ?_, ?_, ?_⟩
              · simp only [cappedCheckpointer] at hcp ⊢
                rw [hcp]
                simp only [List.map_append, List.map_cons, List.map_nil]
                rw [hf.slots]
              · intro i s hl
                simp only at hl
                simp only [List.map_append, List.map_cons, List.map_nil, List.mem_append,
                  List.mem_singleton]
                by_cases hit : i = w.a.flushPolicy.batchedIndex
                · subst hit
                  rw [IndexMap.lookup_insert_self] at hl
                  simp only [Option.some.injEq] at hl
                  right
                  rw [hl]
                · rw [IndexMap.lookup_insert_other _ _ _ _ hit] at hl
                  exact Or.inl (hf.entries i s hl)
              · intro r hr
                obtain ⟨h1, h2⟩ := hf.suspended r hr
                exact ⟨h1, SafeTop_append _ _ _ h2 habove hpos⟩
              · rcases hf.acked with ha | ⟨e0, he0, hseq, hset⟩
                · exact Or.inl ha
                · right
                  refine ⟨e0, List.mem_append_left _ he0, hseq, ?_⟩
                  exact (SafeTop_append w.emitted _ e0.index
                    ⟨Or.inr (List.mem_map_of_mem _ he0), hset⟩ habove hpos).2
  | ack n ctx res =>
      rw [step_ack_eq]
      apply LedgerInv_ackLedger
      exact LedgerInv_ackResolve sequence w n ctx res hi h
  | ackResolve n ctx res => exact LedgerInv_ackResolve sequence w n ctx res hi h
  | ackLedger k => exact LedgerInv_ackLedger sequence w k h

/-- The invariant of the ledger holds after every execution of a new batcher in
which fewer than `2^63` records are added. -/
theorem LedgerInv_run (complete : List Part → Bool) (capacity : Nat)
    (streamID shardID sequence : String) (evs : List Event) (hsmall : countAdds evs < 2 ^ 63) :
    LedgerInv sequence (run cappedCheckpointer
      (World.init (NewPolicy complete) (NewCapped capacity) streamID shardID sequence) evs) := by
  induction evs using List.reverseRecOn with
  | nil => exact LedgerInv_init _ capacity streamID shardID sequence
  | append_singleton evs e ih =>
      have hle := countAdds_concat_le evs e
      rw [run_concat]
      exact LedgerInv_step sequence _ e (WriteInv_run _ _ _ _ _ _ rfl evs)
        (IndexInv_run _ _ _ _ _ _ rfl evs (by omega)) (ih (by omega))

/-- In a list of emissions with increasing indices, the emissions up to a
settled one have all been acked. -/
theorem take_invoked_of_settled (l : List Emitted) (n : Nat) (e : Emitted)
    (hinc : (l.map Emitted.index).Pairwise (fun i j => i < j)) (hn : l[n]? = some e)
    (hset : Settled l e.index) : ∀ b ∈ l.take (n + 1), b.invoked = true := by
  intro b hb
  have hbl : b ∈ l := List.mem_of_mem_take hb
  apply hset b hbl
  rw [List.take_succ, hn] at hb
  simp only [Option.toList_some, List.mem_append, List.mem_singleton] at hb
  rcases hb with hb | hb
  · have hsplit : l = l.take n ++ l.drop n := (List.take_append_drop n l).symm
    have hdrop : e ∈ l.drop n := by
      have : (l.drop n)[0]? = some e := by
        rw [List.getElem?_drop]
        simpa using hn
      exact List.getElem?_mem this
    rw [List.pairwise_map] at hinc
    rw [hsplit, List.pairwise_append] at hinc
    exact le_of_lt (hinc.2.2 b hb e hdrop)
  · rw [hb]

/-- The items of the first emissions are the parts of the first records. -/
theorem take_items_eq_take_added {τ : Type} (w : World τ) (hw : WriteInv w) (n : Nat) :
    ((w.emitted.take n).map Emitted.msg).flatten
      = (w.added.take ((w.emitted.take n).map Emitted.msg).flatten.length).map
          (recordPart w.a.streamID w.a.shardID) := by
  have horder := hw.order
  simp only [World.addedParts, World.emittedItems] at horder
  have hsplit : (w.emitted.map Emitted.msg).flatten
      = ((w.emitted.take n).map Emitted.msg).flatten
        ++ ((w.emitted.drop n).map Emitted.msg).flatten := by
    rw [← List.flatten_append, ← List.map_append, List.take_append_drop]
  rw [hsplit, List.append_assoc] at horder
  have hmap : ∀ k, (w.added.take k).map (recordPart w.a.streamID w.a.shardID)
      = (w.added.map (recordPart w.a.streamID w.a.shardID)).take k := by
    intro k
    rw [List.map_take]
  rw [hmap, horder, List.take_left']
  rfl

/-! ## The acked sequence when ack callbacks run one at a time -/

theorem Settled_cons (x : Emitted) (xs : List Emitted) (t : Int) :
    Settled (x :: xs) t ↔ (x.index ≤ t → x.invoked = true) ∧ Settled xs t := by
  simp [Settled]

/-- With increasing indices, no index is settled when the first batch has not
been acked. -/
theorem watermark_none (l : List Emitted)
    (hinc : (l.map Emitted.index).Pairwise (fun i j => i < j)) (h : watermark l = none) :
    ∀ e ∈ l, ¬ Settled l e.index := by
  induction l with
  | nil => simp
  | cons x xs ih =>
      simp only [List.map_cons, List.pairwise_cons] at hinc
      obtain ⟨hx, hxs⟩ := hinc
      cases hxi : x.invoked with
      | true => simp [watermark, List.takeWhile_cons, hxi, List.getLast?_cons] at h
      | false =>
          intro e he hset
          have hle : x.index ≤ e.index := by
            rcases List.mem_cons.mp he with he | he
            · rw [he]
            · exact le_of_lt (hx _ (List.mem_map_of_mem _ he))
          have := hset x (List.mem_cons_self _ _) hle
          rw [hxi] at this
          cases this

/-- With increasing indices, the watermark is the emission with the highest
settled index. -/
theorem watermark_some (l : List Emitted) (e : Emitted)
    (hinc : (l.map Emitted.index).Pairwise (fun i j => i < j)) (h : watermark l = some e) :
    e ∈ l ∧ Settled l e.index ∧ ∀ e' ∈ l, Settled l e'.index → e'.index ≤ e.index := by
  induction l generalizing e with
  | nil => simp [watermark] at h
  | cons x xs ih =>
      simp only [List.map_cons, List.pairwise_cons] at hinc
      obtain ⟨hx, hxs⟩ := hinc
      cases hxi : x.invoked with
      | false => simp [watermark, List.takeWhile_cons, hxi] at h
      | true =>
          have hw : watermark (x :: xs) = some ((watermark xs).getD x) := by
            simp [watermark, List.takeWhile_cons, hxi, List.getLast?_cons]
          rw [hw] at h
          simp only [Option.some.injEq] at h
          cases hws : watermark xs with
          | none =>
              rw [hws] at h
              simp only [Option.getD_none] at h
              subst h
              have hnone := watermark_none xs hxs hws
              refine ⟨List.mem_cons_self _ _, ?_, ?_⟩
              · rw [Settled_cons]
                refine ⟨fun _ => hxi, ?_⟩
                intro y hy hle
                have := hx _ (List.mem_map_of_mem _ hy)
                omega
              · intro e' he' hset
                rcases List.mem_cons.mp he' with he' | he'
                · rw [he']
                · exact absurd ((Settled_cons _ _ _).mp hset).2 (hnone e' he')
          | some e0 =>
              rw [hws] at h
              simp only [Option.getD_some] at h
              subst h
              obtain ⟨hmem, hset, hmax⟩ := ih e0 hxs hws
              refine ⟨List.mem_cons_of_mem _ hmem, ?_, ?_⟩
              · rw [Settled_cons]
                exact ⟨fun _ => hxi, hset⟩
              · intro e' he' hset'
                rcases List.mem_cons.mp he' with he' | he'
                · rw [he']
                  exact le_of_lt (hx _ (List.mem_map_of_mem _ hmem))
                · exact hmax e' he' ((Settled_cons _ _ _).mp hset').2

/-- Emissions with increasing indices are told apart by their index. -/
theorem eq_of_index_eq (l : List Emitted)
    (hinc : (l.map Emitted.index).Pairwise (fun i j => i < j)) (e e' : Emitted)
    (he : e ∈ l) (he' : e' ∈ l) (h : e.index = e'.index) : e = e' := by
  have hnd : (l.map Emitted.index).Nodup := hinc.imp (fun hab => ne_of_lt hab)
  exact List.inj_on_of_nodup_map hnd he he' h

theorem ExactInv_congr {sequence : String} {w w' : World Capped} (h : ExactInv sequence w)
    (h2 : w'.a.indexToSequence = w.a.indexToSequence)
    (h3 : w'.a.ackedSequence = w.a.ackedSequence)
    (h4 : w'.emitted = w.emitted) (h5 : w'.resolving = w.resolving) :
    ExactInv sequence w' := by
  refine ⟨?_, ?_, ?_⟩
  · rw [h5]; exact h.idle
  · rw [h3, h4]; exact h.acked
  · rw [h2, h4]; exact h.present

theorem ExactInv_init (batchPolicy : Policy) (capacity : Nat)
    (streamID shardID sequence : String) :
    ExactInv sequence (World.init batchPolicy (NewCapped capacity) streamID shardID sequence) := by
  refine ⟨rfl, ?_, ?_⟩
  · left
    refine ⟨rfl, ?_⟩
    intro e he
    simp [World.init] at he
  · intro e he
    simp [World.init] at he

/-- A new emission, not acked and above every index in use, does not change
which indices of the earlier emissions are settled, and is not settled. -/
theorem Settled_append_iff (l : List Emitted) (new : Emitted) (t : Int)
    (hnew : new.invoked = false) :
    Settled (l ++ [new]) t ↔ Settled l t ∧ t < new.index := by
  constructor
  · intro h
    refine ⟨fun e he hle => h e (List.mem_append_left _ he) hle, ?_⟩
    by_contra hcon
    have := h new (by simp) (by omega)
    rw [hnew] at this
    cases this
  · rintro ⟨h1, h2⟩ e he hle
    rcases List.mem_append.mp he with he | he
    · exact h1 e he hle
    · simp only [List.mem_singleton] at he
      subst he
      omega

theorem ackFn_capped_absent (a : awsKinesisRecordBatcher Capped) (index : Int) (ctx : Context)
    (res : Response)
    (h : IndexMap.lookup a.indexToSequence (Capped.Resolve a.checkpointer index).1.top = none) :
    (a.ackFn cappedCheckpointer index ctx res).1.ackedSequence = a.ackedSequence ∧
    (a.ackFn cappedCheckpointer index ctx res).1.indexToSequence = a.indexToSequence := by
  have h21 : (Capped.Resolve a.checkpointer index).2.1
      = (Capped.Resolve a.checkpointer index).1.top := rfl
  have h22 : (Capped.Resolve a.checkpointer index).2.2 = none := rfl
  have := ledgerResolve_absent { a with checkpointer := (Capped.Resolve a.checkpointer index).1 }
    (Capped.Resolve a.checkpointer index).1.top h
  simp [awsKinesisRecordBatcher.ackFn, awsKinesisRecordBatcher.ackResolve,
    awsKinesisRecordBatcher.ackLedger, cappedCheckpointer, h21, h22, this]

theorem ackFn_capped_found (a : awsKinesisRecordBatcher Capped) (index : Int) (ctx : Context)
    (res : Response) (s : String)
    (h : IndexMap.lookup a.indexToSequence (Capped.Resolve a.checkpointer index).1.top = some s) :
    (a.ackFn cappedCheckpointer index ctx res).1.ackedSequence = s ∧
    (a.ackFn cappedCheckpointer index ctx res).1.indexToSequence
      = IndexMap.delete a.indexToSequence (Capped.Resolve a.checkpointer index).1.top := by
  have h21 : (Capped.Resolve a.checkpointer index).2.1
      = (Capped.Resolve a.checkpointer index).1.top := rfl
  have h22 : (Capped.Resolve a.checkpointer index).2.2 = none := rfl
  have := ledgerResolve_found { a with checkpointer := (Capped.Resolve a.checkpointer index).1 }
    (Capped.Resolve a.checkpointer index).1.top s h
  simp only [awsKinesisRecordBatcher.ackFn, awsKinesisRecordBatcher.ackResolve,
    awsKinesisRecordBatcher.ackLedger, cappedCheckpointer, h21, h22]
  exact this

/-- An ack callback run whole keeps the invariant of the acked sequence. -/
theorem ExactInv_ack (sequence : String) (w : World Capped) (n : Nat) (ctx : Context)
    (res : Response) (hi : IndexInv w) (hl : LedgerInv sequence w) (h : ExactInv sequence w) :
    ExactInv sequence (step cappedCheckpointer w (.ack n ctx res)) := by
  simp only [step]
  cases hn : w.emitted[n]? with
  | none => exact h
  | some e =>
      have hslots : (Capped.Resolve w.a.checkpointer e.index).1.slots
          = (markInvoked w.emitted n).map (fun e => (e.index, e.invoked)) := by
        simp only [Capped.Resolve]
        rw [hl.slots]
        exact resolve_slots w.emitted n e hn hi.increasing
      obtain ⟨htop1, -, htop3⟩ := Capped.top_spec _ (markInvoked w.emitted n) hslots
      have hone : ∀ e' ∈ markInvoked w.emitted n, 1 ≤ e'.index := by
        intro e' he'
        have hm : e'.index ∈ (markInvoked w.emitted n).map Emitted.index :=
          List.mem_map_of_mem _ he'
        rw [markInvoked_map_index] at hm
        exact (hi.bounds _ hm).1
      have hmono : ∀ t, Settled w.emitted t → Settled (markInvoked w.emitted n) t :=
        fun t => Settled_markInvoked w.emitted n t
      -- an emission that is not settled after the ack has its entry in the old map
      have hpres : ∀ e' ∈ markInvoked w.emitted n, ¬ Settled (markInvoked w.emitted n) e'.index →
          IndexMap.lookup w.a.indexToSequence e'.index = some e'.sequence := by
        intro e' he' hns
        obtain ⟨e0, he0, -, hidx, hseq, -⟩ := mem_markInvoked w.emitted n e' he'
        rw [hidx, hseq]
        apply h.present e0 he0
        intro hs
        exact hns (by rw [hidx]; exact hmono _ hs)
      cases hlook : IndexMap.lookup w.a.indexToSequence
          (Capped.Resolve w.a.checkpointer e.index).1.top with
      | none =>
          obtain ⟨hacked, hmap⟩ := ackFn_capped_absent w.a e.index ctx res hlook
          refine ⟨h.idle, ?_, ?_⟩
          · simp only [hacked]
            by_cases hex : ∃ e' ∈ markInvoked w.emitted n,
                Settled (markInvoked w.emitted n) e'.index
            · right
              obtain ⟨e', he', hs'⟩ := hex
              have hle := htop3 e' he' hs'
              have hpos := hone e' he'
              rcases htop1 with h0 | ⟨hmem, hset⟩
              · omega
              · simp only [List.mem_map] at hmem
                obtain ⟨et, het, hett⟩ := hmem
                -- the top index was settled before the ack, or its entry would be there
                have hsold : Settled w.emitted et.index := by
                  by_contra hns
                  obtain ⟨e0, he0, -, hidx, hseq, -⟩ := mem_markInvoked w.emitted n et het
                  have := h.present e0 he0 (by rw [← hidx]; exact hns)
                  rw [← hidx, hett, hlook] at this
                  cases this
                rcases h.acked with ⟨-, hnone⟩ | ⟨e0, he0, hseq0, hset0, hmax0⟩
                · obtain ⟨e1, he1, -, hidx1, -, -⟩ := mem_markInvoked w.emitted n et het
                  exact absurd (by rw [← hidx1]; exact hsold) (hnone e1 he1)
                · obtain ⟨e1, he1, -, hidx1, hseq1, -⟩ := mem_of_markInvoked w.emitted n e0 he0
                  obtain ⟨e2, he2, -, hidx2, -, -⟩ := mem_markInvoked w.emitted n et het
                  have hle1 : et.index ≤ e0.index := by
                    rw [hidx2]
                    exact hmax0 e2 he2 (by rw [← hidx2]; exact hsold)
                  have hle2 : e0.index ≤ et.index := by
                    rw [hett, ← hidx1]
                    exact htop3 e1 he1 (by rw [hidx1]; exact hmono _ hset0)
                  refine ⟨e1, he1, by rw [hseq1]; exact hseq0, ?_, ?_⟩
                  · rw [hidx1]; exact hmono _ hset0
                  · intro e'' he'' hs''
                    have := htop3 e'' he'' hs''
                    rw [hidx1]
                    omega
            · left
              have hnone : ∀ e' ∈ markInvoked w.emitted n,
                  ¬ Settled (markInvoked w.emitted n) e'.index :=
                fun e' he' hs' => hex ⟨e', he', hs'⟩
              refine ⟨?_, hnone⟩
              rcases h.acked with ⟨ha, -⟩ | ⟨e0, he0, -, hset0, -⟩
              · exact ha
              · obtain ⟨e1, he1, -, hidx1, -, -⟩ := mem_of_markInvoked w.emitted n e0 he0
                exact absurd (by rw [hidx1]; exact hmono _ hset0) (hnone e1 he1)
          · intro e' he' hns
            simp only [hmap]
            exact hpres e' he' hns
      | some s =>
          obtain ⟨hacked, hmap⟩ := ackFn_capped_found w.a e.index ctx res s hlook
          have hmem := hl.entries _ s hlook
          rw [← markInvoked_map_index_sequence w.emitted n] at hmem
          simp only [List.mem_map, Prod.mk.injEq] at hmem
          obtain ⟨et, het, hett, hets⟩ := hmem
          have hpos := hone et het
          have hset : Settled (markInvoked w.emitted n)
              (Capped.Resolve w.a.checkpointer e.index).1.top := by
            rcases htop1 with h0 | ⟨-, hset⟩
            · omega
            · exact hset
          refine ⟨h.idle, ?_, ?_⟩
          · right
            refine ⟨et, het, ?_, ?_, ?_⟩
            · simp only [hacked]
              exact hets
            · rw [hett]; exact hset
            · intro e'' he'' hs''
              rw [hett]
              exact htop3 e'' he'' hs''
          · intro e' he' hns
            simp only [hmap]
            have hne : e'.index ≠ (Capped.Resolve w.a.checkpointer e.index).1.top := by
              intro heq
              exact hns (by rw [heq]; exact hset)
            rw [IndexMap.lookup_delete_other _ _ _ hne]
            exact hpres e' he' hns

/-- The write path keeps the invariant of the acked sequence. -/
theorem ExactInv_write (sequence : String) (w : World Capped) (e : Event)
    (hw : WriteInv w) (hi : IndexInv w) (h : ExactInv sequence w)
    (he : atomicAcks [e] = true) (hl : LedgerInv sequence w) :
    ExactInv sequence (step cappedCheckpointer w e) := by
  cases e with
  | AddRecord r =>
      obtain ⟨-, h2, h3, -⟩ := AddRecord_frame w.a r
      exact ExactInv_congr h h2 h3 rfl rfl
  | FlushMessage ctx =>
      obtain ⟨f1, f2, -, f4, f5, -⟩ := flushPolicy_fields w.a
      have hf : ExactInv sequence { w with a := w.a.flushPolicy } := ExactInv_congr h f1 f2 rfl rfl
      cases hp : w.a.flushPolicy.flushedMessage with
      | none =>
          rw [step_FlushMessage_nothing cappedCheckpointer w ctx hp]
          exact hf
      | some msg =>
          cases ht : (cappedCheckpointer.Track w.a.flushPolicy.checkpointer ctx
              w.a.flushPolicy.batchedIndex).2 with
          | some err =>
              rw [step_FlushMessage_error cappedCheckpointer w ctx msg err hp ht]
              exact ExactInv_congr hf rfl rfl rfl rfl
          | none =>
              rw [step_FlushMessage_success cappedCheckpointer w ctx msg hp ht]
              obtain ⟨habove, hpos⟩ := pending_index_fresh { w with a := w.a.flushPolicy }
                (WriteInv_flushPolicy w hw) (IndexInv_flushPolicy w hi) msg hp
              have hlt : ∀ e0 ∈ w.emitted, e0.index < w.a.flushPolicy.batchedIndex :=
                fun e0 he0 => habove _ (List.mem_map_of_mem _ he0)
              refine ⟨hf.idle, ?_, ?_⟩
              · rcases hf.acked with ⟨ha, hnone⟩ | ⟨e0, he0, hseq0, hset0, hmax0⟩
                · left
                  refine ⟨ha, ?_⟩
                  intro e' he' hs'
                  have hs'' := (Settled_append_iff _ _ _ rfl).mp hs'
                  rcases List.mem_append.mp he' with he' | he'
                  · exact hnone e' he' hs''.1
                  · simp only [List.mem_singleton] at he'
                    subst he'
                    exact absurd hs''.2 (lt_irrefl _)
                · right
                  refine ⟨e0, List.mem_append_left _ he0, hseq0, ?_, ?_⟩
                  · exact (Settled_append_iff _ _ _ rfl).mpr ⟨hset0, hlt e0 he0⟩
                  · intro e' he' hs'
                    have hs'' := (Settled_append_iff _ _ _ rfl).mp hs'
                    rcases List.mem_append.mp he' with he' | he'
                    · exact hmax0 e' he' hs''.1
                    · simp only [List.mem_singleton] at he'
                      subst he'
                      exact absurd hs''.2 (lt_irrefl _)
              · intro e' he' hns
                simp only
                rcases List.mem_append.mp he' with he' | he'
                · have hne : e'.index ≠ w.a.flushPolicy.batchedIndex := ne_of_lt (hlt e' he')
                  rw [IndexMap.lookup_insert_other _ _ _ _ hne]
                  apply hf.present e' he'
                  intro hs
                  exact hns ((Settled_append_iff _ _ _ rfl).mpr ⟨hs, hlt e' he'⟩)
                · simp only [List.mem_singleton] at he'
                  subst he'
                  exact IndexMap.lookup_insert_self _ _ _
  | ack n ctx res => exact ExactInv_ack sequence w n ctx res hi hl h
  | ackResolve n ctx res => simp [atomicAcks] at he
  | ackLedger k => simp [atomicAcks] at he

/-- The invariant of the acked sequence holds after every execution of a new
batcher in which the ack callbacks run one at a time and fewer than `2^63`
records are added. -/
theorem ExactInv_run (complete : List Part → Bool) (capacity : Nat)
    (streamID shardID sequence : String) (evs : List Event) (hatomic : atomicAcks evs = true)
    (hsmall : countAdds evs < 2 ^ 63) :
    ExactInv sequence (run cappedCheckpointer
      (World.init (NewPolicy complete) (NewCapped capacity) streamID shardID sequence) evs) := by
  induction evs using List.reverseRecOn with
  | nil => exact ExactInv_init _ capacity streamID shardID sequence
  | append_singleton evs e ih =>
      have hle := countAdds_concat_le evs e
      rw [atomicAcks_append, Bool.and_eq_true] at hatomic
      rw [run_concat]
      exact ExactInv_write sequence _ e (WriteInv_run _ _ _ _ _ _ rfl evs)
        (IndexInv_run _ _ _ _ _ _ rfl evs (by omega)) (ih hatomic.1 (by omega)) hatomic.2
        (LedgerInv_run complete capacity streamID shardID sequence evs (by omega))

/-! ## The claims about single calls -/

/-- C10. For every record: when a flushed batch is pending, `AddRecord` appends
the part of the record as the last item of the pending batch, leaves the
batching policy untouched and returns true; otherwise it hands the part to the
policy's `Add`, keeps the policy state that `Add` returns and returns exactly
the result of `Add`. -/
theorem AddRecord_result_and_fallback {τ : Type} (a : awsKinesisRecordBatcher τ) (r : Record) :
    match a.flushedMessage with
    | some msg =>
        (a.AddRecord r).1.flushedMessage = some (msg ++ [recordPart a.streamID a.shardID r]) ∧
        (a.AddRecord r).1.batchPolicy = a.batchPolicy ∧
        (a.AddRecord r).2 = true
    | none =>
        (a.AddRecord r).1.flushedMessage = none ∧
        (a.AddRecord r).1.batchPolicy = (a.batchPolicy.Add (recordPart a.streamID a.shardID r)).1 ∧
        (a.AddRecord r).2 = (a.batchPolicy.Add (recordPart a.streamID a.shardID r)).2 := by
  cases h : a.flushedMessage with
  | none => simp [awsKinesisRecordBatcher.AddRecord, h]
  | some msg => simp [awsKinesisRecordBatcher.AddRecord, h]

/-- C8. `FlushMessage` returns the error `e` exactly when a batch is pending
(after the policy was asked, if none was pending before), `Track` is called
for it and returns `e`, and `e` is not the timeout error. When nothing is
pending and the policy's `Flush` yields nothing, and when `Track` returns the
timeout error, the result is the empty emission and a nil error. -/
theorem FlushMessage_error_result {τ : Type} (C : Checkpointer τ)
    (a : awsKinesisRecordBatcher τ) (ctx : Context) :
    (∀ e : GoError, (a.FlushMessage C ctx).2.2 = some e ↔
      ∃ msg, a.flushPolicy.flushedMessage = some msg ∧
        (C.Track a.flushPolicy.checkpointer ctx a.flushPolicy.batchedIndex).2 = some e ∧
        e ≠ GoError.ErrTimeout) ∧
    ((a.flushedMessage = none ∧ a.batchPolicy.Flush.2 = none) →
      (a.FlushMessage C ctx).2 = (asyncMessage.empty, none)) ∧
    ((∃ msg, a.flushPolicy.flushedMessage = some msg ∧
        (C.Track a.flushPolicy.checkpointer ctx a.flushPolicy.batchedIndex).2
          = some GoError.ErrTimeout) →
      (a.FlushMessage C ctx).2 = (asyncMessage.empty, none)) := by
  refine ⟨?_, ?_, ?_⟩
  · intro e
    cases hp : a.flushPolicy.flushedMessage with
    | none => simp [awsKinesisRecordBatcher.FlushMessage, hp]
    | some msg =>
        cases ht : (C.Track a.flushPolicy.checkpointer ctx a.flushPolicy.batchedIndex).2 with
        | none => simp [awsKinesisRecordBatcher.FlushMessage, awsKinesisRecordBatcher.trackAndEmit, hp, ht]
        | some err =>
            by_cases he : err = GoError.ErrTimeout
            · simp [awsKinesisRecordBatcher.FlushMessage, awsKinesisRecordBatcher.trackAndEmit, hp, ht, he]
              intro h1
              exact h1.symm
            · simp [awsKinesisRecordBatcher.FlushMessage, awsKinesisRecordBatcher.trackAndEmit, hp, ht, he]
              intro h
              subst h
              exact he
  · rintro ⟨h1, h2⟩
    have hp : a.flushPolicy.flushedMessage = none := by
      simp [awsKinesisRecordBatcher.flushPolicy, h1, h2]
    simp [awsKinesisRecordBatcher.FlushMessage, hp]
  · rintro ⟨msg, hp, ht⟩
    simp [awsKinesisRecordBatcher.FlushMessage, awsKinesisRecordBatcher.trackAndEmit, hp, ht]

/-- C9. When a batch `msg` is pending (after the policy was asked, if none was
pending before) and `Track` returns an error, timeout or other, `FlushMessage`
leaves `msg` pending with its items unchanged, so `HasPendingMessage` is true,
and leaves `indexToSequence`, `ackedSequence`, the in-flight counter and the
batched index unchanged; the next `FlushMessage` call skips the policy (its
state is the same before and after) and runs `Track` again for the same index
and the same pending batch `msg`. -/
theorem FlushMessage_failed_is_retryable {τ : Type} (C : Checkpointer τ)
    (a : awsKinesisRecordBatcher τ) (ctx ctx' : Context) (msg : List Part) (err : GoError)
    (hp : a.flushPolicy.flushedMessage = some msg)
    (ht : (C.Track a.flushPolicy.checkpointer ctx a.flushPolicy.batchedIndex).2 = some err) :
    (a.FlushMessage C ctx).2.1 = asyncMessage.empty ∧
    (a.FlushMessage C ctx).1.flushedMessage = some msg ∧
    (a.FlushMessage C ctx).1.HasPendingMessage = true ∧
    (a.FlushMessage C ctx).1.indexToSequence = a.indexToSequence ∧
    (a.FlushMessage C ctx).1.ackedSequence = a.ackedSequence ∧
    (a.FlushMessage C ctx).1.ackedWG = a.ackedWG ∧
    (a.FlushMessage C ctx).1.batchedIndex = a.batchedIndex ∧
    (a.FlushMessage C ctx).1.flushPolicy = (a.FlushMessage C ctx).1 ∧
    ((a.FlushMessage C ctx).1.FlushMessage C ctx').1.batchPolicy
      = (a.FlushMessage C ctx).1.batchPolicy ∧
    (a.FlushMessage C ctx).1.FlushMessage C ctx'
      = (a.FlushMessage C ctx).1.trackAndEmit C msg ctx' := by
  obtain ⟨h1, h2, h3, h4, -⟩ := flushPolicy_fields a
  have hres : a.FlushMessage C ctx =
      ({ a.flushPolicy with
          checkpointer := (C.Track a.flushPolicy.checkpointer ctx a.flushPolicy.batchedIndex).1 },
        asyncMessage.empty, if err = GoError.ErrTimeout then none else some err) := by
    rw [FlushMessage_of_pending C a ctx msg hp, trackAndEmit_error C _ msg ctx err ht]
  have hpend : (a.FlushMessage C ctx).1.flushedMessage = some msg := by rw [hres]; exact hp
  have hskip : (a.FlushMessage C ctx).1.flushPolicy = (a.FlushMessage C ctx).1 :=
    flushPolicy_of_pending _ msg hpend
  have hnext : (a.FlushMessage C ctx).1.FlushMessage C ctx'
      = (a.FlushMessage C ctx).1.trackAndEmit C msg ctx' := by
    have := FlushMessage_of_pending C (a.FlushMessage C ctx).1 ctx' msg (by rw [hskip]; exact hpend)
    rw [this, hskip]
  refine ⟨?_, hpend, ?_, ?_, ?_, ?_, ?_, hskip, ?_, hnext⟩
  · rw [hres]
  · simp [awsKinesisRecordBatcher.HasPendingMessage, hpend]
  · rw [hres]; exact h1
  · rw [hres]; exact h2
  · rw [hres]; exact h3
  · rw [hres]; exact h4
  · rw [hnext, trackAndEmit_batchPolicy]

/-- Witness of C9: one record added to a batcher whose checkpointer has
capacity zero; `Track` times out, the batch stays pending and the retry skips
the policy. -/
theorem FlushMessage_failed_is_retryable_witness :
    (run cappedCheckpointer (exampleWorld 0) [.AddRecord (exampleRecord "A")]).a.flushPolicy.flushedMessage
      = some [recordPart "stream" "shard" (exampleRecord "A")] ∧
    ((run cappedCheckpointer (exampleWorld 0)
        [.AddRecord (exampleRecord "A")]).a.FlushMessage cappedCheckpointer exampleCtx).1.flushedMessage
      = some [recordPart "stream" "shard" (exampleRecord "A")] :=
  ⟨rfl,
    (FlushMessage_failed_is_retryable cappedCheckpointer
      (run cappedCheckpointer (exampleWorld 0) [.AddRecord (exampleRecord "A")]).a
      exampleCtx exampleCtx [recordPart "stream" "shard" (exampleRecord "A")]
      GoError.ErrTimeout rfl rfl).2.1⟩

/-- C4, the code at a failing input. Three batches with indices 1, 2, 3 are in
flight; the callback of the second batch is invoked, then the callback of the
first. In the second callback `Resolve` returns the top index 2, whose entry is
present in `indexToSequence` and becomes the acked sequence; when the callback
has returned, `indexToSequence` still holds the entry of index 1, which is
below the top index: the loop deleted `topIndex` where it tests `k`. -/
theorem ledger_prune_keeps_lower_entries :
    (cappedCheckpointer.Resolve
      (run cappedCheckpointer (exampleWorld 3)
        (threeBatches ++ [.ack 1 exampleCtx exampleRes])).a.checkpointer 1).2.1 = 2 ∧
    IndexMap.lookup
      (run cappedCheckpointer (exampleWorld 3)
        (threeBatches ++ [.ack 1 exampleCtx exampleRes])).a.indexToSequence 2 = some "B" ∧
    (run cappedCheckpointer (exampleWorld 3)
      (threeBatches ++ [.ack 1 exampleCtx exampleRes, .ack 0 exampleCtx exampleRes])).a.ackedSequence
      = "B" ∧
    (run cappedCheckpointer (exampleWorld 3)
      (threeBatches ++ [.ack 1 exampleCtx exampleRes, .ack 0 exampleCtx exampleRes])).a.indexToSequence
      = [(1, "A"), (3, "C")] := by
  refine ⟨by decide, by decide, by decide, by decide⟩

/-! ## The claims about executions of the write path -/

/-- C5. After every execution of `AddRecord`, `FlushMessage` (successful or
failed) and ack events on a new batcher, whatever the checkpointer does, the
items of the emitted batches, concatenated in emission order, are a prefix of
the parts of the records in the order they were added; what follows the
prefix is exactly the pending flushed batch, with the records appended to it
by the fallback path, and then the buffer of the policy. -/
theorem emitted_items_are_prefix_of_added {τ : Type} (C : Checkpointer τ)
    (complete : List Part → Bool) (checkpointer : τ) (streamID shardID sequence : String)
    (evs : List Event) :
    (run C (World.init (NewPolicy complete) checkpointer streamID shardID sequence) evs).emittedItems
      <+: (run C (World.init (NewPolicy complete) checkpointer streamID shardID sequence) evs).added.map
        (recordPart streamID shardID) ∧
    (run C (World.init (NewPolicy complete) checkpointer streamID shardID sequence) evs).added.map
        (recordPart streamID shardID)
      = (run C (World.init (NewPolicy complete) checkpointer streamID shardID sequence) evs).emittedItems
        ++ (run C (World.init (NewPolicy complete) checkpointer streamID shardID sequence) evs).held := by
  have h := (WriteInv_run C (NewPolicy complete) checkpointer streamID shardID sequence rfl evs).order
  obtain ⟨h1, h2⟩ := run_ids C (World.init (NewPolicy complete) checkpointer streamID shardID sequence) evs
  simp only [World.addedParts, h1, h2] at h
  have h' : (run C (World.init (NewPolicy complete) checkpointer streamID shardID sequence) evs).added.map
        (recordPart streamID shardID)
      = (run C (World.init (NewPolicy complete) checkpointer streamID shardID sequence) evs).emittedItems
        ++ (run C (World.init (NewPolicy complete) checkpointer streamID shardID sequence) evs).held := h
  refine ⟨?_, h'⟩
  rw [h']
  exact List.prefix_append _ _

/-- C6. After every execution on a new batcher in which fewer than `2^63`
records are added (the batched index is a Go `int`), whatever the checkpointer
does, the tracking indices of the emitted batches, each the index that
`FlushMessage` passed to `Track` and that the ack callback of the batch
captured, increase strictly in emission order; so no two emitted batches have
the same index. -/
theorem tracking_indices_strictly_increasing {τ : Type} (C : Checkpointer τ)
    (complete : List Part → Bool) (checkpointer : τ) (streamID shardID sequence : String)
    (evs : List Event) (hsmall : countAdds evs < 2 ^ 63) :
    ((run C (World.init (NewPolicy complete) checkpointer streamID shardID sequence) evs).emitted.map
      Emitted.index).Pairwise (fun i j => i < j) :=
  (IndexInv_run C (NewPolicy complete) checkpointer streamID shardID sequence rfl evs hsmall).increasing

/-- Witness of C6: the three batches get the indices 1, 2, 3. -/
theorem tracking_indices_strictly_increasing_witness :
    countAdds threeBatches < 2 ^ 63 ∧
    ((run cappedCheckpointer (World.init (NewPolicy exampleComplete) (NewCapped 3) "stream" "shard" "seed") threeBatches).emitted.map
      Emitted.index).Pairwise (fun i j => i < j) :=
  ⟨by decide,
    tracking_indices_strictly_increasing cappedCheckpointer exampleComplete
      (NewCapped 3) "stream" "shard" "seed" threeBatches (by decide)⟩

/-- C7. In every reachable state in which a batch `msg` is pending (after the
policy was asked, if none was pending before) and `Track` succeeds,
`FlushMessage` returns a nil error and an emission whose items are exactly
`msg` and whose ack callback captured the batched index; `indexToSequence`
then maps that index to the sequence number of the last item of `msg` and is
unchanged at every other index; and `HasPendingMessage` is false. -/
theorem FlushMessage_success_postcondition {τ : Type} (C : Checkpointer τ) (w : World τ)
    (ctx : Context) (msg : List Part) (hr : Reachable C w)
    (hp : w.a.flushPolicy.flushedMessage = some msg)
    (ht : (C.Track w.a.flushPolicy.checkpointer ctx w.a.flushPolicy.batchedIndex).2 = none) :
    (w.a.FlushMessage C ctx).2.2 = none ∧
    (w.a.FlushMessage C ctx).2.1.msg = some msg ∧
    (w.a.FlushMessage C ctx).2.1.ackFn = some w.a.batchedIndex ∧
    (∃ p, msg.getLast? = some p ∧
      IndexMap.lookup (w.a.FlushMessage C ctx).1.indexToSequence w.a.batchedIndex
        = some p.sequenceNumber) ∧
    (∀ j, j ≠ w.a.batchedIndex →
      IndexMap.lookup (w.a.FlushMessage C ctx).1.indexToSequence j
        = IndexMap.lookup w.a.indexToSequence j) ∧
    (w.a.FlushMessage C ctx).1.HasPendingMessage = false := by
  have hw := WriteInv_flushPolicy w (WriteInv_of_Reachable C w hr)
  obtain ⟨f1, -, -, f4, f5, -⟩ := flushPolicy_fields w.a
  rw [FlushMessage_of_pending C w.a ctx msg hp, trackAndEmit_success C _ msg ctx ht]
  obtain ⟨hne, hparts⟩ := hw.pending msg hp
  have hparts' : w.a.flushPolicy.batchPolicy.parts = [] := hparts
  have hheld : World.held { w with a := w.a.flushPolicy } = msg := by
    simp [World.held, hp, hparts']
  refine ⟨rfl, rfl, by simp [f4], ?_, ?_, rfl⟩
  · obtain ⟨ys, p, hys⟩ : ∃ ys p, msg = ys ++ [p] := by
      rcases List.eq_nil_or_concat msg with h0 | ⟨ys, p, h0⟩
      · exact absurd h0 hne
      · exact ⟨ys, p, by simpa using h0⟩
    have hl : msg.getLast? = some p := by simp [hys]
    refine ⟨p, hl, ?_⟩
    have hseq := hw.lastSeq p (by rw [hheld]; exact hl)
    simp only [f4] at hseq ⊢
    rw [IndexMap.lookup_insert_self, hseq]
  · intro j hj
    simp only [f1, f4]
    exact IndexMap.lookup_insert_other _ _ _ _ hj

/-- Witness of C7: one record added, then flushed with capacity for it. -/
theorem FlushMessage_success_postcondition_witness :
    Reachable cappedCheckpointer
      (run cappedCheckpointer (exampleWorld 1) [.AddRecord (exampleRecord "A")]) ∧
    ((run cappedCheckpointer (exampleWorld 1)
      [.AddRecord (exampleRecord "A")]).a.FlushMessage cappedCheckpointer exampleCtx).2.1.msg
      = some [recordPart "stream" "shard" (exampleRecord "A")] :=
  ⟨⟨_, _, _, _, _, _, rfl⟩,
    (FlushMessage_success_postcondition cappedCheckpointer
      (run cappedCheckpointer (exampleWorld 1) [.AddRecord (exampleRecord "A")])
      exampleCtx [recordPart "stream" "shard" (exampleRecord "A")]
      ⟨_, _, _, _, _, _, rfl⟩ rfl rfl).2.1⟩

/-! ## The claims about the acked sequence -/

/-- C1. After every execution of `AddRecord`, `FlushMessage` and ack events on
a new batcher with the checkpoint tracker of the specification, the ack
callbacks running in any order and interleaved at `ackedMut`, with fewer than
`2^63` records added: when `GetSequence` returns a token other than the seed,
there is an emitted batch `b`, the `n`-th, such that the token is the sequence
number of the last item of `b`; `b` and every batch emitted before it have had
their ack callback invoked; and the items of these batches are exactly the
parts of the first `k` records added, the last of which bears the token. -/
theorem acked_sequence_is_acknowledged (complete : List Part → Bool) (capacity : Nat)
    (streamID shardID sequence : String) (evs : List Event) (hsmall : countAdds evs < 2 ^ 63)
    (hne : (run cappedCheckpointer (World.init (NewPolicy complete) (NewCapped capacity)
      streamID shardID sequence) evs).a.GetSequence ≠ sequence) :
    ∃ (n k : Nat) (b : Emitted),
      (run cappedCheckpointer (World.init (NewPolicy complete) (NewCapped capacity)
        streamID shardID sequence) evs).emitted[n]? = some b ∧
      (∀ b' ∈ (run cappedCheckpointer (World.init (NewPolicy complete) (NewCapped capacity)
        streamID shardID sequence) evs).emitted.take (n + 1), b'.invoked = true) ∧
      (∃ p, b.msg.getLast? = some p ∧ p.sequenceNumber
        = (run cappedCheckpointer (World.init (NewPolicy complete) (NewCapped capacity)
            streamID shardID sequence) evs).a.GetSequence) ∧
      (((run cappedCheckpointer (World.init (NewPolicy complete) (NewCapped capacity)
        streamID shardID sequence) evs).emitted.take (n + 1)).map Emitted.msg).flatten
        = ((run cappedCheckpointer (World.init (NewPolicy complete) (NewCapped capacity)
            streamID shardID sequence) evs).added.take k).map (recordPart streamID shardID) ∧
      (∃ r, ((run cappedCheckpointer (World.init (NewPolicy complete) (NewCapped capacity)
          streamID shardID sequence) evs).added.take k).getLast? = some r ∧
        r.SequenceNumber
          = (run cappedCheckpointer (World.init (NewPolicy complete) (NewCapped capacity)
              streamID shardID sequence) evs).a.GetSequence) := by
  have hw := WriteInv_run cappedCheckpointer (NewPolicy complete) (NewCapped capacity)
    streamID shardID sequence rfl evs
  have hi := IndexInv_run cappedCheckpointer (NewPolicy complete) (NewCapped capacity)
    streamID shardID sequence rfl evs hsmall
  have hl := LedgerInv_run complete capacity streamID shardID sequence evs hsmall
  obtain ⟨hid1, hid2⟩ := run_ids cappedCheckpointer
    (World.init (NewPolicy complete) (NewCapped capacity) streamID shardID sequence) evs
  generalize run cappedCheckpointer
    (World.init (NewPolicy complete) (NewCapped capacity) streamID shardID sequence) evs = w
    at hw hi hl hid1 hid2 hne ⊢
  have hs1 : w.a.streamID = streamID := hid1
  have hs2 : w.a.shardID = shardID := hid2
  rcases hl.acked with ha | ⟨b, hb, hseq, hset⟩
  · exact absurd ha hne
  · obtain ⟨n, hn⟩ := List.mem_iff_getElem?.mp hb
    obtain ⟨p, hp, hpseq⟩ := hw.emittedSeq (b.msg, b.sequence)
      (List.mem_map_of_mem (fun e => (e.msg, e.sequence)) hb)
    have hitems := take_items_eq_take_added w hw (n + 1)
    rw [hs1, hs2] at hitems
    have hlast : (((w.emitted.take (n + 1)).map Emitted.msg).flatten).getLast? = some p := by
      rw [List.take_succ, hn]
      simp only [Option.toList_some, List.map_append, List.map_cons, List.map_nil,
        List.flatten_append, List.flatten_cons, List.flatten_nil, List.append_nil]
      rw [List.getLast?_append, hp]
      rfl
    refine ⟨n, (((w.emitted.take (n + 1)).map Emitted.msg).flatten).length, b, hn,
      take_invoked_of_settled w.emitted n b hi.increasing hn hset, ⟨p, hp, ?_⟩, hitems, ?_⟩
    · simp only [awsKinesisRecordBatcher.GetSequence]
      rw [← hseq]
      exact hpseq
    · rw [hitems, List.getLast?_map] at hlast
      cases hr : (w.added.take
          (((w.emitted.take (n + 1)).map Emitted.msg).flatten).length).getLast? with
      | none =>
          rw [hr] at hlast
          simp at hlast
      | some r =>
          rw [hr] at hlast
          simp only [Option.map_some', Option.some.injEq] at hlast
          refine ⟨r, rfl, ?_⟩
          simp only [awsKinesisRecordBatcher.GetSequence]
          rw [← hseq, ← recordPart_sequenceNumber streamID shardID r, hlast]
          exact hpseq

/-- Witness of C1: three batches in flight, the second acked, then the first;
the acked sequence is `B`. -/
theorem acked_sequence_is_acknowledged_witness :
    countAdds (threeBatches ++ [.ack 1 exampleCtx exampleRes, .ack 0 exampleCtx exampleRes])
      < 2 ^ 63 ∧
    (run cappedCheckpointer (World.init (NewPolicy exampleComplete) (NewCapped 3) "stream" "shard" "seed")
      (threeBatches ++ [.ack 1 exampleCtx exampleRes, .ack 0 exampleCtx exampleRes])).a.GetSequence
      ≠ "seed" ∧
    ∃ (n k : Nat) (b : Emitted),
      (run cappedCheckpointer (World.init (NewPolicy exampleComplete) (NewCapped 3) "stream" "shard" "seed")
        (threeBatches ++ [.ack 1 exampleCtx exampleRes, .ack 0 exampleCtx exampleRes])).emitted[n]?
        = some b ∧
      (∀ b' ∈ (run cappedCheckpointer (World.init (NewPolicy exampleComplete) (NewCapped 3) "stream" "shard" "seed")
        (threeBatches ++ [.ack 1 exampleCtx exampleRes, .ack 0 exampleCtx exampleRes])).emitted.take
          (n + 1), b'.invoked = true) ∧
      (∃ p, b.msg.getLast? = some p ∧ p.sequenceNumber
        = (run cappedCheckpointer (World.init (NewPolicy exampleComplete) (NewCapped 3) "stream" "shard" "seed")
          (threeBatches ++
            [.ack 1 exampleCtx exampleRes, .ack 0 exampleCtx exampleRes])).a.GetSequence) ∧
      (((run cappedCheckpointer (World.init (NewPolicy exampleComplete) (NewCapped 3) "stream" "shard" "seed")
        (threeBatches ++ [.ack 1 exampleCtx exampleRes, .ack 0 exampleCtx exampleRes])).emitted.take
          (n + 1)).map Emitted.msg).flatten
        = ((run cappedCheckpointer (World.init (NewPolicy exampleComplete) (NewCapped 3) "stream" "shard" "seed")
          (threeBatches ++ [.ack 1 exampleCtx exampleRes, .ack 0 exampleCtx exampleRes])).added.take
            k).map (recordPart "stream" "shard") ∧
      (∃ r, ((run cappedCheckpointer (World.init (NewPolicy exampleComplete) (NewCapped 3) "stream" "shard" "seed")
          (threeBatches ++ [.ack 1 exampleCtx exampleRes, .ack 0 exampleCtx exampleRes])).added.take
            k).getLast? = some r ∧
        r.SequenceNumber
          = (run cappedCheckpointer (World.init (NewPolicy exampleComplete) (NewCapped 3) "stream" "shard" "seed")
            (threeBatches ++
              [.ack 1 exampleCtx exampleRes, .ack 0 exampleCtx exampleRes])).a.GetSequence) := by
  have h := acked_sequence_is_acknowledged exampleComplete 3 "stream" "shard" "seed"
    (threeBatches ++ [.ack 1 exampleCtx exampleRes, .ack 0 exampleCtx exampleRes])
    (by decide) (by decide)
  exact ⟨by decide, by decide, h⟩

/-- C2. After every execution on a new batcher with the checkpoint tracker of
the specification, the ack callbacks running in any order and interleaved at
`ackedMut`, with fewer than `2^63` records added: `GetSequence` returns the
seed, or the token that `FlushMessage` recorded for the tracking index of an
emitted batch, and that index is smaller than every index the tracker holds
unresolved. -/
theorem acked_sequence_below_unresolved (complete : List Part → Bool) (capacity : Nat)
    (streamID shardID sequence : String) (evs : List Event) (hsmall : countAdds evs < 2 ^ 63) :
    (run cappedCheckpointer (World.init (NewPolicy complete) (NewCapped capacity)
      streamID shardID sequence) evs).a.GetSequence = sequence ∨
    ∃ e ∈ (run cappedCheckpointer (World.init (NewPolicy complete) (NewCapped capacity)
        streamID shardID sequence) evs).emitted,
      e.sequence = (run cappedCheckpointer (World.init (NewPolicy complete) (NewCapped capacity)
        streamID shardID sequence) evs).a.GetSequence ∧
      ∀ s ∈ (run cappedCheckpointer (World.init (NewPolicy complete) (NewCapped capacity)
        streamID shardID sequence) evs).a.checkpointer.slots, s.2 = false → e.index < s.1 := by
  have hl := LedgerInv_run complete capacity streamID shardID sequence evs hsmall
  generalize run cappedCheckpointer
    (World.init (NewPolicy complete) (NewCapped capacity) streamID shardID sequence) evs = w
    at hl ⊢
  rcases hl.acked with ha | ⟨e, he, hseq, hset⟩
  · exact Or.inl ha
  · right
    refine ⟨e, he, hseq, ?_⟩
    intro s hs hfalse
    rw [hl.slots] at hs
    simp only [List.mem_map] at hs
    obtain ⟨e', he', rfl⟩ := hs
    simp only at hfalse ⊢
    by_contra hcon
    have := hset e' he' (by omega)
    rw [this] at hfalse
    cases hfalse

/-- Witness of C2: three batches in flight, the second acked, then the first. -/
theorem acked_sequence_below_unresolved_witness :
    countAdds (threeBatches ++ [.ack 1 exampleCtx exampleRes, .ack 0 exampleCtx exampleRes])
      < 2 ^ 63 ∧
    ((run cappedCheckpointer (World.init (NewPolicy exampleComplete) (NewCapped 3) "stream" "shard" "seed")
      (threeBatches ++ [.ack 1 exampleCtx exampleRes, .ack 0 exampleCtx exampleRes])).a.GetSequence
      = "seed" ∨
    ∃ e ∈ (run cappedCheckpointer (World.init (NewPolicy exampleComplete) (NewCapped 3) "stream" "shard" "seed")
        (threeBatches ++ [.ack 1 exampleCtx exampleRes, .ack 0 exampleCtx exampleRes])).emitted,
      e.sequence = (run cappedCheckpointer (World.init (NewPolicy exampleComplete) (NewCapped 3) "stream" "shard" "seed")
        (threeBatches ++ [.ack 1 exampleCtx exampleRes, .ack 0 exampleCtx exampleRes])).a.GetSequence ∧
      ∀ s ∈ (run cappedCheckpointer (World.init (NewPolicy exampleComplete) (NewCapped 3) "stream" "shard" "seed")
        (threeBatches ++
          [.ack 1 exampleCtx exampleRes, .ack 0 exampleCtx exampleRes])).a.checkpointer.slots,
        s.2 = false → e.index < s.1) := by
  have h := acked_sequence_below_unresolved exampleComplete 3 "stream" "shard" "seed"
    (threeBatches ++ [.ack 1 exampleCtx exampleRes, .ack 0 exampleCtx exampleRes]) (by decide)
  exact ⟨by decide, h⟩

/-- C3. After every execution on a new batcher with the checkpoint tracker of
the specification in which the ack callbacks run one at a time, in any order
and interleaved in any way with the write path, with fewer than `2^63` records
added (so the batches are emitted with increasing indices): `GetSequence`
returns the sequence recorded for the last of the leading acked batches, that
is `s_j` for the largest `j` such that batches `1..j` have all been acked, and
the seed when the first batch has not been acked. -/
theorem acked_sequence_exact (complete : List Part → Bool) (capacity : Nat)
    (streamID shardID sequence : String) (evs : List Event) (hatomic : atomicAcks evs = true)
    (hsmall : countAdds evs < 2 ^ 63) :
    (run cappedCheckpointer (World.init (NewPolicy complete) (NewCapped capacity)
      streamID shardID sequence) evs).a.GetSequence
      = ((watermark (run cappedCheckpointer (World.init (NewPolicy complete) (NewCapped capacity)
          streamID shardID sequence) evs).emitted).map Emitted.sequence).getD sequence := by
  have hi := IndexInv_run cappedCheckpointer (NewPolicy complete) (NewCapped capacity)
    streamID shardID sequence rfl evs hsmall
  have hx := ExactInv_run complete capacity streamID shardID sequence evs hatomic hsmall
  generalize run cappedCheckpointer
    (World.init (NewPolicy complete) (NewCapped capacity) streamID shardID sequence) evs = w
    at hi hx ⊢
  simp only [awsKinesisRecordBatcher.GetSequence]
  cases hwm : watermark w.emitted with
  | none =>
      have hnone := watermark_none w.emitted hi.increasing hwm
      rcases hx.acked with ⟨ha, -⟩ | ⟨e0, he0, -, hset0, -⟩
      · simpa using ha
      · exact absurd hset0 (hnone e0 he0)
  | some e =>
      obtain ⟨hmem, hset, hmax⟩ := watermark_some w.emitted e hi.increasing hwm
      rcases hx.acked with ⟨-, hnone⟩ | ⟨e0, he0, hseq0, hset0, hmax0⟩
      · exact absurd hset (hnone e hmem)
      · have heq : e0 = e :=
          eq_of_index_eq w.emitted hi.increasing e0 e he0 hmem
            (le_antisymm (hmax e0 he0 hset0) (hmax0 e hmem hset))
        subst heq
        simpa using hseq0.symm

/-- Witness of C3: indices 1, 2, 3 with the tokens `A`, `B`, `C`. Acking the
second batch leaves the seed, then acking the first gives `B`, then acking the
third gives `C`. -/
theorem acked_sequence_exact_witness :
    atomicAcks (threeBatches ++ [.ack 1 exampleCtx exampleRes, .ack 0 exampleCtx exampleRes,
      .ack 2 exampleCtx exampleRes]) = true ∧
    countAdds (threeBatches ++ [.ack 1 exampleCtx exampleRes, .ack 0 exampleCtx exampleRes,
      .ack 2 exampleCtx exampleRes]) < 2 ^ 63 ∧
    (run cappedCheckpointer (World.init (NewPolicy exampleComplete) (NewCapped 3) "stream" "shard" "seed")
      (threeBatches ++ [.ack 1 exampleCtx exampleRes, .ack 0 exampleCtx exampleRes,
        .ack 2 exampleCtx exampleRes])).a.GetSequence
      = ((watermark (run cappedCheckpointer
          (World.init (NewPolicy exampleComplete) (NewCapped 3) "stream" "shard" "seed")
          (threeBatches ++ [.ack 1 exampleCtx exampleRes, .ack 0 exampleCtx exampleRes,
            .ack 2 exampleCtx exampleRes])).emitted).map Emitted.sequence).getD "seed" ∧
    (run cappedCheckpointer (exampleWorld 3)
      (threeBatches ++ [.ack 1 exampleCtx exampleRes])).a.GetSequence = "seed" ∧
    (run cappedCheckpointer (exampleWorld 3)
      (threeBatches ++ [.ack 1 exampleCtx exampleRes, .ack 0 exampleCtx exampleRes])).a.GetSequence
      = "B" ∧
    (run cappedCheckpointer (exampleWorld 3)
      (threeBatches ++ [.ack 1 exampleCtx exampleRes, .ack 0 exampleCtx exampleRes,
        .ack 2 exampleCtx exampleRes])).a.GetSequence = "C" := by
  have h := acked_sequence_exact exampleComplete 3 "stream" "shard" "seed"
    (threeBatches ++ [.ack 1 exampleCtx exampleRes, .ack 0 exampleCtx exampleRes,
      .ack 2 exampleCtx exampleRes]) (by decide) (by decide)
  exact ⟨by decide, by decide, h, by decide, by decide, by decide⟩

/-! ## The claims about the ack callback -/

/-- Counterexample to C11. One batch is emitted with the tracking index 1 and
its ack callback is invoked with a response that carries a failure: `Resolve`
succeeds and the callback returns a nil error. -/
theorem ack_failure_response_returns_nil :
    failureRes.err ≠ none ∧
    (run cappedCheckpointer (exampleWorld 1)
      [.AddRecord (exampleRecord "A"), .FlushMessage exampleCtx]).emitted.map Emitted.index = [1] ∧
    ((run cappedCheckpointer (exampleWorld 1)
      [.AddRecord (exampleRecord "A"), .FlushMessage exampleCtx]).a.ackFn
        cappedCheckpointer 1 exampleCtx failureRes).2 = none := by
  refine ⟨by decide, by decide, by decide⟩

/-- C11, amended. The ack callback does not read the response it is invoked
with: for every state, every checkpointer and every captured index, the new
state and the returned error are the same for any two responses, so a
response that carries a failure returns what a response without failure
returns: the error of `Resolve`, which is nil with the checkpoint tracker of
the specification. -/
theorem ackFn_ignores_response {τ : Type} (C : Checkpointer τ) (a : awsKinesisRecordBatcher τ)
    (index : Int) (ctx : Context) (res res' : Response) :
    a.ackFn C index ctx res = a.ackFn C index ctx res' ∧
    (a.ackFn C index ctx failureRes).2 = (a.ackFn C index ctx { err := none }).2 ∧
    (a.ackFn C index ctx failureRes).2 = (C.Resolve a.checkpointer index).2.2 ∧
    ∀ b : awsKinesisRecordBatcher Capped,
      (b.ackFn cappedCheckpointer index ctx failureRes).2 = none :=
  ⟨rfl, rfl, rfl, fun _ => rfl⟩

/-- Counterexample to C12. One batch with the token `A` is emitted and its ack
callback is invoked with a response that carries a failure; afterwards
`GetSequence` returns `A`, the token recorded for that batch. -/
theorem failure_response_advances_watermark :
    failureRes.err ≠ none ∧
    (run cappedCheckpointer (exampleWorld 1)
      [.AddRecord (exampleRecord "A"), .FlushMessage exampleCtx]).emitted.map
        (fun e => (e.index, e.sequence)) = [(1, "A")] ∧
    (run cappedCheckpointer (exampleWorld 1)
      [.AddRecord (exampleRecord "A"), .FlushMessage exampleCtx]).a.GetSequence = "seed" ∧
    (run cappedCheckpointer (exampleWorld 1)
      [.AddRecord (exampleRecord "A"), .FlushMessage exampleCtx,
       .ack 0 exampleCtx failureRes]).a.GetSequence = "A" := by
  refine ⟨by decide, by decide, by decide, by decide⟩

theorem step_setResponse {τ : Type} (C : Checkpointer τ) (w : World τ) (res : Response)
    (e : Event) : step C w (e.setResponse res) = step C w e := by
  cases e <;> rfl

theorem run_setResponse {τ : Type} (C : Checkpointer τ) (w : World τ) (res : Response)
    (evs : List Event) : run C w (evs.map (Event.setResponse res)) = run C w evs := by
  induction evs generalizing w with
  | nil => rfl
  | cons e evs ih =>
      simp only [List.map_cons, run, List.foldl_cons]
      rw [step_setResponse]
      exact ih (step C w e)

/-- C12, amended. The response with which an ack callback is invoked has no
effect on the watermark: for every execution and every checkpointer, the
state reached, and with it the value of `GetSequence`, is the one reached when
every ack callback is invoked with the response `res` instead, be it a failure
or a success; so two executions that differ only in the responses of their ack
callbacks reach the same state and the same value of `GetSequence`. -/
theorem watermark_ignores_responses {τ : Type} (C : Checkpointer τ) (w : World τ)
    (res : Response) (evs : List Event) :
    run C w (evs.map (Event.setResponse res)) = run C w evs ∧
    (run C w (evs.map (Event.setResponse res))).a.GetSequence = (run C w evs).a.GetSequence ∧
    (∀ evs' : List Event, evs'.map (Event.setResponse res) = evs.map (Event.setResponse res) →
      run C w evs' = run C w evs ∧ (run C w evs').a.GetSequence = (run C w evs).a.GetSequence) := by
  refine ⟨run_setResponse C w res evs, by rw [run_setResponse], ?_⟩
  intro evs' h
  have : run C w evs' = run C w evs := by
    rw [← run_setResponse C w res evs', h, run_setResponse]
  exact ⟨this, by rw [this]⟩

/-- C13. For every state, checkpointer and captured index, the ack callback
returns exactly the error that `Resolve` returns for the captured index, nil
when `Resolve` succeeds; and when `Resolve` returns an error the callback
leaves `ackedSequence` and `indexToSequence` unchanged. -/
theorem ackFn_returns_resolve_error {τ : Type} (C : Checkpointer τ)
    (a : awsKinesisRecordBatcher τ) (index : Int) (ctx : Context) (res : Response) :
    (a.ackFn C index ctx res).2 = (C.Resolve a.checkpointer index).2.2 ∧
    ((C.Resolve a.checkpointer index).2.2 = none → (a.ackFn C index ctx res).2 = none) ∧
    (∀ err, (C.Resolve a.checkpointer index).2.2 = some err →
      (a.ackFn C index ctx res).1.ackedSequence = a.ackedSequence ∧
      (a.ackFn C index ctx res).1.indexToSequence = a.indexToSequence) := by
  refine ⟨rfl, fun h => h, ?_⟩
  intro err herr
  simp [awsKinesisRecordBatcher.ackFn, awsKinesisRecordBatcher.ackResolve,
    awsKinesisRecordBatcher.ackLedger, awsKinesisRecordBatcher.ledgerResolve, herr]

/-- C16. When the locked section of the ack callback has run with a top index
whose entry it found, and so has applied it, a second run with the same top
index does not find the entry and leaves the whole state, `ackedSequence` and
`indexToSequence` included, exactly as it was. -/
theorem ledgerResolve_twice {τ : Type} (a : awsKinesisRecordBatcher τ) (topIndex : Int)
    (seq : String) (h : IndexMap.lookup a.indexToSequence topIndex = some seq) :
    IndexMap.lookup (a.ledgerResolve topIndex none).indexToSequence topIndex = none ∧
    (a.ledgerResolve topIndex none).ledgerResolve topIndex none = a.ledgerResolve topIndex none ∧
    ((a.ledgerResolve topIndex none).ledgerResolve topIndex none).ackedSequence = seq ∧
    ((a.ledgerResolve topIndex none).ledgerResolve topIndex none).indexToSequence
      = IndexMap.delete a.indexToSequence topIndex := by
  obtain ⟨h1, h2⟩ := ledgerResolve_found a topIndex seq h
  have hgone : IndexMap.lookup (a.ledgerResolve topIndex none).indexToSequence topIndex = none := by
    rw [h2]
    exact IndexMap.lookup_delete_self _ _
  have hsame := ledgerResolve_absent (a.ledgerResolve topIndex none) topIndex hgone
  refine ⟨hgone, hsame, ?_, ?_⟩
  · rw [hsame]; exact h1
  · rw [hsame]; exact h2

/-- Witness of C16: three batches in flight and the top index 2. -/
theorem ledgerResolve_twice_witness :
    IndexMap.lookup (run cappedCheckpointer (exampleWorld 3) threeBatches).a.indexToSequence 2
      = some "B" ∧
    ((run cappedCheckpointer (exampleWorld 3) threeBatches).a.ledgerResolve 2 none).ledgerResolve
        2 none
      = (run cappedCheckpointer (exampleWorld 3) threeBatches).a.ledgerResolve 2 none :=
  ⟨by decide,
    (ledgerResolve_twice (run cappedCheckpointer (exampleWorld 3) threeBatches).a 2 "B"
      (by decide)).2.1⟩

/-- C19, the code at a failing input. Three batches with the indices 1, 2, 3
and the tokens `A`, `B`, `C` are in flight and the second has been acked. The
callback of the first batch returns from `Resolve` with the top index 2 and is
suspended before it takes `ackedMut`; the callback of the third batch then
runs whole, `Resolve` gives it the top index 3 and it stores `C`; the
suspended callback resumes and stores `B`, the token of the index 2, after
`C`, the token of the index 3. -/
theorem acked_sequence_moves_backwards :
    (run cappedCheckpointer (exampleWorld 3) threeBatches).emitted.map
      (fun e => (e.index, e.sequence)) = [(1, "A"), (2, "B"), (3, "C")] ∧
    (run cappedCheckpointer (exampleWorld 3)
      (threeBatches ++ [.ack 1 exampleCtx exampleRes,
        .ackResolve 0 exampleCtx exampleRes])).resolving = [(2, none)] ∧
    (run cappedCheckpointer (exampleWorld 3)
      (threeBatches ++ [.ack 1 exampleCtx exampleRes, .ackResolve 0 exampleCtx exampleRes,
        .ack 2 exampleCtx exampleRes])).a.ackedSequence = "C" ∧
    (run cappedCheckpointer (exampleWorld 3)
      (threeBatches ++ [.ack 1 exampleCtx exampleRes, .ackResolve 0 exampleCtx exampleRes,
        .ack 2 exampleCtx exampleRes, .ackLedger 0])).a.ackedSequence = "B" := by
  refine ⟨by decide, by decide, by decide, by decide⟩

/-! ## The claims about the drain counter and the capacity -/

theorem ackLedger_ackedWG {τ : Type} (a : awsKinesisRecordBatcher τ) (topIndex : Int)
    (err : Option GoError) : (a.ackLedger topIndex err).1.ackedWG = a.ackedWG - 1 := by
  obtain ⟨-, -, -, -, -, -, -, h⟩ := ledgerResolve_frame a topIndex err
  simp only [awsKinesisRecordBatcher.ackLedger, h]

theorem ackFn_ackedWG {τ : Type} (C : Checkpointer τ) (a : awsKinesisRecordBatcher τ)
    (index : Int) (ctx : Context) (res : Response) :
    (a.ackFn C index ctx res).1.ackedWG = a.ackedWG - 1 := by
  simp only [awsKinesisRecordBatcher.ackFn]
  rw [ackLedger_ackedWG]
  rfl

theorem step_ack_none {τ : Type} (C : Checkpointer τ) (w : World τ) (n : Nat) (ctx : Context)
    (res : Response) (h : w.emitted[n]? = none) : step C w (.ack n ctx res) = w := by
  simp only [step, h]

theorem step_ack_some {τ : Type} (C : Checkpointer τ) (w : World τ) (n : Nat) (ctx : Context)
    (res : Response) (e : Emitted) (h : w.emitted[n]? = some e) :
    step C w (.ack n ctx res)
      = { w with a := (w.a.ackFn C e.index ctx res).1, emitted := markInvoked w.emitted n } := by
  simp only [step, h]

theorem step_ackResolve_none {τ : Type} (C : Checkpointer τ) (w : World τ) (n : Nat)
    (ctx : Context) (res : Response) (h : w.emitted[n]? = none) :
    step C w (.ackResolve n ctx res) = w := by
  simp only [step, h]

theorem step_ackResolve_some {τ : Type} (C : Checkpointer τ) (w : World τ) (n : Nat)
    (ctx : Context) (res : Response) (e : Emitted) (h : w.emitted[n]? = some e) :
    step C w (.ackResolve n ctx res)
      = { w with
          a := (w.a.ackResolve C e.index).1
          emitted := markInvoked w.emitted n
          resolving := w.resolving ++ [(w.a.ackResolve C e.index).2] } := by
  simp only [step, h]

theorem step_ackLedger_none {τ : Type} (C : Checkpointer τ) (w : World τ) (k : Nat)
    (h : w.resolving[k]? = none) : step C w (.ackLedger k) = w := by
  simp only [step, h]

theorem step_ackLedger_some {τ : Type} (C : Checkpointer τ) (w : World τ) (k : Nat)
    (r : Int × Option GoError) (h : w.resolving[k]? = some r) :
    step C w (.ackLedger k)
      = { w with a := (w.a.ackLedger r.1 r.2).1, resolving := w.resolving.eraseIdx k } := by
  simp only [step, h]

/-- Every step changes the counter of the wait group, less the emissions and
the suspended callbacks, by the ack invocation it makes, if any. -/
theorem step_counter {τ : Type} (C : Checkpointer τ) (w : World τ) (e : Event) :
    (step C w e).a.ackedWG - ((step C w e).emitted.length : Int)
        - ((step C w e).resolving.length : Int)
      = w.a.ackedWG - (w.emitted.length : Int) - (w.resolving.length : Int)
        - (if invokesAck w e then 1 else 0) := by
  cases e with
  | AddRecord r =>
      obtain ⟨-, -, -, h⟩ := AddRecord_frame w.a r
      simp [step, invokesAck, h]
  | FlushMessage ctx =>
      obtain ⟨-, -, f3, -⟩ := flushPolicy_fields w.a
      cases hp : w.a.flushPolicy.flushedMessage with
      | none =>
          rw [step_FlushMessage_nothing C w ctx hp]
          simp [invokesAck, f3]
      | some msg =>
          cases ht : (C.Track w.a.flushPolicy.checkpointer ctx w.a.flushPolicy.batchedIndex).2 with
          | some err =>
              rw [step_FlushMessage_error C w ctx msg err hp ht]
              simp [invokesAck, f3]
          | none =>
              rw [step_FlushMessage_success C w ctx msg hp ht]
              simp only [invokesAck, f3, List.length_append, List.length_singleton]
              push_cast
              simp
  | ack n ctx res =>
      cases hn : w.emitted[n]? with
      | none =>
          rw [step_ack_none C w n ctx res hn]
          simp [invokesAck, hn]
      | some e =>
          rw [step_ack_some C w n ctx res e hn]
          simp only [invokesAck, hn, markInvoked_length, ackFn_ackedWG, Option.isSome_some,
            if_true]
          ring
  | ackResolve n ctx res =>
      cases hn : w.emitted[n]? with
      | none =>
          rw [step_ackResolve_none C w n ctx res hn]
          simp [invokesAck, hn]
      | some e =>
          rw [step_ackResolve_some C w n ctx res e hn]
          simp only [invokesAck, hn, markInvoked_length, awsKinesisRecordBatcher.ackResolve,
            List.length_append, List.length_singleton, Option.isSome_some, if_true]
          push_cast
          ring
  | ackLedger k =>
      cases hk : w.resolving[k]? with
      | none =>
          rw [step_ackLedger_none C w k hk]
          simp [invokesAck]
      | some r =>
          rw [step_ackLedger_some C w k r hk]
          have hlt : k < w.resolving.length := by
            by_contra hcon
            rw [List.getElem?_eq_none (by omega)] at hk
            cases hk
          have hlen : (w.resolving.eraseIdx k).length = w.resolving.length - 1 :=
            List.length_eraseIdx_of_lt hlt
          simp only [ackLedger_ackedWG, hlen, invokesAck]
          have : ((w.resolving.length - 1 : Nat) : Int) = (w.resolving.length : Int) - 1 := by
            omega
          rw [this]
          simp only [Bool.false_eq_true, if_false]
          ring

theorem run_counter {τ : Type} (C : Checkpointer τ) (w : World τ) (evs : List Event) :
    (run C w evs).a.ackedWG - ((run C w evs).emitted.length : Int)
        - ((run C w evs).resolving.length : Int)
      = w.a.ackedWG - (w.emitted.length : Int) - (w.resolving.length : Int)
        - (ackInvocations C w evs : Int) := by
  induction evs generalizing w with
  | nil => simp [run, ackInvocations]
  | cons e evs ih =>
      have hrun : run C w (e :: evs) = run C (step C w e) evs := rfl
      rw [hrun, ih (step C w e), step_counter C w e]
      simp only [ackInvocations]
      push_cast
      split <;> ring

theorem step_resolving_of_atomic {τ : Type} (C : Checkpointer τ) (w : World τ) (e : Event)
    (h : atomicAcks [e] = true) : (step C w e).resolving = w.resolving := by
  cases e with
  | AddRecord r => rfl
  | FlushMessage ctx =>
      simp only [step]
      split <;> rfl
  | ack n ctx res =>
      simp only [step]
      split <;> rfl
  | ackResolve n ctx res => simp [atomicAcks] at h
  | ackLedger k => simp [atomicAcks] at h

theorem run_resolving_of_atomic {τ : Type} (C : Checkpointer τ) (w : World τ)
    (evs : List Event) (h : atomicAcks evs = true) : (run C w evs).resolving = w.resolving := by
  induction evs using List.reverseRecOn with
  | nil => rfl
  | append_singleton evs e ih =>
      rw [atomicAcks_append, Bool.and_eq_true] at h
      rw [run_concat, step_resolving_of_atomic C _ e h.2, ih h.1]

/-- C14. After every execution on a new batcher, whatever the checkpointer
does, the counter of the wait group `ackedWG` is the number of emissions
returned by `FlushMessage`, less the number of ack-callback invocations, plus
the number of callbacks that are suspended between `Resolve` and `ackedMut`
and have not reached `Done` yet; when the callbacks run one at a time none is
suspended and the counter is the emissions less the invocations. Every ack
callback decrements the counter by one, whatever `Resolve` returns. `Close`
with `blocked` returns exactly in the states whose counter is zero, and
`Close` without `blocked` returns in every state. -/
theorem drain_counter {τ : Type} (C : Checkpointer τ) (complete : List Part → Bool)
    (checkpointer : τ) (streamID shardID sequence : String) (evs : List Event) :
    (run C (World.init (NewPolicy complete) checkpointer streamID shardID sequence) evs).a.ackedWG
      = ((run C (World.init (NewPolicy complete) checkpointer streamID shardID sequence)
            evs).emitted.length : Int)
        - (ackInvocations C
            (World.init (NewPolicy complete) checkpointer streamID shardID sequence) evs : Int)
        + ((run C (World.init (NewPolicy complete) checkpointer streamID shardID sequence)
            evs).resolving.length : Int) ∧
    (atomicAcks evs = true →
      (run C (World.init (NewPolicy complete) checkpointer streamID shardID sequence) evs).a.ackedWG
        = ((run C (World.init (NewPolicy complete) checkpointer streamID shardID sequence)
              evs).emitted.length : Int)
          - (ackInvocations C
              (World.init (NewPolicy complete) checkpointer streamID shardID sequence) evs : Int)) ∧
    (∀ (a : awsKinesisRecordBatcher τ) (index : Int) (ctx : Context) (res : Response),
      (a.ackFn C index ctx res).1.ackedWG = a.ackedWG - 1) ∧
    (∀ a : awsKinesisRecordBatcher τ,
      ((a.Close true).isSome = true ↔ a.ackedWG = 0) ∧ (a.Close false).isSome = true) := by
  have hc := run_counter C
    (World.init (NewPolicy complete) checkpointer streamID shardID sequence) evs
  have h0 : (World.init (NewPolicy complete) checkpointer streamID shardID sequence).a.ackedWG
      - (((World.init (NewPolicy complete) checkpointer streamID shardID sequence).emitted.length
          : Nat) : Int)
      - (((World.init (NewPolicy complete) checkpointer streamID shardID sequence).resolving.length
          : Nat) : Int) = 0 := by
    simp [World.init, awsKinesisRecordBatcher.init]
  rw [h0] at hc
  refine ⟨by omega, ?_, fun a index ctx res => ackFn_ackedWG C a index ctx res, ?_⟩
  · intro hat
    have hr := run_resolving_of_atomic C
      (World.init (NewPolicy complete) checkpointer streamID shardID sequence) evs hat
    have hr0 : (run C (World.init (NewPolicy complete) checkpointer streamID shardID sequence)
        evs).resolving.length = 0 := by
      rw [hr]; rfl
    rw [hr0] at hc
    push_cast at hc
    omega
  · intro a
    constructor
    · by_cases hz : a.ackedWG = 0
      · simp [awsKinesisRecordBatcher.Close, hz]
      · simp [awsKinesisRecordBatcher.Close, hz]
    · simp [awsKinesisRecordBatcher.Close]

theorem Capped.Track_success_room (c : Capped) (ctx : Context) (i : Int)
    (h : (c.Track ctx i).2 = none) : c.unresolved < c.capacity := by
  unfold Capped.Track at h
  split at h
  · simp at h
  · omega

theorem unresolved_append (c : Capped) (i : Int) :
    Capped.unresolved { c with slots := c.slots ++ [(i, false)] } = c.unresolved + 1 := by
  simp [Capped.unresolved, List.filter_append]

/-- Resolving an index does not raise the number of unresolved indices. -/
theorem Capped.Resolve_unresolved (c : Capped) (i : Int) :
    (c.Resolve i).1.unresolved ≤ c.unresolved ∧ (c.Resolve i).1.capacity = c.capacity := by
  refine ⟨?_, rfl⟩
  simp only [Capped.Resolve, Capped.unresolved]
  induction c.slots with
  | nil => simp
  | cons s rest ih =>
      obtain ⟨k, b⟩ := s
      by_cases hk : k = i
      · cases b <;> simp [List.filter_cons, hk] <;> omega
      · cases b <;> simp [List.filter_cons, hk] <;> omega

/-- Every step keeps the invariant of the capacity. -/
theorem CapInv_step (capacity : Nat) (w : World Capped) (e : Event) (h : CapInv capacity w) :
    CapInv capacity (step cappedCheckpointer w e) := by
  obtain ⟨hcap, hle⟩ := h
  cases e with
  | AddRecord r =>
      obtain ⟨h1, -⟩ := AddRecord_frame w.a r
      simp only [CapInv, step, h1]
      exact ⟨hcap, hle⟩
  | FlushMessage ctx =>
      obtain ⟨-, -, -, -, -, f6, -⟩ := flushPolicy_fields w.a
      cases hp : w.a.flushPolicy.flushedMessage with
      | none =>
          rw [step_FlushMessage_nothing cappedCheckpointer w ctx hp]
          simp only [CapInv, f6]
          exact ⟨hcap, hle⟩
      | some msg =>
          cases ht : (cappedCheckpointer.Track w.a.flushPolicy.checkpointer ctx
              w.a.flushPolicy.batchedIndex).2 with
          | some err =>
              rw [step_FlushMessage_error cappedCheckpointer w ctx msg err hp ht]
              have := Capped.Track_error w.a.flushPolicy.checkpointer ctx _ err ht
              simp only [cappedCheckpointer] at this
              simp only [CapInv, cappedCheckpointer]
              rw [this, f6]
              exact ⟨hcap, hle⟩
          | none =>
              rw [step_FlushMessage_success cappedCheckpointer w ctx msg hp ht]
              have hs := Capped.Track_success w.a.flushPolicy.checkpointer ctx
                w.a.flushPolicy.batchedIndex ht
              have hroom := Capped.Track_success_room w.a.flushPolicy.checkpointer ctx
                w.a.flushPolicy.batchedIndex ht
              simp only [cappedCheckpointer] at hs
              simp only [CapInv, cappedCheckpointer, hs, unresolved_append]
              rw [f6] at hroom ⊢
              exact ⟨hcap, by omega⟩
  | ack n ctx res =>
      cases hn : w.emitted[n]? with
      | none =>
          rw [step_ack_none _ w n ctx res hn]
          exact ⟨hcap, hle⟩
      | some e =>
          rw [step_ack_some _ w n ctx res e hn]
          obtain ⟨-, -, -, -, -, -, hcp⟩ := ackLedger_frame (w.a.ackResolve cappedCheckpointer e.index).1
            (w.a.ackResolve cappedCheckpointer e.index).2.1
            (w.a.ackResolve cappedCheckpointer e.index).2.2
          obtain ⟨h1, h2⟩ := Capped.Resolve_unresolved w.a.checkpointer e.index
          simp only [CapInv, awsKinesisRecordBatcher.ackFn, hcp]
          simp only [awsKinesisRecordBatcher.ackResolve, cappedCheckpointer]
          exact ⟨h2.trans hcap, le_trans h1 hle⟩
  | ackResolve n ctx res =>
      cases hn : w.emitted[n]? with
      | none =>
          rw [step_ackResolve_none _ w n ctx res hn]
          exact ⟨hcap, hle⟩
      | some e =>
          rw [step_ackResolve_some _ w n ctx res e hn]
          obtain ⟨h1, h2⟩ := Capped.Resolve_unresolved w.a.checkpointer e.index
          simp only [CapInv, awsKinesisRecordBatcher.ackResolve, cappedCheckpointer]
          exact ⟨h2.trans hcap, le_trans h1 hle⟩
  | ackLedger k =>
      cases hk : w.resolving[k]? with
      | none =>
          rw [step_ackLedger_none _ w k hk]
          exact ⟨hcap, hle⟩
      | some r =>
          rw [step_ackLedger_some _ w k r hk]
          obtain ⟨-, -, -, -, -, -, hcp⟩ := ackLedger_frame w.a r.1 r.2
          simp only [CapInv, hcp]
          exact ⟨hcap, hle⟩

theorem CapInv_run (complete : List Part → Bool) (capacity : Nat)
    (streamID shardID sequence : String) (evs : List Event) :
    CapInv capacity (run cappedCheckpointer
      (World.init (NewPolicy complete) (NewCapped capacity) streamID shardID sequence) evs) := by
  induction evs using List.reverseRecOn with
  | nil =>
      simp [CapInv, run, World.init, awsKinesisRecordBatcher.init, NewCapped, Capped.unresolved]
  | append_singleton evs e ih =>
      rw [run_concat]
      exact CapInv_step capacity _ e ih

theorem unresolved_of_slots (c : Capped) (l : List Emitted)
    (h : c.slots = l.map (fun e => (e.index, e.invoked))) :
    c.unresolved = (l.filter (fun e => !e.invoked)).length := by
  have key : ∀ l : List Emitted,
      ((l.map (fun e => (e.index, e.invoked))).filter (fun s => !s.2)).length
        = (l.filter (fun e => !e.invoked)).length := by
    intro l
    induction l with
    | nil => rfl
    | cons x xs ih =>
        cases hx : x.invoked <;> simp [List.filter_cons, hx, ih]
  simp only [Capped.unresolved, h]
  exact key l

/-- C15. After every execution on a new batcher whose checkpoint tracker, that
of the specification, has the capacity `capacity`, with fewer than `2^63`
records added: the emitted batches whose ack callback has not been invoked
are at most `capacity`. They are the unresolved indices of the tracker: every
emitted batch has the index that `Track` registered for it, so it was emitted
after `Track` succeeded, and `Track` succeeds only below the capacity. -/
theorem unacked_batches_bounded (complete : List Part → Bool) (capacity : Nat)
    (streamID shardID sequence : String) (evs : List Event) (hsmall : countAdds evs < 2 ^ 63) :
    ((run cappedCheckpointer (World.init (NewPolicy complete) (NewCapped capacity)
        streamID shardID sequence) evs).emitted.filter (fun e => !e.invoked)).length ≤ capacity ∧
    (run cappedCheckpointer (World.init (NewPolicy complete) (NewCapped capacity)
        streamID shardID sequence) evs).a.checkpointer.slots.map Prod.fst
      = (run cappedCheckpointer (World.init (NewPolicy complete) (NewCapped capacity)
          streamID shardID sequence) evs).emitted.map Emitted.index ∧
    (run cappedCheckpointer (World.init (NewPolicy complete) (NewCapped capacity)
        streamID shardID sequence) evs).a.checkpointer.unresolved
      = ((run cappedCheckpointer (World.init (NewPolicy complete) (NewCapped capacity)
          streamID shardID sequence) evs).emitted.filter (fun e => !e.invoked)).length := by
  have hl := LedgerInv_run complete capacity streamID shardID sequence evs hsmall
  have hc := CapInv_run complete capacity streamID shardID sequence evs
  generalize run cappedCheckpointer
    (World.init (NewPolicy complete) (NewCapped capacity) streamID shardID sequence) evs = w
    at hl hc ⊢
  have hu := unresolved_of_slots w.a.checkpointer w.emitted hl.slots
  refine ⟨?_, ?_, hu⟩
  · rw [← hu]
    exact hc.2
  · rw [hl.slots]
    simp [List.map_map, Function.comp_def]

/-- Witness of C15: with the capacity 2, the third of three flushes times out
and two batches are in flight. -/
theorem unacked_batches_bounded_witness :
    countAdds threeBatches < 2 ^ 63 ∧
    ((run cappedCheckpointer (World.init (NewPolicy exampleComplete) (NewCapped 2)
        "stream" "shard" "seed") threeBatches).emitted.filter (fun e => !e.invoked)).length ≤ 2 := by
  have h := unacked_batches_bounded exampleComplete 2 "stream" "shard" "seed" threeBatches
    (by decide)
  exact ⟨by decide, h.1⟩

/-! ## Part objects and the lazy copy of an air-gap message -/

theorem readPart_eq (h : PartHeap) (p : PartRef) :
    readPart h p = (h[p.addr]?).getD PartData.empty := by
  simp [readPart, List.getD_eq_getElem?_getD]

theorem readPart_congr (h h' : PartHeap) (p : PartRef) (e : h'[p.addr]? = h[p.addr]?) :
    readPart h' p = readPart h p := by
  rw [readPart_eq, readPart_eq, e]

theorem readPart_writePart (h : PartHeap) (p : PartRef) (d : PartData)
    (hp : p.addr < h.length) : readPart (writePart h p d) p = d := by
  rw [readPart_eq]
  simp [writePart, List.getElem?_set_self hp]

theorem writePart_other (h : PartHeap) (p : PartRef) (d : PartData) (j : Nat)
    (hj : j ≠ p.addr) : (writePart h p d)[j]? = h[j]? := by
  simp only [writePart]
  exact List.getElem?_set_ne (Ne.symm hj)

theorem writePart_length (h : PartHeap) (p : PartRef) (d : PartData) :
    (writePart h p d).length = h.length := by
  simp [writePart]

/-- What `ensureCopied` does: nothing when the part has been copied; otherwise
it adds a part object with the state of the shared one and makes the message
point to it. -/
theorem ensureCopied_spec (h : PartHeap) (a : airGapMessage) :
    (a.partCopied = true ∧ a.ensureCopied h = (h, a)) ∨
    (a.partCopied = false ∧
      a.ensureCopied h = (h ++ [readPart h a.m],
        { m := { addr := h.length, ctx := a.m.ctx }, partCopied := true })) := by
  cases hc : a.partCopied with
  | true =>
      left
      simp [airGapMessage.ensureCopied, hc]
  | false =>
      right
      simp [airGapMessage.ensureCopied, hc, partCopy]

/-- An operation that writes the state `d` into the part of the message, after
`ensureCopied`. -/
theorem write_after_ensureCopied (h : PartHeap) (a : airGapMessage)
    (f : PartHeap → PartRef → PartData) (ha : a.m.addr < h.length) :
    OpSpec h a
      (writePart (a.ensureCopied h).1 (a.ensureCopied h).2.m
        (f (a.ensureCopied h).1 (a.ensureCopied h).2.m), (a.ensureCopied h).2) true := by
  rcases ensureCopied_spec h a with ⟨hc, he⟩ | ⟨hc, he⟩
  · rw [he]
    refine ⟨?_, ?_, ?_, ?_, ?_⟩
    · simpa [writePart_length] using ha
    · intro j _ hne
      exact writePart_other _ _ _ _ (hne hc)
    · simp [hc]
    · simp [writePart_length, hc]
    · intro _
      exact Or.inl ⟨hc, rfl⟩
  · rw [he]
    refine ⟨?_, ?_, ?_, ?_, ?_⟩
    · simp [writePart_length]
    · intro j hj _
      rw [writePart_other _ _ _ _ (by simp; omega)]
      exact List.getElem?_append_left hj
    · simp [hc]
    · simp [writePart_length, hc]
    · intro _
      exact Or.inr ⟨hc, rfl⟩

theorem unchanged_OpSpec (h : PartHeap) (a : airGapMessage) (ctx : Context)
    (ha : a.m.addr < h.length) : OpSpec h a (h, { a with m := WithContext ctx a.m }) false := by
  refine ⟨?_, ?_, ?_, ?_, ?_⟩
  · simpa [WithContext] using ha
  · intro j _ _
    rfl
  · simp
  · simp
  · intro hc
    exact Or.inl ⟨hc, rfl⟩

theorem WithContext_self (a : airGapMessage) : { a with m := WithContext a.m.ctx a.m } = a := by
  cases a
  rfl

/-- Every operation meets `OpSpec`. -/
theorem apply_OpSpec (h : PartHeap) (a : airGapMessage) (op : MessageOp)
    (ha : a.m.addr < h.length) : OpSpec h a (op.apply h a) op.mutatesPart := by
  have hread : OpSpec h a (h, a) false := by
    have := unchanged_OpSpec h a a.m.ctx ha
    rw [WithContext_self] at this
    exact this
  cases op with
  | SetBytes b =>
      exact write_after_ensureCopied h a
        (fun h' p' => { readPart h' p' with data := b, structured := none }) ha
  | SetStructured i =>
      exact write_after_ensureCopied h a
        (fun h' p' => { readPart h' p' with data := [], structured := some i }) ha
  | SetContext ctx => exact unchanged_OpSpec h a ctx ha
  | MetaSet key value =>
      exact write_after_ensureCopied h a
        (fun h' p' => { readPart h' p' with
          metadata := metaSet (readPart h' p').metadata key value }) ha
  | MetaDelete key =>
      exact write_after_ensureCopied h a
        (fun h' p' => { readPart h' p' with
          metadata := metaDelete (readPart h' p').metadata key }) ha
  | Context => exact hread
  | Bytes => exact hread
  | Structured => exact hread
  | MetaGet key => exact hread
  | MetaWalk => exact hread

theorem applyOps_cons (h : PartHeap) (a : airGapMessage) (op : MessageOp)
    (ops : List MessageOp) :
    applyOps h a (op :: ops) = applyOps (op.apply h a).1 (op.apply h a).2 ops := rfl

/-- Every sequence of operations meets `OpSpec`. -/
theorem applyOps_OpSpec (ops : List MessageOp) (h : PartHeap) (a : airGapMessage)
    (ha : a.m.addr < h.length) :
    OpSpec h a (applyOps h a ops) (ops.any MessageOp.mutatesPart) := by
  induction ops generalizing h a with
  | nil =>
      have := apply_OpSpec h a .MetaWalk ha
      simpa [applyOps, MessageOp.apply, MessageOp.mutatesPart] using this
  | cons op ops ih =>
      have h1 := apply_OpSpec h a op ha
      have h2 := ih (op.apply h a).1 (op.apply h a).2 h1.valid
      rw [applyOps_cons]
      have hlen1 := h1.length
      have hlen2 := h2.length
      have hc1 := h1.copied
      have hc2 := h2.copied
      refine ⟨h2.valid, ?_, ?_, ?_, ?_⟩
      · intro j hj hne
        have hj1 : j < (op.apply h a).1.length := by omega
        rw [h2.frame j hj1 ?_, h1.frame j hj hne]
        intro hcop
        rcases h1.target hcop with ⟨hca, haddr⟩ | ⟨-, haddr⟩
        · rw [haddr]; exact hne hca
        · rw [haddr]; omega
      · rw [hc2, hc1, List.any_cons, Bool.or_assoc]
      · rw [hlen2, hlen1, hc1, List.any_cons]
        cases a.partCopied <;> cases op.mutatesPart <;>
          cases List.any ops MessageOp.mutatesPart <;> simp
      · intro hcop
        rcases h2.target hcop with ⟨hc, haddr⟩ | ⟨hc, haddr⟩
        · rcases h1.target hc with ⟨hca, haddr1⟩ | ⟨hca, haddr1⟩
          · exact Or.inl ⟨hca, haddr.trans haddr1⟩
          · exact Or.inr ⟨hca, haddr.trans haddr1⟩
        · rw [hc1] at hc
          simp only [Bool.or_eq_false_iff] at hc
          right
          refine ⟨hc.1, ?_⟩
          rw [haddr, hlen1, hc.2]
          simp

/-! ## The claims about messages -/

/-- Counterexample to C17. `SetContext`, which is not a read operation, applied
to a new air-gap message does not copy the underlying part: the heap has no
new part object, the message still points to the shared part and
`partCopied` is false. -/
theorem SetContext_does_not_copy :
    MessageOp.isRead (.SetContext { cancelled := true }) = false ∧
    (applyOps exampleHeap (newAirGapMessage examplePart)
      [.SetContext { cancelled := true }]).1.length = exampleHeap.length ∧
    (applyOps exampleHeap (newAirGapMessage examplePart)
      [.SetContext { cancelled := true }]).2.m.addr = examplePart.addr ∧
    (applyOps exampleHeap (newAirGapMessage examplePart)
      [.SetContext { cancelled := true }]).2.partCopied = false := by
  refine ⟨by decide, by decide, by decide, by decide⟩

/-- C17, amended. For every part `p` of the heap and every sequence of
operations applied to `newAirGapMessage(p)`: the payload and the metadata of
`p`, and of every part object that existed, are unchanged; the underlying
part has been copied exactly when one of the operations was `SetBytes`,
`SetStructured`, `MetaSet` or `MetaDelete`, and then once, so the copy is made
at the first of these and never by `SetContext` or by a read operation. -/
theorem airGap_copies_on_first_mutation (h : PartHeap) (p : PartRef) (ops : List MessageOp)
    (hp : p.addr < h.length) :
    readPart (applyOps h (newAirGapMessage p) ops).1 p = readPart h p ∧
    (∀ j, j < h.length → (applyOps h (newAirGapMessage p) ops).1[j]? = h[j]?) ∧
    (applyOps h (newAirGapMessage p) ops).2.partCopied = ops.any MessageOp.mutatesPart ∧
    (applyOps h (newAirGapMessage p) ops).1.length
      = h.length + (if ops.any MessageOp.mutatesPart = true then 1 else 0) ∧
    (ops.any MessageOp.mutatesPart = false →
      (applyOps h (newAirGapMessage p) ops).2.m.addr = p.addr) := by
  have hs := applyOps_OpSpec ops h (newAirGapMessage p) hp
  have hframe : ∀ j, j < h.length → (applyOps h (newAirGapMessage p) ops).1[j]? = h[j]? :=
    fun j hj => hs.frame j hj (by simp [newAirGapMessage])
  have hcop := hs.copied
  have hlen := hs.length
  simp only [newAirGapMessage, Bool.false_or, Bool.not_false, Bool.true_and] at hcop hlen
  refine ⟨?_, hframe, hcop, hlen, ?_⟩
  · exact readPart_congr _ _ _ (hframe p.addr hp)
  · intro hno
    have key : ∀ (ops : List MessageOp) (h : PartHeap) (a : airGapMessage),
        ops.any MessageOp.mutatesPart = false → (applyOps h a ops).2.m.addr = a.m.addr := by
      intro ops
      induction ops with
      | nil => intro h a _; rfl
      | cons op ops ih =>
          intro h a hany
          rw [List.any_cons, Bool.or_eq_false_iff] at hany
          rw [applyOps_cons, ih _ _ hany.2]
          cases op <;> first | rfl | simp [MessageOp.mutatesPart] at hany
    exact key ops h (newAirGapMessage p) hno

/-- Witness of C17: `MetaSet` after `SetContext` and a read makes the one copy
and leaves the part as it was. -/
theorem airGap_copies_on_first_mutation_witness :
    examplePart.addr < exampleHeap.length ∧
    readPart (applyOps exampleHeap (newAirGapMessage examplePart)
      [.SetContext { cancelled := true }, .Bytes, .MetaSet "k" "w", .SetBytes [1]]).1 examplePart
      = readPart exampleHeap examplePart ∧
    (applyOps exampleHeap (newAirGapMessage examplePart)
      [.SetContext { cancelled := true }, .Bytes, .MetaSet "k" "w", .SetBytes [1]]).1.length
      = exampleHeap.length + 1 := by
  have h := airGap_copies_on_first_mutation exampleHeap examplePart
    [.SetContext { cancelled := true }, .Bytes, .MetaSet "k" "w", .SetBytes [1]] (by decide)
  exact ⟨by decide, h.1, h.2.2.2.1⟩

theorem metaGet_metaSet_ne (m : Metadata) (k k' v : String) (h : k ≠ k') :
    metaGet (metaSet m k' v) k = metaGet m k := by
  induction m with
  | nil =>
      have : ¬ k' = k := fun e => h e.symm
      simp [metaSet, metaGet, this]
  | cons e rest ih =>
      obtain ⟨k0, v0⟩ := e
      by_cases h0 : k0 = k'
      · have : ¬ k' = k := fun e => h e.symm
        have h1 : ¬ k0 = k := fun e => h (e.symm.trans h0)
        simp [metaSet, metaGet, h0, this]
      · by_cases h1 : k0 = k
        · subst h1
          simp [metaSet, metaGet, h]
        · simp [metaSet, metaGet, h0, h1, ih]

theorem metaGet_metaDelete (m : Metadata) (k : String) : metaGet (metaDelete m k) k = "" := by
  induction m with
  | nil => rfl
  | cons e rest ih =>
      obtain ⟨k0, v0⟩ := e
      by_cases h0 : k0 = k
      · simpa [metaDelete, List.filter_cons, h0] using ih
      · simpa [metaDelete, List.filter_cons, h0, metaGet] using ih

theorem metaGet_of_not_mem (m : Metadata) (k : String) (h : k ∉ m.map Prod.fst) :
    metaGet m k = "" := by
  induction m with
  | nil => rfl
  | cons e rest ih =>
      obtain ⟨k0, v0⟩ := e
      simp only [List.map_cons, List.mem_cons, not_or] at h
      have h0 : ¬ k0 = k := fun e => h.1 e.symm
      simp [metaGet, h0, ih h.2]

/-- Setting the pairs of a list with distinct keys one after the other gives
each key its value. -/
theorem metaGet_foldl_metaSet (kvs : List (String × String)) (acc : Metadata) (k : String) :
    (k ∉ kvs.map Prod.fst →
      metaGet (kvs.foldl (fun m kv => metaSet m kv.1 kv.2) acc) k = metaGet acc k) ∧
    (∀ v, (kvs.map Prod.fst).Nodup → (k, v) ∈ kvs →
      metaGet (kvs.foldl (fun m kv => metaSet m kv.1 kv.2) acc) k = v) := by
  induction kvs generalizing acc with
  | nil => simp
  | cons e rest ih =>
      obtain ⟨k0, v0⟩ := e
      constructor
      · intro hnot
        simp only [List.map_cons, List.mem_cons, not_or] at hnot
        simp only [List.foldl_cons]
        rw [(ih (metaSet acc k0 v0)).1 hnot.2]
        exact metaGet_metaSet_ne _ _ _ _ hnot.1
      · intro v hnd hmem
        simp only [List.map_cons, List.nodup_cons] at hnd
        simp only [List.foldl_cons]
        rcases List.mem_cons.mp hmem with heq | hmem
        · simp only [Prod.mk.injEq] at heq
          obtain ⟨rfl, rfl⟩ := heq
          rw [(ih (metaSet acc k v)).1 hnd.1]
          exact metaGet_metaSet _ _ _
        · exact (ih (metaSet acc k0 v0)).2 v hnd.2 hmem

/-- The metadata writes of `CopyMessage` touch only the new part. -/
theorem foldl_partMetaSet (kvs : List (String × String)) (h : PartHeap) (p : PartRef)
    (hp : p.addr < h.length) :
    (kvs.foldl (fun hp kv => partMetaSet hp p kv.1 kv.2) h).length = h.length ∧
    (∀ j, j ≠ p.addr → (kvs.foldl (fun hp kv => partMetaSet hp p kv.1 kv.2) h)[j]? = h[j]?) ∧
    readPart (kvs.foldl (fun hp kv => partMetaSet hp p kv.1 kv.2) h) p
      = { readPart h p with
          metadata := kvs.foldl (fun m kv => metaSet m kv.1 kv.2) (readPart h p).metadata } := by
  induction kvs generalizing h with
  | nil => exact ⟨rfl, fun _ _ => rfl, rfl⟩
  | cons e rest ih =>
      simp only [List.foldl_cons]
      have hlen : (partMetaSet h p e.1 e.2).length = h.length := writePart_length _ _ _
      obtain ⟨h1, h2, h3⟩ := ih (partMetaSet h p e.1 e.2) (by rw [hlen]; exact hp)
      refine ⟨h1.trans hlen, ?_, ?_⟩
      · intro j hj
        rw [h2 j hj]
        exact writePart_other _ _ _ _ hj
      · rw [h3]
        simp only [partMetaSet]
        rw [readPart_writePart _ _ _ hp]

/-- Counterexample to C18. For a message of another implementation `CopyMessage`
copies the structured payload when `Structured` reports one, and the bytes of
the copy are then the serialisation of that value: the message `foreignOne`
has the bytes of a blank and `1`, which spell its structured payload, and the
copy returns the bytes of `1` alone. -/
theorem CopyMessage_foreign_bytes_differ :
    exampleCodec.unmarshal foreignOne.bytes = foreignOne.structured ∧
    foreignOne.bytes = [32, 49] ∧
    (CopyMessage [] (.foreign foreignOne)).2.Bytes exampleCodec
        (CopyMessage [] (.foreign foreignOne)).1 = ([49], true) ∧
    ((CopyMessage [] (.foreign foreignOne)).2.Bytes exampleCodec
        (CopyMessage [] (.foreign foreignOne)).1).1 ≠ foreignOne.bytes := by
  refine ⟨by decide, by decide, by decide, by decide⟩

/-- C18, amended. For every air-gap message `a` with a part of the heap,
`CopyMessage` returns a message whose part has the payload and the metadata of
the part of `a`, under the same context, and changes no part object that
existed; every sequence of operations on the copy leaves every part object
that existed, the one observed through `a` among them, unchanged; and every
sequence of operations on `a` after the copy leaves the part of the copy
unchanged. For a message `msg` of another implementation the copy is built
from what the methods of `msg` return: it holds the structured payload of
`msg` if it has one, and `Structured` of the copy returns that value while
`Bytes` of the copy returns its serialisation, whatever the bytes of `msg`
are; it holds the bytes of `msg` otherwise, and `Bytes` of the copy returns
them; it has the context of `msg` and, for every pair that `MetaWalk` visits
when the keys are distinct, the value of the key; and no part object that
existed is changed by the copy or by operations on it. -/
theorem CopyMessage_independent (h : PartHeap) (a : airGapMessage) (ha : a.m.addr < h.length) :
    readPart (CopyMessage h (.airGap a)).1 (CopyMessage h (.airGap a)).2.m = readPart h a.m ∧
    (CopyMessage h (.airGap a)).2.Context = a.Context ∧
    (∀ ops j, j < h.length →
      (applyOps (CopyMessage h (.airGap a)).1 (CopyMessage h (.airGap a)).2 ops).1[j]? = h[j]?) ∧
    (∀ ops,
      readPart (applyOps (CopyMessage h (.airGap a)).1 (CopyMessage h (.airGap a)).2 ops).1 a.m
        = readPart h a.m) ∧
    (∀ ops,
      readPart (applyOps (CopyMessage h (.airGap a)).1 a ops).1 (CopyMessage h (.airGap a)).2.m
        = readPart (CopyMessage h (.airGap a)).1 (CopyMessage h (.airGap a)).2.m) ∧
    (∀ msg : ForeignMessage,
      (readPart (CopyMessage h (.foreign msg)).1 (CopyMessage h (.foreign msg)).2.m).structured
        = msg.structured ∧
      (msg.structured = none →
        (readPart (CopyMessage h (.foreign msg)).1 (CopyMessage h (.foreign msg)).2.m).data
          = msg.bytes) ∧
      (CopyMessage h (.foreign msg)).2.Context = msg.context ∧
      (∀ k v, (msg.metadata.map Prod.fst).Nodup → (k, v) ∈ msg.metadata →
        ((CopyMessage h (.foreign msg)).2.MetaGet (CopyMessage h (.foreign msg)).1 k).1 = v) ∧
      (∀ ops j, j < h.length →
        (applyOps (CopyMessage h (.foreign msg)).1 (CopyMessage h (.foreign msg)).2 ops).1[j]?
          = h[j]?) ∧
      (∀ (codec : Codec) (s : Structured), msg.structured = some s →
        (CopyMessage h (.foreign msg)).2.Structured codec (CopyMessage h (.foreign msg)).1
          = (some s, true) ∧
        (CopyMessage h (.foreign msg)).2.Bytes codec (CopyMessage h (.foreign msg)).1
          = (codec.marshal s, decide (codec.marshal s ≠ []))) ∧
      (∀ codec : Codec, msg.structured = none →
        (CopyMessage h (.foreign msg)).2.Bytes codec (CopyMessage h (.foreign msg)).1
          = (msg.bytes, decide (msg.bytes ≠ [])))) := by
  have hcopy : CopyMessage h (.airGap a)
      = (h ++ [readPart h a.m],
          { m := { addr := h.length, ctx := a.m.ctx }, partCopied := true }) := rfl
  have hold : ∀ j, j < h.length → (h ++ [readPart h a.m])[j]? = h[j]? :=
    fun j hj => List.getElem?_append_left hj
  have hnew : readPart (h ++ [readPart h a.m]) { addr := h.length, ctx := a.m.ctx }
      = readPart h a.m := by
    rw [readPart_eq]
    simp
  have hcopyOps : ∀ ops j, j < h.length →
      (applyOps (h ++ [readPart h a.m])
        { m := { addr := h.length, ctx := a.m.ctx }, partCopied := true } ops).1[j]? = h[j]? := by
    intro ops j hj
    have hs := applyOps_OpSpec ops (h ++ [readPart h a.m])
      { m := { addr := h.length, ctx := a.m.ctx }, partCopied := true } (by simp)
    rw [hs.frame j (by simp; omega) (fun _ => by simp; omega)]
    exact hold j hj
  refine ⟨?_, rfl, ?_, ?_, ?_, ?_⟩
  · rw [hcopy]; exact hnew
  · rw [hcopy]; exact hcopyOps
  · intro ops
    exact readPart_congr _ _ _ (hcopyOps ops a.m.addr ha)
  · intro ops
    have hs := applyOps_OpSpec ops (h ++ [readPart h a.m]) a (by simp; omega)
    exact readPart_congr _ _ _ (hs.frame h.length (by simp) (fun _ => by omega))
  · intro msg
    -- the new part of the copy
    have hp : (allocPart h).2.addr < (allocPart h).1.length := by simp [allocPart]
    have hread0 : readPart (allocPart h).1 (allocPart h).2 = PartData.empty := by
      rw [readPart_eq]
      simp [allocPart]
    have hpay : ∀ h1 : PartHeap, h1.length = (allocPart h).1.length →
        (∀ j, j < h.length → h1[j]? = h[j]?) →
        (allocPart h).2.addr < h1.length →
        (∀ ops j, j < h.length →
          (applyOps (msg.metadata.foldl (fun hp kv => partMetaSet hp (allocPart h).2 kv.1 kv.2) h1)
            { m := WithContext msg.context (allocPart h).2, partCopied := true } ops).1[j]?
            = h[j]?) := by
      intro h1 hlen hfr hv ops j hj
      obtain ⟨f1, f2, -⟩ := foldl_partMetaSet msg.metadata h1 (allocPart h).2 hv
      have hs := applyOps_OpSpec ops
        (msg.metadata.foldl (fun hp kv => partMetaSet hp (allocPart h).2 kv.1 kv.2) h1)
        { m := WithContext msg.context (allocPart h).2, partCopied := true }
        (by rw [f1]; exact hv)
      have hjlen : j < h1.length := by rw [hlen]; simp [allocPart]; omega
      have hjne : j ≠ (allocPart h).2.addr := by simp [allocPart]; omega
      rw [hs.frame j (by rw [f1]; exact hjlen) (fun _ => hjne), f2 j hjne]
      exact hfr j hj
    cases hst : msg.structured with
    | some s =>
        have hc : CopyMessage h (.foreign msg)
            = (msg.metadata.foldl (fun hp kv => partMetaSet hp (allocPart h).2 kv.1 kv.2)
                (partSetJSON (allocPart h).1 (allocPart h).2 s),
              { m := WithContext msg.context (allocPart h).2, partCopied := true }) := by
          simp [CopyMessage, hst]
        have hlen1 : (partSetJSON (allocPart h).1 (allocPart h).2 s).length
            = (allocPart h).1.length := writePart_length _ _ _
        have hv1 : (allocPart h).2.addr < (partSetJSON (allocPart h).1 (allocPart h).2 s).length := by
          rw [hlen1]; exact hp
        obtain ⟨-, -, f3⟩ := foldl_partMetaSet msg.metadata
          (partSetJSON (allocPart h).1 (allocPart h).2 s) (allocPart h).2 hv1
        have hread1 : readPart (partSetJSON (allocPart h).1 (allocPart h).2 s) (allocPart h).2
            = { PartData.empty with data := [], structured := some s } := by
          simp only [partSetJSON]
          rw [readPart_writePart _ _ _ hp, hread0]
        have hfr1 : ∀ j, j < h.length →
            (partSetJSON (allocPart h).1 (allocPart h).2 s)[j]? = h[j]? := by
          intro j hj
          rw [partSetJSON, writePart_other _ _ _ _ (by simp [allocPart]; omega)]
          exact List.getElem?_append_left hj
        rw [hc]
        have hrd : readPart
            (msg.metadata.foldl (fun hp kv => partMetaSet hp (allocPart h).2 kv.1 kv.2)
              (partSetJSON (allocPart h).1 (allocPart h).2 s))
            (WithContext msg.context (allocPart h).2)
            = { PartData.empty with
                data := [], structured := some s,
                metadata := msg.metadata.foldl (fun m kv => metaSet m kv.1 kv.2) [] } := by
          have : readPart
              (msg.metadata.foldl (fun hp kv => partMetaSet hp (allocPart h).2 kv.1 kv.2)
                (partSetJSON (allocPart h).1 (allocPart h).2 s))
              (WithContext msg.context (allocPart h).2)
              = readPart
              (msg.metadata.foldl (fun hp kv => partMetaSet hp (allocPart h).2 kv.1 kv.2)
                (partSetJSON (allocPart h).1 (allocPart h).2 s)) (allocPart h).2 := rfl
          rw [this, f3, hread1]
          rfl
        refine ⟨?_, ?_, rfl, ?_, hpay _ hlen1 hfr1 hv1, ?_, ?_⟩
        · rw [hrd]
        · intro hn
          cases hn
        · intro k v hnd hmem
          simp only [airGapMessage.MetaGet, partMetaGet]
          rw [hrd]
          exact (metaGet_foldl_metaSet msg.metadata [] k).2 v hnd hmem
        · intro codec s' hs'
          simp only [Option.some.injEq] at hs'
          subst hs'
          simp [airGapMessage.Structured, airGapMessage.Bytes, partJSON, partGet, hrd]
        · intro codec hn
          cases hn
    | none =>
        have hc : CopyMessage h (.foreign msg)
            = (msg.metadata.foldl (fun hp kv => partMetaSet hp (allocPart h).2 kv.1 kv.2)
                (partSet (allocPart h).1 (allocPart h).2 msg.bytes),
              { m := WithContext msg.context (allocPart h).2, partCopied := true }) := by
          simp [CopyMessage, hst]
        have hlen1 : (partSet (allocPart h).1 (allocPart h).2 msg.bytes).length
            = (allocPart h).1.length := writePart_length _ _ _
        have hv1 : (allocPart h).2.addr
            < (partSet (allocPart h).1 (allocPart h).2 msg.bytes).length := by
          rw [hlen1]; exact hp
        obtain ⟨-, -, f3⟩ := foldl_partMetaSet msg.metadata
          (partSet (allocPart h).1 (allocPart h).2 msg.bytes) (allocPart h).2 hv1
        have hread1 : readPart (partSet (allocPart h).1 (allocPart h).2 msg.bytes) (allocPart h).2
            = { PartData.empty with data := msg.bytes, structured := none } := by
          simp only [partSet]
          rw [readPart_writePart _ _ _ hp, hread0]
        have hfr1 : ∀ j, j < h.length →
            (partSet (allocPart h).1 (allocPart h).2 msg.bytes)[j]? = h[j]? := by
          intro j hj
          rw [partSet, writePart_other _ _ _ _ (by simp [allocPart]; omega)]
          exact List.getElem?_append_left hj
        rw [hc]
        have hrd : readPart
            (msg.metadata.foldl (fun hp kv => partMetaSet hp (allocPart h).2 kv.1 kv.2)
              (partSet (allocPart h).1 (allocPart h).2 msg.bytes))
            (WithContext msg.context (allocPart h).2)
            = { PartData.empty with
                data := msg.bytes, structured := none,
                metadata := msg.metadata.foldl (fun m kv => metaSet m kv.1 kv.2) [] } := by
          have : readPart
              (msg.metadata.foldl (fun hp kv => partMetaSet hp (allocPart h).2 kv.1 kv.2)
                (partSet (allocPart h).1 (allocPart h).2 msg.bytes))
              (WithContext msg.context (allocPart h).2)
              = readPart
              (msg.metadata.foldl (fun hp kv => partMetaSet hp (allocPart h).2 kv.1 kv.2)
                (partSet (allocPart h).1 (allocPart h).2 msg.bytes)) (allocPart h).2 := rfl
          rw [this, f3, hread1]
          rfl
        refine ⟨?_, ?_, rfl, ?_, hpay _ hlen1 hfr1 hv1, ?_, ?_⟩
        · rw [hrd]
        · intro _
          rw [hrd]
        · intro k v hnd hmem
          simp only [airGapMessage.MetaGet, partMetaGet]
          rw [hrd]
          exact (metaGet_foldl_metaSet msg.metadata [] k).2 v hnd hmem
        · intro codec s' hs'
          cases hs'
        · intro codec _
          simp only [airGapMessage.Bytes, partGet, hrd]

/-- Witness of C18: the copy of a new air-gap message of the example part. -/
theorem CopyMessage_independent_witness :
    (newAirGapMessage examplePart).m.addr < exampleHeap.length ∧
    readPart (CopyMessage exampleHeap (.airGap (newAirGapMessage examplePart))).1
        (CopyMessage exampleHeap (.airGap (newAirGapMessage examplePart))).2.m
      = readPart exampleHeap (newAirGapMessage examplePart).m :=
  ⟨by decide,
    (CopyMessage_independent exampleHeap (newAirGapMessage examplePart) (by decide)).1⟩

/-- C20. For every air-gap message with a part of the heap, every key and every
value: after `MetaSet(key, value)`, `MetaGet(key)` returns the value, with
true when the value is not the empty string and with false when it is; a key
set to the empty string is reported as a key removed by `MetaDelete` and as a
key that is not set are, with the empty string and false. -/
theorem MetaSet_MetaGet_round_trip (h : PartHeap) (a : airGapMessage) (key value : String)
    (ha : a.m.addr < h.length) :
    (a.MetaSet h key value).2.MetaGet (a.MetaSet h key value).1 key
      = (value, decide (value ≠ "")) ∧
    (value ≠ "" → (a.MetaSet h key value).2.MetaGet (a.MetaSet h key value).1 key = (value, true)) ∧
    (a.MetaSet h key "").2.MetaGet (a.MetaSet h key "").1 key = ("", false) ∧
    (a.MetaDelete h key).2.MetaGet (a.MetaDelete h key).1 key = ("", false) ∧
    (key ∉ (readPart h a.m).metadata.map Prod.fst → a.MetaGet h key = ("", false)) := by
  have hv : (a.ensureCopied h).2.m.addr < (a.ensureCopied h).1.length := by
    rcases ensureCopied_spec h a with ⟨-, he⟩ | ⟨-, he⟩
    · rw [he]; exact ha
    · rw [he]; simp
  have hset : ∀ v, (a.MetaSet h key v).2.MetaGet (a.MetaSet h key v).1 key
      = (v, decide (v ≠ "")) := by
    intro v
    simp only [airGapMessage.MetaSet, airGapMessage.MetaGet, partMetaGet, partMetaSet,
      readPart_writePart _ _ _ hv, metaGet_metaSet]
  refine ⟨hset value, ?_, ?_, ?_, ?_⟩
  · intro hne
    rw [hset value]
    simp [hne]
  · rw [hset ""]
    simp
  · simp only [airGapMessage.MetaDelete, airGapMessage.MetaGet, partMetaGet, partMetaDelete,
      readPart_writePart _ _ _ hv, metaGet_metaDelete]
    simp
  · intro hnot
    simp only [airGapMessage.MetaGet, partMetaGet, metaGet_of_not_mem _ _ hnot]
    simp

/-- Witness of C20: the key `k` of a new air-gap message of the example part,
set to `w`. -/
theorem MetaSet_MetaGet_round_trip_witness :
    (newAirGapMessage examplePart).m.addr < exampleHeap.length ∧
    ((newAirGapMessage examplePart).MetaSet exampleHeap "k" "w").2.MetaGet
        ((newAirGapMessage examplePart).MetaSet exampleHeap "k" "w").1 "k"
      = ("w", decide ("w" ≠ "")) :=
  ⟨by decide,
    (MetaSet_MetaGet_round_trip exampleHeap (newAirGapMessage examplePart) "k" "w"
      (by decide)).1⟩

end Benthos
